import Mathlib

/-! # jdgo: reader, printer and data model

A shallow embedding of `types/types.go` and `reader/reader.go` of the jdgo
interpreter, followed by theorems about tokenizing, reading and printing.

Go strings are modelled as lists of characters (`Str`), i.e. as the sequence
of code points of a valid UTF-8 string.  The host `int` is the 64-bit signed
integer.  A Go function returning `(value, error)` returns a `Res`; a Go
`panic` is the third outcome of `Res`.
-/

namespace Jdgo

/-- A Go string, as its sequence of code points. -/
abbrev Str := List Char

/-- Outcome of a Go call returning `(value, error)`, or aborting by `panic`. -/
inductive Res (α : Type) where
  | ok (v : α)
  | error (msg : Str)
  | panic
deriving DecidableEq, Repr

/-! ## Go standard library functions used by the source -/

/-- Go `strings.HasPrefix`. -/
def HasPrefix (s pre : Str) : Bool := pre.isPrefixOf s

/-- Go `strings.TrimLeft`: drop every leading code point contained in `cutset`. -/
def TrimLeft (s cutset : Str) : Str := s.dropWhile (fun c => cutset.contains c)

/-- Go `strings.TrimRight`: drop every trailing code point contained in `cutset`. -/
def TrimRight (s cutset : Str) : Str :=
  (s.reverse.dropWhile (fun c => cutset.contains c)).reverse

/-- Go `strings.Join`. -/
def Join : List Str → Str → Str
  | [], _ => []
  | [a], _ => a
  | a :: b :: rest, sep => a ++ sep ++ Join (b :: rest) sep

/-- Scan of `strings.Replace(s, old, new, -1)` for a non-empty `old`: the first
argument counts the characters of a matched occurrence still to be skipped. -/
def replaceScan (old new : Str) : Nat → Str → Str
  | _, [] => []
  | k + 1, _ :: cs => replaceScan old new k cs
  | 0, c :: cs =>
    if old.isPrefixOf (c :: cs) then new ++ replaceScan old new (old.length - 1) cs
    else c :: replaceScan old new 0 cs

/-- Go `strings.Replace(s, old, new, -1)`: every non-overlapping occurrence of
`old`, found left to right, is replaced by `new`; an empty `old` matches before
every code point and at the end. -/
def Replace (s old new : Str) : Str :=
  if old = [] then new ++ s.flatMap (fun c => c :: new) else replaceScan old new 0 s

/-- The character class `[0-9]`. -/
def isDigit (c : Char) : Bool := decide ('0' ≤ c) && decide (c ≤ '9')

/-- Lower bound of the host `int`. -/
def minInt : Int := -9223372036854775808

/-- Upper bound of the host `int`. -/
def maxInt : Int := 9223372036854775807

/-- Go `strconv.Atoi` (base 10, 64-bit): an optional sign followed by at least
one digit; `none` stands for the returned error (syntax or range). -/
def Atoi (s : Str) : Option Int :=
  let neg : Bool := s.head? = some '-'
  let ds : Str := if s.head? = some '-' ∨ s.head? = some '+' then s.tail else s
  if ds = [] ∨ ds.all isDigit = false then none
  else
    let n : Nat := ds.foldl (fun a c => 10 * a + (c.toNat - 48)) 0
    let v : Int := if neg then -(n : Int) else (n : Int)
    if v < minInt ∨ maxInt < v then none else some v

/-- Go `fmt.Sprintf("%d", v)`. -/
def formatInt (v : Int) : Str :=
  if v < 0 then '-' :: Nat.toDigits 10 v.natAbs else Nat.toDigits 10 v.natAbs

/-! ## types.go -/

/-- The native callables registered by `main` (the `f` field of `Function`). -/
inductive Builtin where
  | add | sub | mul | div | print
deriving DecidableEq, Repr

/-- The `MalType` interface with its implementations `List`, `Vector`,
`HashMap`, `Symbol`, `String`, `Int`, `Boolean`, `Nil` and `Function`.
A `HashMap` holds its entries keyed by the `String` struct (value, keyword).
`Float` has no constructor function and is built by no code path; it is left
out. -/
inductive MalType where
  | list (items : List MalType)
  | vector (items : List MalType)
  | hashMap (items : List ((Str × Bool) × MalType))
  | symbol (value : Str)
  | string (value : Str) (keyword : Bool)
  | int (value : Int)
  | boolean (value : Bool)
  | nil
  | function (name : Str) (f : Builtin)
deriving Repr

/-- `NewList(items...)`. -/
def NewList (items : List MalType) : MalType := .list items

/-- `NewSymbol`. -/
def NewSymbol (value : Str) : MalType := .symbol value

/-- `NewString`. -/
def NewString (value : Str) : MalType := .string value false

/-- `NewKeyword`: the value is `strings.TrimLeft(value, ":")`. -/
def NewKeyword (value : Str) : MalType := .string (TrimLeft value [':']) true

/-- `NewBoolean`. -/
def NewBoolean (value : Bool) : MalType := .boolean value

/-- `NewInt`: `strconv.Atoi`, and `panic` on its error. -/
def NewInt (s : Str) : Res MalType :=
  match Atoi s with
  | some v => .ok (.int v)
  | none => .panic

/-- `String.Print` on the fields of the struct. -/
def printString (value : Str) (keyword : Bool) : Str :=
  if !keyword then
    '\x22' :: Replace (Replace (Replace value ['\x5c'] ['\x5c', '\x5c'])
      ['\x22'] ['\x5c', '\x22']) ['\n'] ['\x5c', 'n'] ++ ['\x22']
  else ':' :: value

/-- Insertion into a Go map keyed by the `String` struct: an existing key keeps
its place and gets the new value. -/
def mapSet (items : List ((Str × Bool) × MalType)) (k : Str × Bool) (v : MalType) :
    List ((Str × Bool) × MalType) :=
  match items with
  | [] => [(k, v)]
  | (k1, v1) :: rest => if k1 = k then (k, v) :: rest else (k1, v1) :: mapSet rest k v

/-- The loop of `NewHashMap` over the flat sequence of forms.  A last key
without a value ends the loop here; the Go loop indexes beyond the slice there,
which `ReadHashMap` never lets happen (it passes an even number of forms). -/
def hashMapLoop : List MalType → List ((Str × Bool) × MalType) →
    List ((Str × Bool) × MalType)
  | k :: v :: rest, items =>
    match k with
    | .string value keyword => hashMapLoop rest (mapSet items (value, keyword) v)
    | _ => hashMapLoop rest items
  | _, items => items

/-- `NewHashMap`; it is only called with an even number of forms. -/
def NewHashMap (forms : List MalType) : MalType := .hashMap (hashMapLoop forms [])

mutual
/-- The `Print` method of every `MalType`.  A `HashMap` prints its entries in
the order of the entry list (Go leaves the order open). -/
def MalType.Print : MalType → Str
  | .list items =>
    TrimRight ('(' :: (printAll items).flatMap (fun s => s ++ [' '])) [' '] ++ [')']
  | .vector items => '[' :: Join (printAll items) [' '] ++ [']']
  | .hashMap items => '{' :: Join (printEntries items) [' '] ++ ['}']
  | .symbol value => value
  | .string value keyword => printString value keyword
  | .int value => formatInt value
  | .boolean value => if value then "true".toList else "false".toList
  | .nil => "nil".toList
  | .function name _ => name
/-- The printed elements of a sequence of forms, in order. -/
def printAll : List MalType → List Str
  | [] => []
  | x :: xs => x.Print :: printAll xs
/-- The printed keys and values of the entries of a `HashMap`, in order. -/
def printEntries : List ((Str × Bool) × MalType) → List Str
  | [] => []
  | (k, v) :: rest => printString k.1 k.2 :: v.Print :: printEntries rest
end

/-! ## reader.go: the tokenizer -/

/-- The class `\s` of Go regular expressions: tab, newline, form feed, carriage
return, space. -/
def isSpace (c : Char) : Bool :=
  c = '\t' || c = '\n' || c = '\x0c' || c = '\r' || c = ' '

/-- The class `[\s,]` that `tokenRegexp` skips before a token. -/
def isSeparator (c : Char) : Bool := isSpace c || c = ','

/-- The class of single-character tokens: square brackets, braces, parentheses,
quote, backquote, tilde, caret, at-sign. -/
def isSpecial (c : Char) : Bool :=
  c = '[' || c = ']' || c = '{' || c = '}' || c = '(' || c = ')' || c = '\x27' ||
    c = '\x60' || c = '~' || c = '^' || c = '@'

/-- The negated class of the last alternative of `tokenRegexp`: everything but
whitespace, square brackets, braces, parentheses, quote, double quote,
backquote, comma and semicolon. -/
def isPlain (c : Char) : Bool :=
  !(isSpace c || c = '[' || c = ']' || c = '{' || c = '}' || c = '(' || c = '\x27' ||
    c = '\x22' || c = '\x60' || c = ',' || c = ';' || c = ')')

/-- The greedy group `(?:\\.|[^\\"])*` shared by `tokenRegexp` and the string
pattern of `ReadAtom`: a backslash takes the next character with it unless that
is a newline (`.` does not match a newline), any character other than a
backslash or a double quote stands alone.  Returns the text matched and the
rest. -/
def stringBody : Str → Str × Str
  | [] => ([], [])
  | c :: rest =>
    if c = '\x5c' then
      match rest with
      | [] => ([], c :: rest)
      | d :: rest2 =>
        if d = '\n' then ([], c :: rest)
        else (c :: d :: (stringBody rest2).1, (stringBody rest2).2)
    else if c = '\x22' then ([], c :: rest)
    else (c :: (stringBody rest).1, (stringBody rest).2)

/-- The capture group of `tokenRegexp` at the start of `s`, alternatives tried
in order: the splice marker, a single-character token, a string literal with an
optional closing quote, a comment up to the end of the line, a run of plain
characters (possibly empty).  Returns the token and the rest. -/
def matchToken (s : Str) : Str × Str :=
  match s with
  | [] => ([], [])
  | c :: rest =>
    if c = '~' ∧ rest.head? = some '@' then (['~', '@'], rest.tail)
    else if isSpecial c then ([c], rest)
    else if c = '\x22' then
      match (stringBody rest).2 with
      | [] => (c :: (stringBody rest).1, [])
      | d :: rest2 =>
        if d = '\x22' then (c :: (stringBody rest).1 ++ [d], rest2)
        else (c :: (stringBody rest).1, d :: rest2)
    else if c = ';' then
      (c :: rest.takeWhile (fun d => d != '\n'), rest.dropWhile (fun d => d != '\n'))
    else ((c :: rest).takeWhile isPlain, (c :: rest).dropWhile isPlain)

/-- The loop of `FindAllStringSubmatch` for `tokenRegexp`, collecting group 1.
`s` is the text from the current position on and `prev` tells whether the
previous match ended at the current position.  A match always starts at the
current position (the expression can match the empty string); an empty match
right after a match is dropped, and after an empty match the position moves on
by one code point or, at the end of the text, the loop stops. -/
def allMatches : Nat → Str → Bool → List Str
  | 0, _, _ => []
  | fuel + 1, s, prev =>
    let m := matchToken (s.dropWhile isSeparator)
    if m.2.length = s.length then
      let out : List Str := if prev then [] else [m.1]
      match s with
      | [] => out
      | _ :: s1 => out ++ allMatches fuel s1 false
    else m.1 :: allMatches fuel m.2 true

/-- `Tokenize`: group 1 of every match of `tokenRegexp`; at most one match
starts at each position of the input and one at its end. -/
def Tokenize (input : Str) : List Str := allMatches (input.length + 1) input false

/-! ## reader.go: the reader -/

/-- `intRegexp`, an optional minus sign followed by at least one digit, anchored
at both ends. -/
def intRegexpMatch (t : Str) : Bool :=
  let ds : Str := if t.head? = some '-' then t.tail else t
  !ds.isEmpty && ds.all isDigit

/-- The string pattern of `ReadAtom`: a double quote, the group of
`stringBody`, a double quote, anchored at both ends. -/
def stringRegexpMatch (t : Str) : Bool :=
  match t with
  | [] => false
  | c :: rest => c = '\x22' && decide ((stringBody rest).2 = ['\x22'])

/-- The sentinel character U+029E of the string decoding. -/
def sentinel : Char := 'ʞ'

/-- The `Reader` struct. -/
structure Reader where
  tokens : List Str
  position : Nat
deriving DecidableEq, Repr

/-- `NewReader`. -/
def NewReader (tokens : List Str) : Reader := ⟨tokens, 0⟩

/-- `Reader.Peek`. -/
def Reader.Peek (r : Reader) : Res Str :=
  match r.tokens.get? r.position with
  | none => .error "EOF".toList
  | some t => .ok t

/-- `Reader.Next`: the result and the reader afterwards. -/
def Reader.Next (r : Reader) : Res Str × Reader :=
  match r.Peek with
  | .ok t => (.ok t, ⟨r.tokens, r.position + 1⟩)
  | .error e => (.error e, r)
  | .panic => (.panic, r)

/-- `Reader.ReadAtom`: the result and the reader afterwards. -/
def Reader.ReadAtom (r : Reader) : Res MalType × Reader :=
  match r.Next with
  | (.error e, r1) => (.error e, r1)
  | (.panic, r1) => (.panic, r1)
  | (.ok t, r1) =>
    if intRegexpMatch t then (NewInt t, r1)
    else if HasPrefix t [':'] then (.ok (NewKeyword t), r1)
    else if stringRegexpMatch t then
      let str := (t.drop 1).take (t.length - 1 - 1)
      let s := Replace (Replace (Replace (Replace str ['\x5c', '\x5c'] [sentinel])
        ['\x5c', '\x22'] ['\x22']) ['\x5c', 'n'] ['\n']) [sentinel] ['\x5c']
      (.ok (NewString s), r1)
    else if HasPrefix t ['\x22'] then (.error "EOF".toList, r1)
    else if t = "true".toList then (.ok (NewBoolean true), r1)
    else if t = "false".toList then (.ok (NewBoolean false), r1)
    else if t = "nil".toList then (.ok .nil, r1)
    else (.ok (NewSymbol t), r1)

/-- The reader-macro cases of `ReadForm`: what is built from the result of the
recursive `ReadForm` call. -/
def wrapMacro (name : Str) : Res MalType × Reader → Res MalType × Reader
  | (.ok form, r) => (.ok (NewList [NewSymbol name, form]), r)
  | other => other

/-- What `ReadList`, `ReadVector` and `ReadHashMap` return from the forms
collected by their loop. -/
def finishSeq (build : List MalType → Res MalType) :
    Res (List MalType) × Reader → Res MalType × Reader
  | (.ok forms, r) => (build forms, r)
  | (.error e, r) => (.error e, r)
  | (.panic, r) => (.panic, r)

/-- The end of `ReadHashMap`: an odd number of forms is an error. -/
def buildHashMap (forms : List MalType) : Res MalType :=
  if forms.length % 2 != 0 then .error "uneven number of entries in hashmap".toList
  else .ok (NewHashMap forms)

/-- What a case of the `switch` of `ReadForm` does: return an error, call
`ReadList`, `ReadVector` or `ReadHashMap` (a collection with its closing token
and what is built from the collected forms), read a form and wrap it with a
symbol (reader macros), or call `ReadAtom`. -/
inductive Dispatch where
  | fail (msg : Str)
  | collection (closer : Str) (build : List MalType → Res MalType)
  | readerMacro (name : Str)
  | atom

/-- The `switch t` of `ReadForm`. -/
def dispatch (t : Str) : Dispatch :=
  if t = [')'] then .fail "unexpected )".toList
  else if t = ['('] then .collection [')'] (fun l => .ok (.list l))
  else if t = [']'] then .fail "unexpected ]".toList
  else if t = ['['] then .collection [']'] (fun l => .ok (.vector l))
  else if t = ['}'] then .fail "unexpected \x7d".toList
  else if t = ['{'] then .collection ['}'] buildHashMap
  else if t = ['\x27'] then .readerMacro "quote".toList
  else if t = ['\x60'] then .readerMacro "quasiquote".toList
  else if t = ['~'] then .readerMacro "unquote".toList
  else if t = ['@'] then .readerMacro "deref".toList
  else if t = ['~', '@'] then .readerMacro "splice-unquote".toList
  else .atom

/-- The two skips at the entry of `ReadForm`: `Next` when the peeked token
starts with `;`, and `Next` again when it starts with `,`. -/
def Reader.skip (r : Reader) (t : Str) : Reader :=
  let r1 := if HasPrefix t [';'] then r.Next.2 else r
  if HasPrefix t [','] then r1.Next.2 else r1

mutual
/-- `Reader.ReadForm`, with the depth of calls bounded by the first argument
(`none`: bound reached).  The token is peeked once; the skips for `;` and `,`
advance the reader and the `switch` is on the token peeked at entry.
`ReadList`, `ReadVector` and `ReadHashMap` are the `collection` case: `Next`
over the opener, the loop `readSeq`, and the value built from its forms. -/
def Reader.ReadForm : Nat → Reader → Option (Res MalType × Reader)
  | 0, _ => none
  | fuel + 1, r =>
    match r.Peek with
    | .error e => some (.error e, r)
    | .panic => some (.panic, r)
    | .ok t =>
      match dispatch t with
      | .fail msg => some (.error msg, r.skip t)
      | .collection closer build =>
        match (r.skip t).Next with
        | (.ok _, r1) => (Reader.readSeq fuel closer r1 []).map (finishSeq build)
        | (.error e, r1) => some (.error e, r1)
        | (.panic, r1) => some (.panic, r1)
      | .readerMacro name =>
        (Reader.ReadForm fuel (r.skip t).Next.2).map (wrapMacro name)
      | .atom => some (r.skip t).ReadAtom
/-- The `for` loop shared by `ReadList`, `ReadVector` and `ReadHashMap` (they
differ in the closing token only): peek, stop behind the closer, else read a
form and append it.  `Next` on the closer cannot fail, the peek at the same
position having succeeded. -/
def Reader.readSeq : Nat → Str → Reader → List MalType →
    Option (Res (List MalType) × Reader)
  | 0, _, _, _ => none
  | fuel + 1, closer, r, acc =>
    match r.Peek with
    | .error e => some (.error e, r)
    | .panic => some (.panic, r)
    | .ok t =>
      if t = closer then some (.ok acc, r.Next.2)
      else
        match Reader.ReadForm fuel r with
        | none => none
        | some (.ok form, r1) => Reader.readSeq fuel closer r1 (acc ++ [form])
        | some (.error e, r1) => some (.error e, r1)
        | some (.panic, r1) => some (.panic, r1)
end

/-- A call bound that reading `tokens` never reaches: three per token and three
more. -/
def readFuel (tokens : List Str) : Nat := 3 * tokens.length + 3

/-- `READ` of `main.go`: `NewReader(Tokenize(input)).ReadForm()`. -/
def READ (input : Str) : Option (Res MalType) :=
  ((NewReader (Tokenize input)).ReadForm (readFuel (Tokenize input))).map Prod.fst

/-! ## Vocabulary of the properties -/

/-- A single bracket character as a token. -/
def isBracketToken (t : Str) : Bool :=
  t = ['('] || t = [')'] || t = ['['] || t = [']'] || t = ['{'] || t = ['}']

/-- A non-empty run of characters none of which is whitespace, a bracket, a
quote, a backquote, a double quote, a comma or a semicolon, and which does not
start with `~`, `^` or `@`. -/
def isRunToken (t : Str) : Bool :=
  match t with
  | [] => false
  | c :: cs => (c != '~' && c != '^' && c != '@') && (c :: cs).all isPlain

/-- The reader `r` seen behind the extra leading tokens `pre`. -/
def Reader.shift (pre : List Str) (r : Reader) : Reader :=
  ⟨pre ++ r.tokens, pre.length + r.position⟩

/-- The reader-macro markers with the symbol each stands for. -/
def readerMacros : List (Str × Str) :=
  [(['\x27'], "quote".toList), (['\x60'], "quasiquote".toList), (['~'], "unquote".toList),
   (['@'], "deref".toList), (['~', '@'], "splice-unquote".toList)]

/-- An integer token: a token of the integer pattern that denotes a host
integer, which `ReadAtom` turns into an `Int`. -/
def isIntToken (t : Str) : Bool := intRegexpMatch t && (Atoi t).isSome

/-- `ReadsAll r fs r1`: from the reader `r`, successive calls of `ReadForm`
succeed with the forms `fs` in order and leave the reader `r1`. -/
inductive ReadsAll : Reader → List MalType → Reader → Prop where
  | nil (r : Reader) : ReadsAll r [] r
  | cons (n : Nat) (r : Reader) (f : MalType) (r1 : Reader) (fs : List MalType) (r2 : Reader) :
      Reader.ReadForm n r = some (.ok f, r1) → ReadsAll r1 fs r2 → ReadsAll r (f :: fs) r2

/-- The text `String.Print` writes for one character of the value. -/
def escapeChar (c : Char) : Str :=
  if c = '\x5c' then ['\x5c', '\x5c']
  else if c = '\x22' then ['\x5c', '\x22']
  else if c = '\n' then ['\x5c', 'n']
  else [c]

/-- Decoding stage 1: `\\` has become the sentinel. -/
def stage1 (c : Char) : Str :=
  if c = '\x5c' then [sentinel]
  else if c = '\x22' then ['\x5c', '\x22']
  else if c = '\n' then ['\x5c', 'n']
  else [c]

/-- Decoding stage 2: `\"` has become the double quote. -/
def stage2 (c : Char) : Str :=
  if c = '\x5c' then [sentinel]
  else if c = '\x22' then ['\x22']
  else if c = '\n' then ['\x5c', 'n']
  else [c]

/-- Decoding stage 3: `\n` has become the newline. -/
def stage3 (c : Char) : Str :=
  if c = '\x5c' then [sentinel] else [c]

/-- A symbol name that survives printing and reading: a run token (non-empty,
plain characters, not starting with `~`, `^` or `@`) that is not of the
integer pattern and does not start with a colon. -/
def isSymbolName (s : Str) : Bool :=
  isRunToken s && !intRegexpMatch s && !HasPrefix s [':']

/-- A keyword name that survives printing and reading: plain characters only,
not starting with a colon. -/
def isKeywordName (k : Str) : Bool := k.all isPlain && !HasPrefix k [':']

/-- The forms of the print/read round trip: lists and vectors of such forms,
host integers, booleans, nil, strings without the sentinel character, symbols
and keywords with names as above. -/
inductive Readable : MalType → Prop where
  | list (xs : List MalType) : (∀ x ∈ xs, Readable x) → Readable (.list xs)
  | vector (xs : List MalType) : (∀ x ∈ xs, Readable x) → Readable (.vector xs)
  | int (v : Int) : minInt ≤ v → v ≤ maxInt → Readable (.int v)
  | boolean (b : Bool) : Readable (.boolean b)
  | nil : Readable .nil
  | string (s : Str) : sentinel ∉ s → Readable (.string s false)
  | symbol (s : Str) : isSymbolName s = true → Readable (.symbol s)
  | keyword (k : Str) : isKeywordName k = true → Readable (.string k true)

mutual
/-- The tokens of the printed text of a form: brackets around the tokens of the
elements for a list or a vector, the printed text itself otherwise. -/
def tokensOf : MalType → List Str
  | .list xs => ['('] :: (tokensOfAll xs ++ [[')']])
  | .vector xs => ['['] :: (tokensOfAll xs ++ [[']']])
  | .hashMap items => [(MalType.hashMap items).Print]
  | .symbol value => [value]
  | .string value keyword => [printString value keyword]
  | .int value => [formatInt value]
  | .boolean value => [(MalType.boolean value).Print]
  | .nil => ["nil".toList]
  | .function name _ => [name]
/-- The tokens of a sequence of forms. -/
def tokensOfAll : List MalType → List Str
  | [] => []
  | x :: xs => tokensOf x ++ tokensOfAll xs
end

/-- What the tokenizer and the reader need of the printed text `t` of an atom
that reads back as `f1`: it starts with a character that is no separator, does
not end in a space, is one token before any text that starts with no plain
character, is no closing bracket, is dispatched to `ReadAtom` without a skip,
and `ReadAtom` returns `f1`, which prints as `t`. -/
structure AtomText (t : Str) (f1 : MalType) : Prop where
  head : ∃ c cs, t = c :: cs ∧ isSeparator c = false
  last : ∀ c, t.getLast? = some c → c ≠ ' '
  token : ∀ rest : Str, rest.head?.all (fun c => !isPlain c) = true →
    matchToken (t ++ rest) = (t, rest)
  closer : t ≠ [')'] ∧ t ≠ [']']
  atom : dispatch t = .atom
  skip : ∀ r : Reader, r.skip t = r
  read : ∀ (pre rest : List Str), Reader.ReadAtom ⟨pre ++ t :: rest, pre.length⟩ =
    (.ok f1, ⟨pre ++ t :: rest, pre.length + 1⟩)
  print : f1.Print = t

/-- The printed text of a form: it starts with a character that is no
separator, does not end in a space, and its first token is no closing bracket
of a list or vector. -/
structure Shape (f : MalType) : Prop where
  head : ∃ c cs, f.Print = c :: cs ∧ isSeparator c = false
  last : ∀ c, f.Print.getLast? = some c → c ≠ ' '
  first : ∃ t ts, tokensOf f = t :: ts ∧ t ≠ [')'] ∧ t ≠ [']']

/-- The tokenizer on the printed text of `f`, behind at most one space and
before text that starts with no plain character, yields the tokens of `f` and
goes on with the rest. -/
def TokOK (f : MalType) : Prop :=
  ∀ (sp rest : Str) (b : Bool) (n : Nat), (sp = [] ∨ sp = [' ']) →
    rest.head?.all (fun c => !isPlain c) = true → (sp ++ (f.Print ++ rest)).length < n →
    allMatches n (sp ++ (f.Print ++ rest)) b = tokensOf f ++ allMatches n rest true

/-- The reader on the tokens of `f`, behind the tokens `pre` and before the
tokens `rest`, with a call bound of twice the number of tokens: it succeeds
with a form that prints as `f` does and leaves the cursor behind the tokens
of `f`. -/
def ReadOK (f : MalType) : Prop :=
  ∀ (pre rest : List Str) (n : Nat), 2 * (tokensOf f).length ≤ n →
    ∃ f1, Reader.ReadForm n ⟨pre ++ (tokensOf f ++ rest), pre.length⟩ =
        some (.ok f1, ⟨pre ++ (tokensOf f ++ rest), pre.length + (tokensOf f).length⟩) ∧
      f1.Print = f.Print

/-! ## types.go: environments -/

/-- A Go `map[string]MalType`, as the list of its entries (no key twice). -/
abbrev Scope := List (Str × MalType)

/-- Lookup `v, ok := items[k]` in a scope. -/
def scopeGet : Scope → Str → Option MalType
  | [], _ => none
  | (k1, v1) :: rest, k => if k1 = k then some v1 else scopeGet rest k

/-- Assignment `items[k] = v` in a scope: an existing key gets the new value, a
new key is added. -/
def scopeSet : Scope → Str → MalType → Scope
  | [], k, v => [(k, v)]
  | (k1, v1) :: rest, k, v => if k1 = k then (k, v) :: rest else (k1, v1) :: scopeSet rest k v

/-- The `Env` struct: its own scope `items` and the enclosing `outer`
environment, absent (`nil`) for a root. -/
inductive Env where
  | root (items : Scope)
  | child (items : Scope) (outer : Env)
deriving Repr

/-- The `items` field. -/
def Env.items : Env → Scope
  | .root items => items
  | .child items _ => items

/-- The `outer` field (`none`: `nil`). -/
def Env.outer : Env → Option Env
  | .root _ => none
  | .child _ outer => some outer

/-- `NewEnv(outer)`: an empty scope in front of `outer`. -/
def NewEnv : Option Env → Env
  | none => .root []
  | some outer => .child [] outer

/-- `Env.Set`: `env.items[k.value] = v`; the argument is the name of the
symbol. -/
def Env.Set : Env → Str → MalType → Env
  | .root items, k, v => .root (scopeSet items k v)
  | .child items outer, k, v => .child (scopeSet items k v) outer

/-- `Env.Find`: the loop from the environment outwards; the argument is the
name of the symbol. -/
def Env.Find : Env → Str → Res MalType
  | .root items, k =>
    match scopeGet items k with
    | some v => .ok v
    | none => .error ("\x27".toList ++ k ++ "\x27 not found".toList)
  | .child items outer, k =>
    match scopeGet items k with
    | some v => .ok v
    | none => outer.Find k

/-- `Env.Get`. -/
def Env.Get (env : Env) (k : Str) : Res MalType := env.Find k

/-! ## step3_env: the evaluator -/

/-- The host `int` holding the integer `x`: 64-bit two's complement. -/
def wrapInt (x : Int) : Int := (x + 9223372036854775808) % 18446744073709551616 - 9223372036854775808

/-- `NewIntFromInt`. -/
def NewIntFromInt (i : Int) : MalType := .int i

/-- The common body of the builtins `+`, `-`, `*` and `/`: `args[0]` and
`args[1]` must be `Int`s (an index beyond the arguments aborts), then the
operation is applied.  `detail` tells whether the error names the printed
operand (`+` and `*`) or not (`-` and `/`). -/
def binaryInt (detail : Bool) (op : Int → Int → Res MalType) (args : List MalType) :
    Res MalType :=
  match args with
  | [] => .panic
  | x :: rest =>
    match x with
    | .int a =>
      match rest with
      | [] => .panic
      | y :: _ =>
        match y with
        | .int b => op a b
        | _ =>
          .error (if detail then "argument is not an Int: ".toList ++ y.Print
            else "argument is not an Int".toList)
    | _ =>
      .error (if detail then "argument is not an Int: ".toList ++ x.Print
        else "argument is not an Int".toList)

/-- `Function.Eval` for the callables registered by `main`; the integer
division of the host truncates toward zero and aborts on a zero divisor; the
output of `print` is not modelled. -/
def Builtin.Eval (f : Builtin) (args : List MalType) : Res MalType :=
  match f with
  | .add => binaryInt true (fun a b => .ok (NewIntFromInt (wrapInt (a + b)))) args
  | .sub => binaryInt false (fun a b => .ok (NewIntFromInt (wrapInt (a - b)))) args
  | .mul => binaryInt true (fun a b => .ok (NewIntFromInt (wrapInt (a * b)))) args
  | .div => binaryInt false
      (fun a b => if b = 0 then .panic else .ok (NewIntFromInt (wrapInt (Int.tdiv a b)))) args
  | .print => .ok .nil

/-- The end of `apply`: the evaluated list must start with a `Function`, which
is called with the rest (`First` and `Rest` fail on an empty list). -/
def applyEvaluated (el : List MalType) : Res MalType :=
  match el with
  | [] => .error "can\x27t take first of empty list".toList
  | l0 :: args =>
    match l0 with
    | .function _ f => f.Eval args
    | _ => .error (l0.Print ++ " is not a function".toList)

/-- The values of the entries of a `HashMap` put back under their keys. -/
def zipValues : List ((Str × Bool) × MalType) → List MalType → List ((Str × Bool) × MalType)
  | (k, _) :: rest, v :: vs => (k, v) :: zipValues rest vs
  | _, _ => []

/-- The type assertion `head.(*Symbol)` together with the `switch` on the name:
whether the form is the symbol called `name`. -/
def MalType.isSymbolNamed (f : MalType) (name : Str) : Bool :=
  match f with
  | .symbol value => value = name
  | _ => false

/-- The type switch of `let*` on the bindings form: the items of a `List` or a
`Vector`, nothing for any other form. -/
def MalType.seqItems (f : MalType) : Option (List MalType) :=
  match f with
  | .list items => some items
  | .vector items => some items
  | _ => none

mutual
/-- `EVAL`, with the depth of calls bounded by the first argument (`none`:
bound reached); the result and the environment afterwards. -/
def EVAL : Nat → MalType → Env → Option (Res MalType × Env)
  | 0, _, _ => none
  | fuel + 1, ast, env =>
    match ast with
    | .list items => if items.length = 0 then some (.ok ast, env) else apply fuel items env
    | _ => eval_ast fuel ast env
/-- `apply` on the items of the list: the special forms `def!` and `let*` when
the head is that symbol, else the generic application.  An index beyond the
remaining forms aborts.  The error returned by `BindEnv` is dropped.  The child
environment of `let*` is given up at the end and the environment it was made
from is the one left. -/
def apply : Nat → List MalType → Env → Option (Res MalType × Env)
  | 0, _, _ => none
  | fuel + 1, items, env =>
    match items with
    | [] => some (.error "can\x27t apply an empty list".toList, env)
    | head :: rest =>
      if head.isSymbolNamed "def!".toList then
        match rest with
        | [] => some (.panic, env)
        | keyObj :: rest1 =>
          match keyObj with
          | .symbol key =>
            match rest1 with
            | [] => some (.panic, env)
            | valueExpr :: _ =>
              match EVAL fuel valueExpr env with
              | none => none
              | some (.ok value, env1) => some (.ok value, env1.Set key value)
              | some (.error _, env1) =>
                some (.error ("unable to eval arg for def! ".toList ++ key ++ " ".toList ++
                  valueExpr.Print), env1)
              | some (.panic, env1) => some (.panic, env1)
          | _ => some (.error ("env key is not a symbol: ".toList ++ keyObj.Print), env)
      else if head.isSymbolNamed "let*".toList then
        match rest with
        | [] => some (.panic, env)
        | bindingsObj :: rest1 =>
          match bindingsObj.seqItems with
          | some bindings =>
            if bindings.length % 2 != 0 then
              some (.error ("let* bindings has an odd number of entries: ".toList ++
                bindingsObj.Print), env)
            else
              match BindEnv fuel bindings (NewEnv (some env)) with
              | none => none
              | some (.panic, newEnv) => some (.panic, (newEnv.outer).getD env)
              | some (_, newEnv) =>
                match rest1 with
                | [] => some (.panic, (newEnv.outer).getD env)
                | body :: _ =>
                  match EVAL fuel body newEnv with
                  | none => none
                  | some (r, newEnv1) => some (r, (newEnv1.outer).getD env)
          | none =>
            some (.error ("bindings is not a list or a vector: ".toList ++ bindingsObj.Print),
              env)
      else
        match eval_ast fuel (.list items) env with
        | none => none
        | some (.ok (.list el), env1) => some (applyEvaluated el, env1)
        | some (.ok _, env1) => some (.panic, env1)
        | some (.error e, env1) => some (.error e, env1)
        | some (.panic, env1) => some (.panic, env1)
/-- `eval_ast`. -/
def eval_ast : Nat → MalType → Env → Option (Res MalType × Env)
  | 0, _, _ => none
  | fuel + 1, ast, env =>
    match ast with
    | .symbol v => some (env.Get v, env)
    | .list items =>
      match mapEVAL fuel items env [] with
      | none => none
      | some (.ok r, env1) => some (.ok (.list r), env1)
      | some (.error e, env1) => some (.error e, env1)
      | some (.panic, env1) => some (.panic, env1)
    | .vector items =>
      match mapEVAL fuel items env [] with
      | none => none
      | some (.ok r, env1) => some (.ok (.vector r), env1)
      | some (.error e, env1) => some (.error e, env1)
      | some (.panic, env1) => some (.panic, env1)
    | .hashMap entries =>
      match mapEVAL fuel (entries.map Prod.snd) env [] with
      | none => none
      | some (.ok r, env1) => some (.ok (.hashMap (zipValues entries r)), env1)
      | some (.error e, env1) => some (.error e, env1)
      | some (.panic, env1) => some (.panic, env1)
    | _ => some (.ok ast, env)
/-- The loop of `List.Map` and `Vector.Map` with `EVAL` (and of `HashMap.Map`,
over the values in the order of the entry list, where Go leaves the order of
a map open): every item is evaluated in turn and the results are collected; the
first error ends the loop. -/
def mapEVAL : Nat → List MalType → Env → List MalType → Option (Res (List MalType) × Env)
  | 0, _, _, _ => none
  | fuel + 1, items, env, r =>
    match items with
    | [] => some (.ok r, env)
    | v :: rest =>
      match EVAL fuel v env with
      | none => none
      | some (.ok item, env1) => mapEVAL fuel rest env1 (r ++ [item])
      | some (.error e, env1) => some (.error e, env1)
      | some (.panic, env1) => some (.panic, env1)
/-- The loop of `List.BindEnv` and `Vector.BindEnv` with `EVAL`, over the items
from index `i` on, two at a time: the key must be a symbol, the value is
evaluated in the environment and bound there. -/
def BindEnv : Nat → List MalType → Env → Option (Res Unit × Env)
  | 0, _, _ => none
  | fuel + 1, items, env =>
    match items with
    | [] => some (.ok (), env)
    | keyObj :: rest =>
      match keyObj with
      | .symbol key =>
        match rest with
        | [] => some (.panic, env)
        | valueExpr :: rest1 =>
          match EVAL fuel valueExpr env with
          | none => none
          | some (.ok val, env1) => BindEnv fuel rest1 (env1.Set key val)
          | some (.error e, env1) => some (.error e, env1)
          | some (.panic, env1) => some (.panic, env1)
      | _ =>
        some (.error ("attempting to bind to a non symbol: ".toList ++ keyObj.Print), env)
end

/-! ## Vocabulary of the properties of the evaluator -/

/-- The scopes of an environment chain, innermost first. -/
def Env.scopes : Env → List Scope
  | .root items => [items]
  | .child items outer => items :: outer.scopes

/-- The value bound to `k` in the innermost scope of the chain that binds `k`,
if any scope does. -/
def innermostBinding (env : Env) (k : Str) : Option MalType :=
  (env.scopes.filterMap (fun s => scopeGet s k)).head?

/-- The error of `Env.Find` for the symbol named `k`. -/
def notFound (k : Str) : Str := "\x27".toList ++ k ++ "\x27 not found".toList

/-- `BindsSeq c items c2`: the flat sequence `items` is made of pairs of a
symbol and an expression; from the environment `c`, each expression in turn
evaluates successfully in the environment holding the bindings made so far and
its value is bound to its symbol there; `c2` is the environment holding them
all. -/
inductive BindsSeq : Env → List MalType → Env → Prop where
  | nil (c : Env) : BindsSeq c [] c
  | cons (n : Nat) (c : Env) (k : Str) (e v : MalType) (c1 : Env) (rest : List MalType)
      (c2 : Env) : EVAL n e c = some (.ok v, c1) → BindsSeq (c1.Set k v) rest c2 →
      BindsSeq c (.symbol k :: e :: rest) c2

/-- `EvalsAll env items vs env1`: from the environment `env`, the forms `items`
evaluate successfully one after the other to the values `vs`, leaving the
environment `env1`. -/
inductive EvalsAll : Env → List MalType → List MalType → Env → Prop where
  | nil (env : Env) : EvalsAll env [] [] env
  | cons (n : Nat) (env : Env) (x v : MalType) (env1 : Env) (xs vs : List MalType) (env2 : Env) :
      EVAL n x env = some (.ok v, env1) → EvalsAll env1 xs vs env2 →
      EvalsAll env (x :: xs) (v :: vs) env2

/-- The error of `apply` for an evaluated head `h` that is no `Function`. -/
def notCallable (h : MalType) : Str := h.Print ++ " is not a function".toList

/-- The operation of an arithmetic builtin on two host integers. -/
def arith (f : Builtin) (a b : Int) : Int :=
  match f with
  | .add => wrapInt (a + b)
  | .sub => wrapInt (a - b)
  | .mul => wrapInt (a * b)
  | .div => wrapInt (Int.tdiv a b)
  | .print => 0

mutual
/-- A form that makes no binding where it is evaluated: no list headed by the
symbol `def!` occurs in it outside the lists headed by the symbol `let*`. -/
def MalType.defFree : MalType → Bool
  | .list [] => true
  | .list (head :: rest) =>
    !head.isSymbolNamed "def!".toList &&
      (head.isSymbolNamed "let*".toList || (head.defFree && defFreeAll rest))
  | .vector items => defFreeAll items
  | .hashMap entries => defFreeEntries entries
  | _ => true
/-- Every form of the sequence is `defFree`. -/
def defFreeAll : List MalType → Bool
  | [] => true
  | x :: xs => x.defFree && defFreeAll xs
/-- Every value of the entries is `defFree`. -/
def defFreeEntries : List ((Str × Bool) × MalType) → Bool
  | [] => true
  | (_, v) :: rest => v.defFree && defFreeEntries rest
end

/-- The well-behaved forms of the structural round trip: host integers,
booleans, nil, non-keyword strings without the sentinel character, and lists
and vectors of such forms. -/
inductive WellBehaved : MalType → Prop where
  | list (xs : List MalType) : (∀ x ∈ xs, WellBehaved x) → WellBehaved (.list xs)
  | vector (xs : List MalType) : (∀ x ∈ xs, WellBehaved x) → WellBehaved (.vector xs)
  | int (v : Int) : minInt ≤ v → v ≤ maxInt → WellBehaved (.int v)
  | boolean (b : Bool) : WellBehaved (.boolean b)
  | nil : WellBehaved .nil
  | string (s : Str) : sentinel ∉ s → WellBehaved (.string s false)

/-- The reader on the tokens of `f`, behind the tokens `pre` and before the
tokens `rest`, with a call bound of twice the number of tokens: it succeeds
with `f` itself and leaves the cursor behind the tokens of `f`. -/
def ReadSame (f : MalType) : Prop :=
  ∀ (pre rest : List Str) (n : Nat), 2 * (tokensOf f).length ≤ n →
    Reader.ReadForm n ⟨pre ++ (tokensOf f ++ rest), pre.length⟩ =
      some (.ok f, ⟨pre ++ (tokensOf f ++ rest), pre.length + (tokensOf f).length⟩)

/-- Lookup `items[k]` in the entries of a `HashMap`. -/
def mapGet : List ((Str × Bool) × MalType) → Str × Bool → Option MalType
  | [], _ => none
  | (k1, v1) :: rest, k => if k1 = k then some v1 else mapGet rest k

/-- The value of the last pair of the flat sequence `k1 v1 ... kn vn` whose key
is the String or Keyword with the text and keyword flag `key`, if there is
one. -/
def lastPair : List MalType → Str × Bool → Option MalType
  | k :: v :: rest, key =>
    match lastPair rest key with
    | some w => some w
    | none =>
      match k with
      | .string value keyword => if (value, keyword) = key then some v else none
      | _ => none
  | _, _ => none

/-! # Theorems -/

/-! ## The tokenizer loop -/

theorem length_dropWhile_le {α} (p : α → Bool) (l : List α) : (l.dropWhile p).length ≤ l.length := by
  induction l with
  | nil => simp
  | cons a l ih => simp only [List.dropWhile_cons]; split <;> simp; omega

theorem stringBody_escape (d : Char) (rest : Str) (h : d ≠ '\n') :
    stringBody ('\x5c' :: d :: rest) = ('\x5c' :: d :: (stringBody rest).1, (stringBody rest).2) := by
  rw [stringBody.eq_def]; simp [h]

theorem stringBody_plain (c : Char) (rest : Str) (h1 : c ≠ '\x5c') (h2 : c ≠ '\x22') :
    stringBody (c :: rest) = (c :: (stringBody rest).1, (stringBody rest).2) := by
  rw [stringBody.eq_def]; simp [h1, h2]

theorem stringBody_quote (rest : Str) : stringBody ('\x22' :: rest) = ([], '\x22' :: rest) := by
  rw [stringBody.eq_def]; simp

theorem stringBody_length_aux (n : Nat) : ∀ s : Str, s.length ≤ n → (stringBody s).2.length ≤ s.length := by
  induction n with
  | zero => intro s h; cases s <;> simp_all [stringBody]
  | succ n ih =>
    intro s h
    match s with
    | [] => simp [stringBody]
    | [c] => simp only [stringBody]; split <;> [simp; (split <;> simp)]
    | c :: d :: rest =>
      have h1 := ih rest (by simp at h; omega)
      have h2 := ih (d :: rest) (by simp at h ⊢; omega)
      simp only [stringBody]
      split
      · split
        · simp
        · simp; omega
      · split
        · simp
        · simp at h2 ⊢; omega

theorem stringBody_length (s : Str) : (stringBody s).2.length ≤ s.length :=
  stringBody_length_aux s.length s (Nat.le_refl _)

theorem matchToken_length (s : Str) : (matchToken s).2.length ≤ s.length := by
  cases s with
  | nil => simp [matchToken]
  | cons c rest =>
    simp only [matchToken]
    split
    · simp; omega
    · split
      · simp
      · split
        · have := stringBody_length rest
          split
          · simp
          · rename_i d rest2 heq
            rw [heq] at this
            split <;> simp at this ⊢ <;> omega
        · split
          · have := length_dropWhile_le (fun d => d != '\n') rest
            simp at this ⊢; omega
          · exact length_dropWhile_le _ _

theorem allMatches_fuel (n : Nat) : ∀ (m : Nat) (s : Str) (b : Bool), s.length < n → s.length < m →
    allMatches n s b = allMatches m s b := by
  induction n with
  | zero => intro m s b h; omega
  | succ n ih =>
    intro m s b hn hm
    cases m with
    | zero => omega
    | succ m =>
      simp only [allMatches]
      have h1 := matchToken_length (s.dropWhile isSeparator)
      have h2 := length_dropWhile_le isSeparator s
      split
      · cases s with
        | nil => rfl
        | cons c s1 =>
          simp only
          rw [ih m s1 false (by simp at hn; omega) (by simp at hm; omega)]
      · rw [ih m _ true (by omega) (by omega)]

/-- The tokens from a position on, with the loop bound of `Tokenize`. -/
theorem allMatches_step (s : Str) (b : Bool) (n : Nat) (hn : s.length < n)
    (h : (matchToken (s.dropWhile isSeparator)).2.length < s.length) :
    allMatches n s b = (matchToken (s.dropWhile isSeparator)).1 ::
      allMatches n (matchToken (s.dropWhile isSeparator)).2 true := by
  cases n with
  | zero => omega
  | succ n =>
    rw [allMatches]
    simp only
    rw [if_neg (by omega)]
    rw [allMatches_fuel n (n+1) _ true (by omega) (by omega)]

theorem allMatches_nil (n : Nat) (hn : 0 < n) (b : Bool) :
    allMatches n [] b = if b then [] else [[]] := by
  cases n with
  | zero => omega
  | succ n => simp [allMatches, matchToken]

/-! ## Tokens that come back from the tokenizer -/

theorem isPlain_not_separator (c : Char) (h : isPlain c = true) : isSeparator c = false := by
  simp only [isPlain, isSeparator, Bool.not_eq_true', Bool.or_eq_false_iff, decide_eq_false_iff_not] at h ⊢
  tauto

theorem span_plain (t rest : Str) (ht : t.all isPlain = true)
    (hr : rest.head?.all (fun c => !isPlain c) = true) :
    (t ++ rest).takeWhile isPlain = t ∧ (t ++ rest).dropWhile isPlain = rest := by
  induction t with
  | nil =>
    cases rest with
    | nil => simp
    | cons c r => simp at hr; simp [hr]
  | cons a t ih =>
    simp at ht
    have := ih (by simpa using ht.2)
    simp [ht.1, this]

theorem matchToken_bracket (t rest : Str) (ht : isBracketToken t = true) :
    matchToken (t ++ rest) = (t, rest) := by
  simp only [isBracketToken, Bool.or_eq_true, decide_eq_true_eq] at ht
  rcases ht with ((((h | h) | h) | h) | h) | h <;> subst h <;> simp [matchToken, isSpecial]

theorem matchToken_run (t rest : Str) (ht : isRunToken t = true)
    (hr : rest.head?.all (fun c => !isPlain c) = true) :
    matchToken (t ++ rest) = (t, rest) := by
  cases t with
  | nil => simp [isRunToken] at ht
  | cons c cs =>
    simp only [isRunToken, Bool.and_eq_true, bne_iff_ne, ne_eq] at ht
    obtain ⟨⟨⟨h1, h2⟩, h3⟩, h4⟩ := ht
    have hc : isPlain c = true := by simp at h4; exact h4.1
    have hsp := span_plain (c :: cs) rest h4 hr
    have hspec : isSpecial c = false := by
      simp only [isPlain, isSpace, Bool.not_eq_true', Bool.or_eq_false_iff, decide_eq_false_iff_not] at hc
      simp only [isSpecial, Bool.or_eq_false_iff, decide_eq_false_iff_not]
      tauto
    have hq : c ≠ '\x22' := by
      intro h; subst h; simp [isPlain] at hc
    have hsc : c ≠ ';' := by
      intro h; subst h; simp [isPlain] at hc
    simp only [List.cons_append, matchToken, h1, false_and, if_false, hspec, Bool.false_eq_true, hq, hsc]
    rw [← List.cons_append, hsp.1, hsp.2]

/-- A bracket token or a run token. -/
theorem matchToken_good (t rest : Str) (ht : isBracketToken t = true ∨ isRunToken t = true)
    (hr : rest.head?.all (fun c => !isPlain c) = true) :
    matchToken (t ++ rest) = (t, rest) := by
  rcases ht with h | h
  · exact matchToken_bracket t rest h
  · exact matchToken_run t rest h hr

theorem good_head (t : Str) (ht : isBracketToken t = true ∨ isRunToken t = true) :
    ∃ c cs, t = c :: cs ∧ isSeparator c = false := by
  rcases ht with h | h
  · simp only [isBracketToken, Bool.or_eq_true, decide_eq_true_eq] at h
    rcases h with ((((h | h) | h) | h) | h) | h <;> subst h <;> exact ⟨_, _, rfl, by decide⟩
  · cases t with
    | nil => simp [isRunToken] at h
    | cons c cs =>
      simp only [isRunToken, Bool.and_eq_true] at h
      refine ⟨c, cs, rfl, isPlain_not_separator c ?_⟩
      have := h.2
      simp at this
      exact this.1

theorem dropWhile_sep_good (pre t rest : Str) (hpre : pre = [] ∨ pre = [' '])
    (ht : isBracketToken t = true ∨ isRunToken t = true) :
    (pre ++ (t ++ rest)).dropWhile isSeparator = t ++ rest := by
  obtain ⟨c, cs, rfl, hc⟩ := good_head t ht
  rcases hpre with h | h <;> subst h
  · simp [hc]
  · have : isSeparator ' ' = true := by decide
    simp [hc, this]

theorem Join_cons_cons (a b : Str) (rest : List Str) (sep : Str) :
    Join (a :: b :: rest) sep = a ++ sep ++ Join (b :: rest) sep := rfl

theorem allMatches_joined (ts : List Str) :
    ts ≠ [] → (∀ t ∈ ts, isBracketToken t = true ∨ isRunToken t = true) →
    ∀ (pre : Str) (b : Bool) (n : Nat), (pre = [] ∨ pre = [' ']) →
      (pre ++ Join ts [' ']).length < n → allMatches n (pre ++ Join ts [' ']) b = ts := by
  induction ts with
  | nil => intro h; exact absurd rfl h
  | cons t ts ih =>
    intro _ hgood pre b n hpre hn
    have ht := hgood t (by simp)
    obtain ⟨c, cs, hcs, _⟩ := good_head t ht
    cases ts with
    | nil =>
      have hd : (pre ++ Join [t] [' ']).dropWhile isSeparator = t ++ [] := by
        have := dropWhile_sep_good pre t [] hpre ht
        simpa [Join] using this
      have hm : matchToken (t ++ []) = (t, []) := matchToken_good t [] ht (by simp)
      rw [allMatches_step _ _ n hn (by rw [hd, hm]; subst hcs; simp [Join])]
      rw [hd, hm]
      simp only
      rw [allMatches_nil n (by omega)]
      simp
    | cons t2 ts2 =>
      have hj : Join (t :: t2 :: ts2) [' '] = t ++ (' ' :: Join (t2 :: ts2) [' ']) := by
        rw [Join_cons_cons]; simp
      rw [hj] at hn ⊢
      have hd := dropWhile_sep_good pre t (' ' :: Join (t2 :: ts2) [' ']) hpre ht
      have hm : matchToken (t ++ (' ' :: Join (t2 :: ts2) [' '])) = (t, ' ' :: Join (t2 :: ts2) [' ']) :=
        matchToken_good t _ ht (by simp; decide)
      rw [allMatches_step _ _ n hn (by rw [hd, hm]; subst hcs; simp; omega)]
      rw [hd, hm]
      simp only
      have := ih (by simp) (fun u hu => hgood u (by simp [hu])) [' '] true n (Or.inr rfl)
        (by simp at hn ⊢; omega)
      simp at this
      rw [this]

/-- C3: `Tokenize` of `(+ 1 2)` gives its five tokens, and tokens joined by single
spaces are returned unchanged: for every non-empty list `ts` of tokens, each a
single bracket character or a non-empty run of plain characters not starting
with `~`, `^` or `@`, `Tokenize (Join ts " ") = ts`. -/
theorem Tokenize_joined :
    Tokenize "(+ 1 2)".toList = ["(".toList, "+".toList, "1".toList, "2".toList, ")".toList] ∧
    ∀ ts : List Str, ts ≠ [] → (∀ t ∈ ts, isBracketToken t = true ∨ isRunToken t = true) →
      Tokenize (Join ts [' ']) = ts := by
  refine ⟨by decide, ?_⟩
  intro ts hne hgood
  have := allMatches_joined ts hne hgood [] false ((Join ts [' ']).length + 1) (Or.inl rfl) (by simp)
  simpa [Tokenize] using this

theorem Tokenize_joined_witness :
    Tokenize (Join ["(".toList, "def!".toList, "a~b".toList, "]".toList, "-12".toList] [' ']) =
      ["(".toList, "def!".toList, "a~b".toList, "]".toList, "-12".toList] :=
  Tokenize_joined.2 _ (by decide) (by decide)

/-! ## The reader: a larger call bound gives the same result -/

theorem ReadForm_unfold (n : Nat) (r : Reader) :
    Reader.ReadForm (n + 1) r =
      match r.Peek with
      | .error e => some (.error e, r)
      | .panic => some (.panic, r)
      | .ok t =>
        match dispatch t with
        | .fail msg => some (.error msg, r.skip t)
        | .collection closer build =>
          match (r.skip t).Next with
          | (.ok _, r1) => (Reader.readSeq n closer r1 []).map (finishSeq build)
          | (.error e, r1) => some (.error e, r1)
          | (.panic, r1) => some (.panic, r1)
        | .readerMacro name =>
          (Reader.ReadForm n (r.skip t).Next.2).map (wrapMacro name)
        | .atom => some (r.skip t).ReadAtom := by
  rw [Reader.ReadForm]

theorem readSeq_unfold (n : Nat) (closer : Str) (r : Reader) (acc : List MalType) :
    Reader.readSeq (n + 1) closer r acc =
      match r.Peek with
      | .error e => some (.error e, r)
      | .panic => some (.panic, r)
      | .ok t =>
        if t = closer then some (.ok acc, r.Next.2)
        else
          match Reader.ReadForm n r with
          | none => none
          | some (.ok form, r1) => Reader.readSeq n closer r1 (acc ++ [form])
          | some (.error e, r1) => some (.error e, r1)
          | some (.panic, r1) => some (.panic, r1) := by
  rw [Reader.readSeq]

theorem ReadForm_readSeq_succ (n : Nat) :
    (∀ r x, Reader.ReadForm n r = some x → Reader.ReadForm (n + 1) r = some x) ∧
    (∀ closer r acc x, Reader.readSeq n closer r acc = some x →
      Reader.readSeq (n + 1) closer r acc = some x) := by
  induction n with
  | zero =>
    constructor
    · intro r x h; simp [Reader.ReadForm] at h
    · intro c r acc x h; simp [Reader.readSeq] at h
  | succ n ih =>
    obtain ⟨ihF, ihS⟩ := ih
    constructor
    · intro r x h
      rw [ReadForm_unfold] at h ⊢
      cases hp : r.Peek with
      | error e => rw [hp] at h; exact h
      | panic => rw [hp] at h; exact h
      | ok t =>
        rw [hp] at h
        simp only at h ⊢
        cases hd : dispatch t with
        | fail msg => rw [hd] at h; exact h
        | atom => rw [hd] at h; exact h
        | readerMacro name =>
          rw [hd] at h
          simp only at h ⊢
          cases hh : Reader.ReadForm n (r.skip t).Next.2 with
          | none => rw [hh] at h; simp at h
          | some y => rw [ihF _ y hh]; rw [hh] at h; exact h
        | collection closer build =>
          rw [hd] at h
          simp only at h ⊢
          rcases hN : (r.skip t).Next with ⟨res, r1⟩
          rw [hN] at h
          cases res with
          | error e => exact h
          | panic => exact h
          | ok v =>
            simp only at h ⊢
            cases hh : Reader.readSeq n closer r1 [] with
            | none => rw [hh] at h; simp at h
            | some y => rw [ihS _ _ _ y hh]; rw [hh] at h; exact h
    · intro c r acc x h
      rw [readSeq_unfold] at h ⊢
      cases hp : r.Peek with
      | error e => rw [hp] at h; exact h
      | panic => rw [hp] at h; exact h
      | ok t =>
        rw [hp] at h
        simp only at h ⊢
        by_cases hc : t = c
        · rw [if_pos hc] at h ⊢; exact h
        · rw [if_neg hc] at h ⊢
          cases hh : Reader.ReadForm n r with
          | none => rw [hh] at h; simp at h
          | some y =>
            rw [ihF r y hh]
            rw [hh] at h
            obtain ⟨res, r1⟩ := y
            cases res with
            | ok form => exact ihS _ _ _ _ h
            | error e => exact h
            | panic => exact h

theorem ReadForm_mono {n m : Nat} (hnm : n ≤ m) {r : Reader} {x : Res MalType × Reader}
    (h : Reader.ReadForm n r = some x) : Reader.ReadForm m r = some x := by
  induction hnm with
  | refl => exact h
  | step _ ih => exact (ReadForm_readSeq_succ _).1 _ _ ih

theorem readSeq_mono {n m : Nat} (hnm : n ≤ m) {closer : Str} {r : Reader} {acc : List MalType}
    {x : Res (List MalType) × Reader}
    (h : Reader.readSeq n closer r acc = some x) : Reader.readSeq m closer r acc = some x := by
  induction hnm with
  | refl => exact h
  | step _ ih => exact (ReadForm_readSeq_succ _).2 _ _ _ _ ih

/-! ## The reader: leading tokens behind the cursor do not matter -/

theorem Peek_shift (pre : List Str) (r : Reader) : (r.shift pre).Peek = r.Peek := by
  simp only [Reader.Peek, Reader.shift]
  rw [List.get?_eq_getElem?, List.get?_eq_getElem?, List.getElem?_append_right (by omega)]
  simp

theorem Next_shift (pre : List Str) (r : Reader) :
    (r.shift pre).Next = (r.Next.1, r.Next.2.shift pre) := by
  simp only [Reader.Next, Peek_shift]
  cases r.Peek <;> simp [Reader.shift]
  omega

theorem skip_shift (pre : List Str) (r : Reader) (t : Str) :
    (r.shift pre).skip t = (r.skip t).shift pre := by
  simp only [Reader.skip, Next_shift]
  split <;> split <;> simp [Next_shift]

theorem ReadAtom_shift (pre : List Str) (r : Reader) :
    (r.shift pre).ReadAtom = (r.ReadAtom.1, r.ReadAtom.2.shift pre) := by
  simp only [Reader.ReadAtom, Next_shift]
  rcases r.Next with ⟨res, r1⟩
  cases res with
  | error e => rfl
  | panic => rfl
  | ok t =>
    simp only
    split_ifs <;> rfl

theorem finishSeq_shift (pre : List Str) (build : List MalType → Res MalType)
    (y : Res (List MalType) × Reader) :
    finishSeq build (y.1, y.2.shift pre) = ((finishSeq build y).1, (finishSeq build y).2.shift pre) := by
  rcases y with ⟨res, r⟩
  cases res <;> rfl

theorem wrapMacro_shift (pre : List Str) (name : Str) (y : Res MalType × Reader) :
    wrapMacro name (y.1, y.2.shift pre) = ((wrapMacro name y).1, (wrapMacro name y).2.shift pre) := by
  rcases y with ⟨res, r⟩
  cases res <;> rfl

theorem ReadForm_readSeq_shift (pre : List Str) (n : Nat) :
    (∀ r, Reader.ReadForm n (r.shift pre) =
      (Reader.ReadForm n r).map (fun y => (y.1, y.2.shift pre))) ∧
    (∀ closer r acc, Reader.readSeq n closer (r.shift pre) acc =
      (Reader.readSeq n closer r acc).map (fun y => (y.1, y.2.shift pre))) := by
  induction n with
  | zero => constructor <;> intros <;> simp [Reader.ReadForm, Reader.readSeq]
  | succ n ih =>
    obtain ⟨ihF, ihS⟩ := ih
    constructor
    · intro r
      rw [ReadForm_unfold, ReadForm_unfold, Peek_shift]
      cases r.Peek with
      | error e => rfl
      | panic => rfl
      | ok t =>
        simp only
        cases dispatch t with
        | fail msg => simp [skip_shift]
        | atom => simp [skip_shift, ReadAtom_shift]
        | readerMacro name =>
          simp only [skip_shift, Next_shift, ihF]
          cases Reader.ReadForm n (r.skip t).Next.2 with
          | none => rfl
          | some y => simp [wrapMacro_shift]
        | collection closer build =>
          simp only [skip_shift, Next_shift]
          rcases (r.skip t).Next with ⟨res, r1⟩
          cases res with
          | error e => rfl
          | panic => rfl
          | ok v =>
            simp only [ihS]
            cases Reader.readSeq n closer r1 [] with
            | none => rfl
            | some y => simp [finishSeq_shift]
    · intro closer r acc
      rw [readSeq_unfold, readSeq_unfold, Peek_shift]
      cases r.Peek with
      | error e => rfl
      | panic => rfl
      | ok t =>
        simp only
        by_cases hc : t = closer
        · simp [hc, Next_shift]
        · simp only [if_neg hc, ihF]
          cases Reader.ReadForm n r with
          | none => rfl
          | some y =>
            obtain ⟨res, r1⟩ := y
            cases res with
            | ok form => simp [ihS]
            | error e => rfl
            | panic => rfl

theorem ReadForm_shift (pre : List Str) (n : Nat) (r : Reader) :
    Reader.ReadForm n (r.shift pre) = (Reader.ReadForm n r).map (fun y => (y.1, y.2.shift pre)) :=
  (ReadForm_readSeq_shift pre n).1 r

/-! ## Reader macros -/

theorem Peek_zero_cons (m : Str) (ts : List Str) : (Reader.mk (m :: ts) 0).Peek = .ok m := rfl

theorem shift_one (m : Str) (ts : List Str) (p : Nat) :
    (Reader.mk ts p).shift [m] = ⟨m :: ts, p + 1⟩ := by
  simp [Reader.shift]; omega

theorem ReadForm_macro_step (m name : Str) (hm : (m, name) ∈ readerMacros) (ts : List Str)
    (n : Nat) :
    Reader.ReadForm (n + 1) ⟨m :: ts, 0⟩ =
      (Reader.ReadForm n ⟨ts, 0⟩).map (fun y => wrapMacro name (y.1, y.2.shift [m])) := by
  have hd : dispatch m = .readerMacro name ∧ Reader.skip ⟨m :: ts, 0⟩ m = ⟨m :: ts, 0⟩ := by
    simp only [readerMacros, List.mem_cons, Prod.mk.injEq, List.mem_singleton, List.not_mem_nil,
      or_false] at hm
    rcases hm with h | h | h | h | h <;> obtain ⟨rfl, rfl⟩ := h <;> exact ⟨by rfl, by rfl⟩
  rw [ReadForm_unfold, Peek_zero_cons]
  simp only [hd.1, hd.2]
  have hN : (Reader.mk (m :: ts) 0).Next.2 = (Reader.mk ts 0).shift [m] := by
    simp [Reader.Next, Reader.Peek, Reader.shift]
  rw [hN, ReadForm_shift]
  cases Reader.ReadForm n ⟨ts, 0⟩ <;> rfl

/-- C8: for each reader-macro marker `m` with its symbol `name`, if `ReadForm`
on the tokens `ts` succeeds with the form `f` and the cursor at `p`, then
`ReadForm` on `m` followed by `ts` (with any larger call bound) succeeds with
the two-element list of the symbol `name` and `f`, and the cursor at `p + 1`;
if it fails with an error, the same error is returned. -/
theorem ReadForm_readerMacro (m name : Str) (hm : (m, name) ∈ readerMacros) (ts : List Str)
    (n k : Nat) (hk : n < k) (p : Nat) :
    (∀ f, Reader.ReadForm n ⟨ts, 0⟩ = some (.ok f, ⟨ts, p⟩) →
      Reader.ReadForm k ⟨m :: ts, 0⟩ =
        some (.ok (.list [.symbol name, f]), ⟨m :: ts, p + 1⟩)) ∧
    (∀ e, Reader.ReadForm n ⟨ts, 0⟩ = some (.error e, ⟨ts, p⟩) →
      Reader.ReadForm k ⟨m :: ts, 0⟩ = some (.error e, ⟨m :: ts, p + 1⟩)) := by
  constructor
  · intro f h
    apply ReadForm_mono (Nat.succ_le_of_lt hk)
    rw [ReadForm_macro_step m name hm, h]
    simp [wrapMacro, shift_one, NewList, NewSymbol]
  · intro e h
    apply ReadForm_mono (Nat.succ_le_of_lt hk)
    rw [ReadForm_macro_step m name hm, h]
    simp [wrapMacro, shift_one]

theorem ReadForm_readerMacro_witness :
    Reader.ReadForm 1 ⟨["7".toList], 0⟩ = some (.ok (.int 7), ⟨["7".toList], 1⟩) ∧
    Reader.ReadForm 2 ⟨"~@".toList :: ["7".toList], 0⟩ =
      some (.ok (.list [.symbol "splice-unquote".toList, .int 7]),
        ⟨"~@".toList :: ["7".toList], 2⟩) :=
  ⟨by rfl, (ReadForm_readerMacro "~@".toList "splice-unquote".toList (by decide) ["7".toList]
    1 2 (by decide) 1).1 (.int 7) (by rfl)⟩

/-! ## Unterminated lists and vectors -/

theorem Peek_append (pre : List Str) (t : Str) (rest : List Str) :
    (Reader.mk (pre ++ t :: rest) pre.length).Peek = .ok t := by
  simp only [Reader.Peek, List.get?_eq_getElem?]
  rw [List.getElem?_append_right (Nat.le_refl _)]
  simp

theorem Peek_end (ts : List Str) : (Reader.mk ts ts.length).Peek = .error "EOF".toList := by
  simp [Reader.Peek, List.get?_eq_getElem?]

theorem Next_append (pre : List Str) (t : Str) (rest : List Str) :
    (Reader.mk (pre ++ t :: rest) pre.length).Next =
      (.ok t, ⟨pre ++ t :: rest, pre.length + 1⟩) := by
  simp [Reader.Next, Peek_append]

theorem intRegexpMatch_head (t : Str) (h : intRegexpMatch t = true) :
    ∃ c cs, t = c :: cs ∧ (c = '-' ∨ isDigit c = true) := by
  cases t with
  | nil => simp [intRegexpMatch] at h
  | cons c cs =>
    refine ⟨c, cs, rfl, ?_⟩
    by_cases hc : c = '-'
    · exact Or.inl hc
    · right
      simp [intRegexpMatch, hc] at h
      exact h.1

theorem dispatch_atom_of_head (c : Char) (cs : Str)
    (h : c ≠ '(' ∧ c ≠ ')' ∧ c ≠ '[' ∧ c ≠ ']' ∧ c ≠ '{' ∧ c ≠ '}' ∧ c ≠ '\x27' ∧ c ≠ '\x60' ∧
      c ≠ '~' ∧ c ≠ '@') : dispatch (c :: cs) = .atom := by
  obtain ⟨h1, h2, h3, h4, h5, h6, h7, h8, h9, h10⟩ := h
  simp [dispatch, h1, h2, h3, h4, h5, h6, h7, h8, h9, h10]

theorem skip_of_head (r : Reader) (c : Char) (cs : Str) (h1 : c ≠ ';') (h2 : c ≠ ',') :
    r.skip (c :: cs) = r := by
  have h1a : ¬ ';' = c := fun h => h1 h.symm
  have h2a : ¬ ',' = c := fun h => h2 h.symm
  simp [Reader.skip, HasPrefix, h1a, h2a]

theorem isDigit_cases (c : Char) (h : c = '-' ∨ isDigit c = true) :
    (c ≠ '(' ∧ c ≠ ')' ∧ c ≠ '[' ∧ c ≠ ']' ∧ c ≠ '{' ∧ c ≠ '}' ∧ c ≠ '\x27' ∧ c ≠ '\x60' ∧
      c ≠ '~' ∧ c ≠ '@') ∧ c ≠ ';' ∧ c ≠ ',' := by
  rcases h with h | h
  · subst h; decide
  · refine ⟨⟨?_, ?_, ?_, ?_, ?_, ?_, ?_, ?_, ?_, ?_⟩, ?_, ?_⟩ <;> (intro hc; subst hc; revert h; decide)

/-- `ReadForm` on an integer token reads the `Int` it denotes. -/
theorem ReadForm_intToken (pre : List Str) (t : Str) (rest : List Str) (n : Nat)
    (ht : isIntToken t = true) :
    ∃ v, Reader.ReadForm (n + 1) ⟨pre ++ t :: rest, pre.length⟩ =
      some (.ok (.int v), ⟨pre ++ t :: rest, pre.length + 1⟩) := by
  simp only [isIntToken, Bool.and_eq_true] at ht
  obtain ⟨hre, hat⟩ := ht
  obtain ⟨v, hv⟩ := Option.isSome_iff_exists.mp hat
  obtain ⟨c, cs, rfl, hc⟩ := intRegexpMatch_head t hre
  obtain ⟨hd, hs1, hs2⟩ := isDigit_cases c hc
  refine ⟨v, ?_⟩
  rw [ReadForm_unfold, Peek_append]
  simp only [dispatch_atom_of_head c cs hd, skip_of_head _ c cs hs1 hs2]
  simp [Reader.ReadAtom, Next_append, hre, NewInt, hv]

theorem isIntToken_ne_closer (t : Str) (ht : isIntToken t = true) : t ≠ [')'] ∧ t ≠ [']'] := by
  constructor <;> (intro h; subst h; revert ht; decide)

theorem readSeq_unterminated (closer : Str) (hc : closer = [')'] ∨ closer = [']']) (ints : List Str) :
    (∀ t ∈ ints, isIntToken t = true) → ∀ (pre : List Str) (acc : List MalType) (n : Nat),
      ints.length + 1 ≤ n →
      Reader.readSeq n closer ⟨pre ++ ints, pre.length⟩ acc =
        some (.error "EOF".toList, ⟨pre ++ ints, (pre ++ ints).length⟩) := by
  induction ints with
  | nil =>
    intro _ pre acc n hn
    obtain ⟨k, rfl⟩ : ∃ k, n = k + 1 := ⟨n - 1, by simp at hn; omega⟩
    rw [readSeq_unfold]
    simp only [List.append_nil]
    rw [Peek_end]
  | cons t ints ih =>
    intro hall pre acc n hn
    obtain ⟨k, rfl⟩ : ∃ k, n = k + 1 + 1 := ⟨n - 2, by simp at hn; omega⟩
    have ht := hall t (by simp)
    rw [readSeq_unfold, Peek_append]
    have hne : t ≠ closer := by
      have := isIntToken_ne_closer t ht
      rcases hc with h | h <;> subst h <;> tauto
    simp only [if_neg hne]
    obtain ⟨v, hv⟩ := ReadForm_intToken pre t ints k ht
    rw [hv]
    simp only
    have := ih (fun u hu => hall u (by simp [hu])) (pre ++ [t]) (acc ++ [.int v]) (k + 1)
      (by simp at hn ⊢; omega)
    simp only [List.append_assoc, List.singleton_append, List.length_append, List.length_singleton,
      List.length_cons] at this ⊢
    exact this

/-- An opening `(` or `[` followed only by tokens of the integer pattern that
denote host integers, with no closing bracket, makes `ReadForm` return the
`EOF` error (and so no List or Vector), with the cursor at the end of the
tokens; reading the text `(1 2` fails with `EOF`. -/
theorem ReadForm_unterminated (opener : Str) (ho : opener = ['('] ∨ opener = ['['])
    (ints : List Str) (hints : ∀ t ∈ ints, isIntToken t = true) (n : Nat)
    (hn : ints.length + 2 ≤ n) :
    Reader.ReadForm n (NewReader (opener :: ints)) =
      some (.error "EOF".toList, ⟨opener :: ints, ints.length + 1⟩) ∧
    READ "(1 2".toList = some (.error "EOF".toList) := by
  refine ⟨?_, by rfl⟩
  obtain ⟨k, rfl⟩ : ∃ k, n = k + 1 := ⟨n - 1, by omega⟩
  rw [ReadForm_unfold]
  simp only [NewReader, Peek_zero_cons]
  rcases ho with h | h <;> subst h
  · have hd : dispatch ['('] = .collection [')'] (fun l => .ok (.list l)) := rfl
    have hs : Reader.skip ⟨['('] :: ints, 0⟩ ['('] = ⟨['('] :: ints, 0⟩ := rfl
    have hN : (Reader.mk (['('] :: ints) 0).Next = (.ok ['('], ⟨['('] :: ints, 1⟩) := rfl
    simp only [hd, hs, hN]
    have := readSeq_unterminated [')'] (Or.inl rfl) ints hints [['(']] [] k (by omega)
    simp only [List.singleton_append, List.length_singleton, List.length_cons, List.length_nil,
      Nat.zero_add] at this
    rw [this]
    rfl
  · have hd : dispatch ['['] = .collection [']'] (fun l => .ok (.vector l)) := rfl
    have hs : Reader.skip ⟨['['] :: ints, 0⟩ ['['] = ⟨['['] :: ints, 0⟩ := rfl
    have hN : (Reader.mk (['['] :: ints) 0).Next = (.ok ['['], ⟨['['] :: ints, 1⟩) := rfl
    simp only [hd, hs, hN]
    have := readSeq_unterminated [']'] (Or.inr rfl) ints hints [['[']] [] k (by omega)
    simp only [List.singleton_append, List.length_singleton, List.length_cons, List.length_nil,
      Nat.zero_add] at this
    rw [this]
    rfl

theorem ReadForm_unterminated_witness :
    Reader.ReadForm 4 (NewReader ["[".toList, "1".toList, "-2".toList]) =
      some (.error "EOF".toList, ⟨["[".toList, "1".toList, "-2".toList], 3⟩) :=
  (ReadForm_unterminated "[".toList (Or.inr rfl) ["1".toList, "-2".toList] (by decide) 4
    (by decide)).1

/-- C5: an opening `(` or `[` followed by a token of the integer pattern that
denotes no host integer, with no closing bracket: `NewInt` aborts on that
token, so `ReadForm` returns neither the `EOF` error nor anything else, and
`READ` of the text aborts. -/
theorem ReadForm_unterminated_long_integer :
    intRegexpMatch "123456789012345678901234567890".toList = true ∧
    Reader.ReadForm 3 (NewReader ["(".toList, "123456789012345678901234567890".toList]) =
      some (.panic, ⟨["(".toList, "123456789012345678901234567890".toList], 2⟩) ∧
    intRegexpMatch "-9223372036854775809".toList = true ∧
    Reader.ReadForm 4 (NewReader ["[".toList, "1".toList,
        "-9223372036854775809".toList]) =
      some (.panic, ⟨["[".toList, "1".toList, "-9223372036854775809".toList], 3⟩) ∧
    READ "(123456789012345678901234567890".toList = some .panic := by
  refine ⟨by rfl, by rfl, by rfl, by rfl, by rfl⟩

/-! ## Hashmap literals with an odd number of entries -/

/-- A successful `ReadForm` started at a token that is not a closing bracket. -/
theorem ReadForm_ok_peek (n : Nat) (r : Reader) (f : MalType) (r1 : Reader)
    (h : Reader.ReadForm n r = some (.ok f, r1)) :
    ∃ t, r.Peek = .ok t ∧ t ≠ [')'] ∧ t ≠ [']'] ∧ t ≠ ['}'] := by
  cases n with
  | zero => simp [Reader.ReadForm] at h
  | succ n =>
    rw [ReadForm_unfold] at h
    cases hp : r.Peek with
    | error e => rw [hp] at h; simp at h
    | panic => rw [hp] at h; simp at h
    | ok t =>
      refine ⟨t, rfl, ?_, ?_, ?_⟩ <;>
      · intro ht
        subst ht
        rw [hp] at h
        simp [dispatch] at h

theorem readSeq_of_ReadsAll (closer : Str)
    (hc : closer = [')'] ∨ closer = [']'] ∨ closer = ['}'])
    (r : Reader) (fs : List MalType) (r1 : Reader) (h : ReadsAll r fs r1)
    (hp : r1.Peek = .ok closer) :
    ∃ N, ∀ k, N ≤ k → ∀ acc,
      Reader.readSeq k closer r acc = some (.ok (acc ++ fs), r1.Next.2) := by
  induction h with
  | nil r =>
    refine ⟨1, fun k hk acc => ?_⟩
    obtain ⟨j, rfl⟩ : ∃ j, k = j + 1 := ⟨k - 1, by omega⟩
    rw [readSeq_unfold, hp]
    simp
  | cons n r f r1 fs r2 hrf _ ih =>
    obtain ⟨N, hN⟩ := ih hp
    refine ⟨max n N + 1, fun k hk acc => ?_⟩
    obtain ⟨j, rfl⟩ : ∃ j, k = j + 1 := ⟨k - 1, by omega⟩
    obtain ⟨t, ht, h1, h2, h3⟩ := ReadForm_ok_peek n r f r1 hrf
    have hne : t ≠ closer := by
      rcases hc with h | h | h <;> subst h <;> assumption
    rw [readSeq_unfold, ht]
    simp only [if_neg hne]
    rw [ReadForm_mono (by omega) hrf]
    simp only
    rw [hN j (by omega)]
    simp

/-- C6: tokens `{` followed by forms that all read successfully, an odd number
of them, and then `}`: `ReadForm` (with any large enough call bound) returns
the error "uneven number of entries in hashmap", which differs from the `EOF`
error and from the unexpected-closer errors, with the cursor behind the `}`;
reading the text `{1}` fails this way. -/
theorem ReadForm_hashMap_odd (ts : List Str) (fs : List MalType) (r1 : Reader)
    (hfs : ReadsAll ⟨['{'] :: ts, 1⟩ fs r1) (hclose : r1.Peek = .ok ['}'])
    (hodd : fs.length % 2 = 1) :
    (∃ N, ∀ k, N ≤ k → Reader.ReadForm k (NewReader (['{'] :: ts)) =
      some (.error "uneven number of entries in hashmap".toList, r1.Next.2)) ∧
    "uneven number of entries in hashmap".toList ∉
      ["EOF".toList, "unexpected )".toList, "unexpected ]".toList, "unexpected \x7d".toList] ∧
    READ "\x7b1\x7d".toList = some (.error "uneven number of entries in hashmap".toList) := by
  refine ⟨?_, by decide, by rfl⟩
  obtain ⟨N, hN⟩ := readSeq_of_ReadsAll ['}'] (Or.inr (Or.inr rfl)) _ fs r1 hfs hclose
  refine ⟨N + 1, fun k hk => ?_⟩
  obtain ⟨j, rfl⟩ : ∃ j, k = j + 1 := ⟨k - 1, by omega⟩
  rw [ReadForm_unfold]
  simp only [NewReader, Peek_zero_cons]
  have hd : dispatch ['{'] = .collection ['}'] buildHashMap := rfl
  have hs : Reader.skip ⟨['{'] :: ts, 0⟩ ['{'] = ⟨['{'] :: ts, 0⟩ := rfl
  have hNx : (Reader.mk (['{'] :: ts) 0).Next = (.ok ['{'], ⟨['{'] :: ts, 1⟩) := rfl
  simp only [hd, hs, hNx]
  rw [hN j (by omega)]
  simp [finishSeq, buildHashMap, hodd]

theorem ReadForm_hashMap_odd_witness :
    ∃ N, ∀ k, N ≤ k →
      Reader.ReadForm k (NewReader ["\x7b".toList, "1".toList, ":a".toList, "x".toList, "\x7d".toList]) =
      some (.error "uneven number of entries in hashmap".toList,
        ⟨["\x7b".toList, "1".toList, ":a".toList, "x".toList, "\x7d".toList], 5⟩) :=
  (ReadForm_hashMap_odd ["1".toList, ":a".toList, "x".toList, "\x7d".toList]
    [.int 1, .string ['a'] true, .symbol ['x']]
    ⟨["\x7b".toList, "1".toList, ":a".toList, "x".toList, "\x7d".toList], 4⟩
    (ReadsAll.cons 1 _ _ ⟨_, 2⟩ _ _ (by rfl)
      (ReadsAll.cons 1 _ _ ⟨_, 3⟩ _ _ (by rfl)
        (ReadsAll.cons 1 _ _ ⟨_, 4⟩ _ _ (by rfl) (ReadsAll.nil _))))
    (by rfl) (by rfl)).1

/-! ## Blank input -/

theorem dropWhile_all {α} (p : α → Bool) (l : List α) (h : l.all p = true) : l.dropWhile p = [] := by
  induction l with
  | nil => rfl
  | cons a l ih => simp at h; simp [h.1, ih (by simpa using h.2)]

/-- Blank input (whitespace and commas only, or nothing) tokenizes to the single
empty token. -/
theorem Tokenize_blank (input : Str) (h : input.all isSeparator = true) :
    Tokenize input = [[]] := by
  cases input with
  | nil => rfl
  | cons c cs =>
    rw [Tokenize, allMatches_step _ _ _ (Nat.lt_succ_self _)
      (by rw [dropWhile_all _ _ h]; simp [matchToken])]
    rw [dropWhile_all _ _ h]
    simp [matchToken, allMatches_nil]

/-- `READ` of blank input returns the symbol with the empty name, and no error. -/
theorem READ_blank (input : Str) (h : input.all isSeparator = true) :
    READ input = some (.ok (NewSymbol [])) := by
  rw [READ, Tokenize_blank input h]
  rfl

/-- C4: for the empty text and for the blank text of a space, a comma and a tab,
`Tokenize` yields one empty token and `READ` returns the symbol with the empty
name instead of the `EOF` error. -/
theorem READ_empty_input :
    Tokenize [] = [[]] ∧ READ [] = some (.ok (NewSymbol [])) ∧
    Tokenize " ,\t".toList = [[]] ∧ READ " ,\t".toList = some (.ok (NewSymbol [])) ∧
    READ [] ≠ some (.error "EOF".toList) := by
  refine ⟨by rfl, by rfl, by rfl, by rfl, ?_⟩
  rw [READ_blank [] (by rfl)]
  simp

/-! ## A comment token before a form -/

/-- After a comment token `ReadForm` hands the following token to `ReadAtom`,
whatever that token is. -/
theorem ReadForm_comment (c : Str) (hc : HasPrefix c [';'] = true) (ts : List Str) (n : Nat) :
    Reader.ReadForm (n + 1) ⟨c :: ts, 0⟩ = some (Reader.ReadAtom ⟨c :: ts, 1⟩) := by
  cases c with
  | nil => simp [HasPrefix] at hc
  | cons a cs =>
    have ha : a = ';' := by simp [HasPrefix] at hc; exact hc.symm
    subst ha
    rw [ReadForm_unfold, Peek_zero_cons]
    have hd : dispatch (';' :: cs) = .atom := dispatch_atom_of_head _ _ (by decide)
    have hs : Reader.skip ⟨(';' :: cs) :: ts, 0⟩ (';' :: cs) = ⟨(';' :: cs) :: ts, 1⟩ := by
      simp [Reader.skip, HasPrefix, Reader.Next, Reader.Peek]
    simp only [hd, hs]

/-- C7: the text of a comment line followed by `(1)` tokenizes to the comment
token and the three tokens of the list; `ReadForm` on these returns the symbol
named `(` with the cursor at 2, whereas on the three tokens alone it returns
the list `(1)` with the cursor at 3. -/
theorem ReadForm_comment_then_list :
    Tokenize ";c\n(1)".toList = [";c".toList, "(".toList, "1".toList, ")".toList] ∧
    Reader.ReadForm 3 ⟨[";c".toList, "(".toList, "1".toList, ")".toList], 0⟩ =
      some (.ok (.symbol "(".toList), ⟨[";c".toList, "(".toList, "1".toList, ")".toList], 2⟩) ∧
    Reader.ReadForm 3 ⟨["(".toList, "1".toList, ")".toList], 0⟩ =
      some (.ok (.list [.int 1]), ⟨["(".toList, "1".toList, ")".toList], 3⟩) := by
  refine ⟨by rfl, by rfl, by rfl⟩

/-! ## Keywords -/

/-- `ReadAtom` on a token starting with a colon strips every leading colon. -/
theorem ReadAtom_keyword (t : Str) (ht : HasPrefix t [':'] = true) (rest : List Str) :
    Reader.ReadAtom ⟨t :: rest, 0⟩ = (.ok (.string (TrimLeft t [':']) true), ⟨t :: rest, 1⟩) := by
  cases t with
  | nil => simp [HasPrefix] at ht
  | cons a cs =>
    have ha : a = ':' := by simp [HasPrefix] at ht; exact ht.symm
    subst ha
    have hre : intRegexpMatch (':' :: cs) = false := by
      have hd : isDigit ':' = false := by decide
      simp [intRegexpMatch, hd]
    simp [Reader.ReadAtom, Reader.Next, Reader.Peek, hre, HasPrefix, NewKeyword]

/-- C9: the token `::a` is read by `ReadAtom` as the keyword named `a`, not `:a`,
and that keyword prints as `:a`, not as the token. -/
theorem ReadAtom_double_colon :
    Reader.ReadAtom ⟨["::a".toList], 0⟩ = (.ok (.string "a".toList true), ⟨["::a".toList], 1⟩) ∧
    (MalType.string "a".toList true).Print = ":a".toList ∧
    (MalType.string "a".toList true).Print ≠ "::a".toList := by
  refine ⟨by rfl, by rfl, by decide⟩

/-! ## Printing lists and vectors -/

theorem Print_list_eq (xs : List MalType) :
    (MalType.list xs).Print =
      TrimRight ('(' :: (printAll xs).flatMap (fun s => s ++ [' '])) [' '] ++ [')'] := by
  rw [MalType.Print]

theorem Print_vector_eq (xs : List MalType) :
    (MalType.vector xs).Print = '[' :: Join (printAll xs) [' '] ++ [']'] := by
  rw [MalType.Print]

theorem printAll_cons (x : MalType) (xs : List MalType) :
    printAll (x :: xs) = x.Print :: printAll xs := by
  rw [printAll]

theorem printAll_nil : printAll [] = [] := by
  rw [printAll]

theorem TrimRight_append_space (s : Str) : TrimRight (s ++ [' ']) [' '] = TrimRight s [' '] := by
  simp [TrimRight]

theorem TrimRight_noop (s : Str) (h : ∀ c, s.getLast? = some c → c ≠ ' ') :
    TrimRight s [' '] = s := by
  unfold TrimRight
  rcases hs : s.reverse with _ | ⟨c, cs⟩
  · simp at hs; simp [hs]
  · have hl : s.getLast? = some c := by
      rw [List.getLast?_eq_head?_reverse, hs]; rfl
    have hc := h c hl
    have : s = (c :: cs).reverse := by rw [← hs, List.reverse_reverse]
    rw [List.dropWhile_cons]
    simp [hc, this]

theorem flatMap_space (ps : List Str) (h : ps ≠ []) :
    ps.flatMap (fun s => s ++ [' ']) = Join ps [' '] ++ [' '] := by
  induction ps with
  | nil => exact absurd rfl h
  | cons a ps ih =>
    cases ps with
    | nil => simp [Join]
    | cons b ps =>
      rw [List.flatMap_cons, ih (by simp), Join_cons_cons]
      simp

/-- When the joined text of the elements does not end in a space, a list
prints as that text between parentheses. -/
theorem Print_list_join (xs : List MalType)
    (h : ∀ c, (Join (printAll xs) [' ']).getLast? = some c → c ≠ ' ') :
    (MalType.list xs).Print = '(' :: Join (printAll xs) [' '] ++ [')'] := by
  rw [Print_list_eq]
  have key : TrimRight ('(' :: (printAll xs).flatMap (fun s => s ++ [' '])) [' '] =
      '(' :: Join (printAll xs) [' '] := by
    by_cases hps : printAll xs = []
    · rw [hps]; rfl
    · rw [flatMap_space _ hps, ← List.cons_append, TrimRight_append_space]
      apply TrimRight_noop
      intro c hc
      cases hj : Join (printAll xs) [' '] with
      | nil => rw [hj] at hc; simp at hc; rw [← hc]; decide
      | cons a l =>
        rw [hj] at hc h
        rw [List.getLast?_cons_cons] at hc
        exact h c hc
  rw [key]

/-- C10: the list holding the symbol named `a ` (with a trailing space) prints
as `(a)`, which is not its element text between parentheses, while the vector
of the same element prints as `[a ]`; the empty list and vector print as `()`
and `[]`.  The reader builds such a list from two comment lines in
parentheses, and it prints as `(;y)`. -/
theorem Print_list_trailing_space :
    (MalType.list [.symbol "a ".toList]).Print = "(a)".toList ∧
    '(' :: Join (printAll [.symbol "a ".toList]) [' '] ++ [')'] = "(a )".toList ∧
    (MalType.vector [.symbol "a ".toList]).Print = "[a ]".toList ∧
    (MalType.list []).Print = "()".toList ∧ (MalType.vector []).Print = "[]".toList ∧
    READ "(;x\n;y \n)".toList = some (.ok (.list [.symbol ";y ".toList])) ∧
    (MalType.list [.symbol ";y ".toList]).Print = "(;y)".toList := by
  refine ⟨by rfl, by rfl, by rfl, by rfl, by rfl, by rfl, by rfl⟩

/-! ## String escaping and its decoding -/

theorem replaceScan_single (a : Char) (new : Str) (s : Str) :
    replaceScan [a] new 0 s = s.flatMap (fun c => if c = a then new else [c]) := by
  induction s with
  | nil => rfl
  | cons c cs ih =>
    rw [replaceScan]
    by_cases h : c = a
    · have h1 : [a].isPrefixOf (c :: cs) = true := by
        subst h; simp [List.isPrefixOf]
      simp [h1, h, ih]
    · have h1 : [a].isPrefixOf (c :: cs) = false := by
        have : ¬ a = c := fun h2 => h h2.symm
        simp [List.isPrefixOf, this]
      simp [h1, h, ih]

theorem Replace_single (a : Char) (new : Str) (s : Str) :
    Replace s [a] new = s.flatMap (fun c => if c = a then new else [c]) := by
  simp [Replace, replaceScan_single]

theorem flatMap_flatMap {α β γ} (l : List α) (f : α → List β) (g : β → List γ) :
    (l.flatMap f).flatMap g = l.flatMap (fun a => (f a).flatMap g) := by
  induction l with
  | nil => rfl
  | cons a l ih => simp [List.flatMap_cons, List.flatMap_append, ih]

/-- The three replacements of `String.Print` escape each character on its own. -/
theorem escape_eq (s : Str) :
    Replace (Replace (Replace s ['\x5c'] ['\x5c', '\x5c']) ['\x22'] ['\x5c', '\x22'])
      ['\n'] ['\x5c', 'n'] = s.flatMap escapeChar := by
  rw [Replace_single, Replace_single, Replace_single, flatMap_flatMap, flatMap_flatMap]
  congr 1
  funext c
  by_cases h1 : c = '\x5c'
  · subst h1; rfl
  · by_cases h2 : c = '\x22'
    · subst h2; rfl
    · by_cases h3 : c = '\n'
      · subst h3; rfl
      · simp [escapeChar, h1, h2, h3]

theorem printString_eq (s : Str) :
    printString s false = '\x22' :: s.flatMap escapeChar ++ ['\x22'] := by
  simp [printString, escape_eq]

/-- A replacement of a two-character pattern goes through a text made of units
when it goes through every unit. -/
theorem replaceScan_units (a b : Char) (new : Str) (u v : Char → Str) (s : Str)
    (h : ∀ c ∈ s, ∀ rest, replaceScan [a, b] new 0 (u c ++ rest) =
      v c ++ replaceScan [a, b] new 0 rest) :
    replaceScan [a, b] new 0 (s.flatMap u) = s.flatMap v := by
  induction s with
  | nil => rfl
  | cons c cs ih =>
    rw [List.flatMap_cons, List.flatMap_cons, h c (by simp),
      ih (fun d hd => h d (by simp [hd]))]

theorem replaceScan_hit (a b : Char) (new rest : Str) :
    replaceScan [a, b] new 0 (a :: b :: rest) = new ++ replaceScan [a, b] new 0 rest := by
  rw [replaceScan]
  simp [replaceScan]

theorem replaceScan_miss (a b c : Char) (new rest : Str) (h : c ≠ a) :
    replaceScan [a, b] new 0 (c :: rest) = c :: replaceScan [a, b] new 0 rest := by
  rw [replaceScan]
  have : ¬ a = c := fun h2 => h h2.symm
  simp [this]

theorem replaceScan_miss2 (a b d : Char) (new rest : Str) (h : d ≠ b) :
    replaceScan [a, b] new 0 (a :: d :: rest) = a :: replaceScan [a, b] new 0 (d :: rest) := by
  rw [replaceScan]
  have : ¬ b = d := fun h2 => h h2.symm
  simp [this]

theorem decode1 (s : Str) :
    Replace (s.flatMap escapeChar) ['\x5c', '\x5c'] [sentinel] = s.flatMap stage1 := by
  rw [Replace, if_neg (by simp)]
  apply replaceScan_units
  intro c _ rest
  by_cases h1 : c = '\x5c'
  · subst h1
    exact replaceScan_hit _ _ _ _
  · by_cases h2 : c = '\x22'
    · subst h2
      show replaceScan _ _ 0 ('\x5c' :: '\x22' :: rest) = '\x5c' :: '\x22' :: replaceScan _ _ 0 rest
      rw [replaceScan_miss2 _ _ _ _ _ (by decide), replaceScan_miss _ _ _ _ _ (by decide)]
    · by_cases h3 : c = '\n'
      · subst h3
        show replaceScan _ _ 0 ('\x5c' :: 'n' :: rest) = '\x5c' :: 'n' :: replaceScan _ _ 0 rest
        rw [replaceScan_miss2 _ _ _ _ _ (by decide), replaceScan_miss _ _ _ _ _ (by decide)]
      · simp only [escapeChar, stage1, h1, h2, h3, if_false, List.singleton_append]
        exact replaceScan_miss _ _ _ _ _ h1

theorem decode2 (s : Str) :
    Replace (s.flatMap stage1) ['\x5c', '\x22'] ['\x22'] = s.flatMap stage2 := by
  rw [Replace, if_neg (by simp)]
  apply replaceScan_units
  intro c _ rest
  by_cases h1 : c = '\x5c'
  · subst h1
    show replaceScan _ _ 0 (sentinel :: rest) = sentinel :: replaceScan _ _ 0 rest
    exact replaceScan_miss _ _ _ _ _ (by decide)
  · by_cases h2 : c = '\x22'
    · subst h2
      exact replaceScan_hit _ _ _ _
    · by_cases h3 : c = '\n'
      · subst h3
        show replaceScan _ _ 0 ('\x5c' :: 'n' :: rest) = '\x5c' :: 'n' :: replaceScan _ _ 0 rest
        rw [replaceScan_miss2 _ _ _ _ _ (by decide), replaceScan_miss _ _ _ _ _ (by decide)]
      · simp only [stage1, stage2, h1, h2, h3, if_false, List.singleton_append]
        exact replaceScan_miss _ _ _ _ _ h1

theorem decode3 (s : Str) :
    Replace (s.flatMap stage2) ['\x5c', 'n'] ['\n'] = s.flatMap stage3 := by
  rw [Replace, if_neg (by simp)]
  apply replaceScan_units
  intro c _ rest
  by_cases h1 : c = '\x5c'
  · subst h1
    show replaceScan _ _ 0 (sentinel :: rest) = sentinel :: replaceScan _ _ 0 rest
    exact replaceScan_miss _ _ _ _ _ (by decide)
  · by_cases h2 : c = '\x22'
    · subst h2
      show replaceScan _ _ 0 ('\x22' :: rest) = '\x22' :: replaceScan _ _ 0 rest
      exact replaceScan_miss _ _ _ _ _ (by decide)
    · by_cases h3 : c = '\n'
      · subst h3
        exact replaceScan_hit _ _ _ _
      · simp only [stage2, stage3, h1, h2, h3, if_false, List.singleton_append]
        exact replaceScan_miss _ _ _ _ _ h1

theorem decode4 (s : Str) (hs : sentinel ∉ s) :
    Replace (s.flatMap stage3) [sentinel] ['\x5c'] = s := by
  rw [Replace_single, flatMap_flatMap]
  induction s with
  | nil => rfl
  | cons c cs ih =>
    simp only [List.mem_cons, not_or] at hs
    rw [List.flatMap_cons, ih hs.2]
    by_cases h1 : c = '\x5c'
    · subst h1; rfl
    · have h2 : c ≠ sentinel := fun h => hs.1 h.symm
      simp [stage3, h1, h2]

/-- The decoding of `ReadAtom` undoes the escaping of `String.Print`. -/
theorem decode_escape (s : Str) (hs : sentinel ∉ s) :
    Replace (Replace (Replace (Replace (s.flatMap escapeChar) ['\x5c', '\x5c'] [sentinel])
      ['\x5c', '\x22'] ['\x22']) ['\x5c', 'n'] ['\n']) [sentinel] ['\x5c'] = s := by
  rw [decode1, decode2, decode3, decode4 s hs]


theorem stringBody_escaped (s rest : Str) :
    stringBody (s.flatMap escapeChar ++ '\x22' :: rest) =
      (s.flatMap escapeChar, '\x22' :: rest) := by
  induction s with
  | nil => exact stringBody_quote rest
  | cons c cs ih =>
    rw [List.flatMap_cons, List.append_assoc]
    by_cases h1 : c = '\x5c'
    · subst h1
      have e : escapeChar '\x5c' = ['\x5c', '\x5c'] := rfl
      rw [e]
      simp only [List.cons_append, List.nil_append]
      rw [stringBody_escape _ _ (by decide), ih]
    · by_cases h2 : c = '\x22'
      · subst h2
        have e : escapeChar '\x22' = ['\x5c', '\x22'] := rfl
        rw [e]
        simp only [List.cons_append, List.nil_append]
        rw [stringBody_escape _ _ (by decide), ih]
      · by_cases h3 : c = '\n'
        · subst h3
          have e : escapeChar '\n' = ['\x5c', 'n'] := rfl
          rw [e]
          simp only [List.cons_append, List.nil_append]
          rw [stringBody_escape _ _ (by decide), ih]
        · simp only [escapeChar, h1, h2, h3, if_false, List.singleton_append]
          rw [stringBody_plain _ _ h1 h2, ih]

/-- The printed text of a string is one token for the tokenizer. -/
theorem matchToken_printString (s rest : Str) :
    matchToken (printString s false ++ rest) = (printString s false, rest) := by
  rw [printString_eq]
  simp only [List.cons_append, List.append_assoc, List.singleton_append]
  rw [matchToken]
  simp only [stringBody_escaped]
  simp [isSpecial]

theorem Tokenize_printString (s : Str) :
    Tokenize (printString s false) = [printString s false] := by
  have hd : (printString s false).dropWhile isSeparator = printString s false ++ [] := by
    rw [printString_eq]
    simp [isSeparator, isSpace]
  have hm := matchToken_printString s []
  have hlen : 0 < (printString s false).length := by rw [printString_eq]; simp
  rw [Tokenize, allMatches_step _ _ _ (Nat.lt_succ_self _) (by rw [hd, hm]; simpa using hlen)]
  rw [hd, hm]
  simp [allMatches_nil]

theorem ReadAtom_printString (s : Str) (hs : sentinel ∉ s) (pre rest : List Str) :
    Reader.ReadAtom ⟨pre ++ printString s false :: rest, pre.length⟩ =
      (.ok (.string s false), ⟨pre ++ printString s false :: rest, pre.length + 1⟩) := by
  have hre : intRegexpMatch (printString s false) = false := by
    rw [printString_eq]
    have hd : isDigit '\x22' = false := by decide
    simp [intRegexpMatch, hd]
  have hkw : HasPrefix (printString s false) [':'] = false := by
    rw [printString_eq]; simp [HasPrefix, List.isPrefixOf]
  have hstr : stringRegexpMatch (printString s false) = true := by
    rw [printString_eq]
    simp [stringRegexpMatch, stringBody_escaped]
  have hbody : ((printString s false).drop 1).take ((printString s false).length - 1 - 1) =
      s.flatMap escapeChar := by
    rw [printString_eq]
    simp
  rw [Reader.ReadAtom, Next_append]
  simp only [hre, hkw, hstr, if_true, Bool.false_eq_true, if_false, hbody, decode_escape s hs,
    NewString]

/-- C2: for every string value `s` without the sentinel character U+029E, the
printed text of `NewString s` tokenizes to that text as its single token, and
`ReadAtom` on that token returns the non-keyword String with value `s`, the
cursor moved by one. -/
theorem String_print_read (s : Str) (hs : sentinel ∉ s) :
    Tokenize (NewString s).Print = [(NewString s).Print] ∧
    Reader.ReadAtom (NewReader [(NewString s).Print]) =
      (.ok (.string s false), ⟨[(NewString s).Print], 1⟩) := by
  have hp : (NewString s).Print = printString s false := by
    rw [NewString, MalType.Print]
  rw [hp]
  exact ⟨Tokenize_printString s, ReadAtom_printString s hs [] []⟩

theorem String_print_read_witness :
    Tokenize (NewString "a\x5c\x22b\nc\x5cn".toList).Print =
      [(NewString "a\x5c\x22b\nc\x5cn".toList).Print] ∧
    Reader.ReadAtom (NewReader [(NewString "a\x5c\x22b\nc\x5cn".toList).Print]) =
      (.ok (.string "a\x5c\x22b\nc\x5cn".toList false),
        ⟨[(NewString "a\x5c\x22b\nc\x5cn".toList).Print], 1⟩) :=
  String_print_read "a\x5c\x22b\nc\x5cn".toList (by decide)

/-! ## Decimal integers -/

theorem digitChar_spec (d : Nat) (h : d < 10) :
    isDigit (Nat.digitChar d) = true ∧ (Nat.digitChar d).toNat - 48 = d := by
  interval_cases d <;> exact ⟨by decide, by decide⟩

/-- The value `Atoi` computes from a run of digits. -/
theorem toDigitsCore_spec (fuel : Nat) : ∀ (n : Nat) (ds : Str), n < fuel →
    ∃ L : Str, Nat.toDigitsCore 10 fuel n ds = L ++ ds ∧ L ≠ [] ∧ L.all isDigit = true ∧
      L.foldl (fun a c => 10 * a + (c.toNat - 48)) 0 = n := by
  induction fuel with
  | zero => intro n ds h; omega
  | succ fuel ih =>
    intro n ds h
    have hd := digitChar_spec (n % 10) (Nat.mod_lt _ (by decide))
    rw [Nat.toDigitsCore]
    by_cases h0 : n / 10 = 0
    · rw [if_pos h0]
      refine ⟨[Nat.digitChar (n % 10)], rfl, by simp, by simp [hd.1], ?_⟩
      simp only [List.foldl_cons, List.foldl_nil, hd.2]
      omega
    · rw [if_neg h0]
      obtain ⟨L, hL, hne, hall, hval⟩ := ih (n / 10) (Nat.digitChar (n % 10) :: ds) (by omega)
      refine ⟨L ++ [Nat.digitChar (n % 10)], by rw [hL]; simp, by simp, ?_, ?_⟩
      · simp [hall, hd.1]
      · rw [List.foldl_append]
        simp only [List.foldl_cons, List.foldl_nil, hval, hd.2]
        omega

theorem toDigits_spec (n : Nat) :
    Nat.toDigits 10 n ≠ [] ∧ (Nat.toDigits 10 n).all isDigit = true ∧
      (Nat.toDigits 10 n).foldl (fun a c => 10 * a + (c.toNat - 48)) 0 = n := by
  obtain ⟨L, hL, hne, hall, hval⟩ := toDigitsCore_spec (n + 1) n [] (Nat.lt_succ_self n)
  rw [Nat.toDigits, hL, List.append_nil]
  exact ⟨hne, hall, hval⟩

theorem isDigit_ne (c : Char) (h : isDigit c = true) : c ≠ '-' ∧ c ≠ '+' := by
  constructor <;> (intro hc; subst hc; revert h; decide)

theorem toDigits_head (n : Nat) :
    ∃ c cs, Nat.toDigits 10 n = c :: cs ∧ isDigit c = true := by
  obtain ⟨hne, hall, _⟩ := toDigits_spec n
  cases h : Nat.toDigits 10 n with
  | nil => exact absurd h hne
  | cons c cs =>
    rw [h] at hall
    simp at hall
    exact ⟨c, cs, rfl, hall.1⟩

/-- `Atoi` reads back what `%d` writes, for a host integer. -/
theorem Atoi_formatInt (v : Int) (h1 : minInt ≤ v) (h2 : v ≤ maxInt) :
    Atoi (formatInt v) = some v := by
  obtain ⟨hne, hall, hval⟩ := toDigits_spec v.natAbs
  obtain ⟨c, cs, hcs, hc⟩ := toDigits_head v.natAbs
  obtain ⟨hc1, hc2⟩ := isDigit_ne c hc
  by_cases hv : v < 0
  · have hf : formatInt v = '-' :: Nat.toDigits 10 v.natAbs := by simp [formatInt, hv]
    rw [hf, Atoi]
    simp only [List.head?_cons, true_or, if_true, List.tail_cons, decide_True]
    rw [if_neg (by simp [hne, hall])]
    simp only [hval]
    have hv2 : -((v.natAbs : Nat) : Int) = v := by omega
    simp only [if_true, hv2]
    rw [if_neg (by omega)]
  · have hf : formatInt v = Nat.toDigits 10 v.natAbs := by simp [formatInt, hv]
    rw [hf, Atoi]
    have hh : (Nat.toDigits 10 v.natAbs).head? = some c := by rw [hcs]; rfl
    have e1 : ¬ (some c = some '-') := by simpa using hc1
    have e2 : ¬ (some c = some '+') := by simpa using hc2
    simp only [hh, e1, e2, or_self, if_false, decide_False]
    rw [if_neg (by simp [hne, hall])]
    simp only [hval]
    have hv2 : ((v.natAbs : Nat) : Int) = v := by omega
    simp only [Bool.false_eq_true, if_false, hv2]
    rw [if_neg (by omega)]

theorem intRegexpMatch_formatInt (v : Int) : intRegexpMatch (formatInt v) = true := by
  obtain ⟨hne, hall, _⟩ := toDigits_spec v.natAbs
  obtain ⟨c, cs, hcs, hc⟩ := toDigits_head v.natAbs
  obtain ⟨hc1, _⟩ := isDigit_ne c hc
  by_cases hv : v < 0
  · have hf : formatInt v = '-' :: Nat.toDigits 10 v.natAbs := by simp [formatInt, hv]
    rw [hf, intRegexpMatch]
    simp [hne, hall]
  · have hf : formatInt v = Nat.toDigits 10 v.natAbs := by simp [formatInt, hv]
    rw [hf, intRegexpMatch]
    have hh : (Nat.toDigits 10 v.natAbs).head? = some c := by rw [hcs]; rfl
    have e1 : ¬ (some c = some '-') := by simpa using hc1
    simp only [hh, e1, if_false]
    simp [hne]
    simpa using hall

/-! ## Atoms: printed, tokenized and read back -/

theorem isPlain_iff (c : Char) : isPlain c = true ↔
    (c ≠ '\t' ∧ c ≠ '\n' ∧ c ≠ '\x0c' ∧ c ≠ '\r' ∧ c ≠ ' ') ∧ c ≠ '[' ∧ c ≠ ']' ∧ c ≠ '{' ∧
      c ≠ '}' ∧ c ≠ '(' ∧ c ≠ '\x27' ∧ c ≠ '\x22' ∧ c ≠ '\x60' ∧ c ≠ ',' ∧ c ≠ ';' ∧ c ≠ ')' := by
  simp only [isPlain, isSpace, Bool.not_eq_true', Bool.or_eq_false_iff, decide_eq_false_iff_not]
  tauto

theorem isRunToken_iff (t : Str) : isRunToken t = true ↔
    ∃ c cs, t = c :: cs ∧ (c ≠ '~' ∧ c ≠ '^' ∧ c ≠ '@') ∧ isPlain c = true ∧
      cs.all isPlain = true := by
  cases t with
  | nil => simp [isRunToken]
  | cons c cs =>
    constructor
    · intro h
      simp only [isRunToken, Bool.and_eq_true, bne_iff_ne, ne_eq, List.all_cons] at h
      exact ⟨c, cs, rfl, ⟨h.1.1.1, h.1.1.2, h.1.2⟩, h.2.1, h.2.2⟩
    · rintro ⟨c1, cs1, heq, ⟨h1, h2, h3⟩, h4, h5⟩
      injection heq with e1 e2
      subst e1 e2
      simp only [isRunToken, Bool.and_eq_true, bne_iff_ne, ne_eq, List.all_cons]
      exact ⟨⟨⟨h1, h2⟩, h3⟩, h4, h5⟩

theorem all_plain_last (t : Str) (h : t.all isPlain = true) (c : Char)
    (hc : t.getLast? = some c) : c ≠ ' ' := by
  have hm : c ∈ t := List.mem_of_getLast?_eq_some hc
  have := (List.all_eq_true.mp h) c hm
  intro h2; subst h2; revert this; decide

/-- Everything `AtomText` asks of a run token but the reading. -/
theorem AtomText_of_run (t : Str) (f1 : MalType) (ht : isRunToken t = true)
    (hread : ∀ (pre rest : List Str), Reader.ReadAtom ⟨pre ++ t :: rest, pre.length⟩ =
      (.ok f1, ⟨pre ++ t :: rest, pre.length + 1⟩))
    (hprint : f1.Print = t) : AtomText t f1 := by
  obtain ⟨c, cs, rfl, ⟨h1, h2, h3⟩, hc, hcs⟩ := (isRunToken_iff t).mp ht
  have hp := (isPlain_iff c).mp hc
  refine ⟨⟨c, cs, rfl, isPlain_not_separator c hc⟩, ?_, ?_, ?_, ?_, ?_, hread, hprint⟩
  · exact all_plain_last (c :: cs) (by simp [hc, hcs])
  · exact fun rest hr => matchToken_run (c :: cs) rest ht hr
  · constructor <;> (intro h; injection h with h; subst h; revert hc; decide)
  · exact dispatch_atom_of_head c cs (by tauto)
  · exact fun r => skip_of_head r c cs (by tauto) (by tauto)

theorem ReadAtom_unfold (pre : List Str) (t : Str) (rest : List Str) :
    Reader.ReadAtom ⟨pre ++ t :: rest, pre.length⟩ =
      if intRegexpMatch t then (NewInt t, ⟨pre ++ t :: rest, pre.length + 1⟩)
      else if HasPrefix t [':'] then (.ok (NewKeyword t), ⟨pre ++ t :: rest, pre.length + 1⟩)
      else if stringRegexpMatch t then
        (.ok (NewString (Replace (Replace (Replace (Replace ((t.drop 1).take (t.length - 1 - 1))
          ['\x5c', '\x5c'] [sentinel]) ['\x5c', '\x22'] ['\x22']) ['\x5c', 'n'] ['\n'])
          [sentinel] ['\x5c'])), ⟨pre ++ t :: rest, pre.length + 1⟩)
      else if HasPrefix t ['\x22'] then (.error "EOF".toList, ⟨pre ++ t :: rest, pre.length + 1⟩)
      else if t = "true".toList then (.ok (NewBoolean true), ⟨pre ++ t :: rest, pre.length + 1⟩)
      else if t = "false".toList then (.ok (NewBoolean false), ⟨pre ++ t :: rest, pre.length + 1⟩)
      else if t = "nil".toList then (.ok .nil, ⟨pre ++ t :: rest, pre.length + 1⟩)
      else (.ok (NewSymbol t), ⟨pre ++ t :: rest, pre.length + 1⟩) := by
  rw [Reader.ReadAtom, Next_append]

theorem AtomText_symbol (s : Str) (hs : isSymbolName s = true) :
    ∃ f1, AtomText s f1 := by
  simp only [isSymbolName, Bool.and_eq_true, Bool.not_eq_true'] at hs
  obtain ⟨⟨hrun, hint⟩, hkw⟩ := hs
  obtain ⟨c, cs, rfl, _, hc, _⟩ := (isRunToken_iff s).mp hrun
  have hq : c ≠ '\x22' := ((isPlain_iff c).mp hc).2.2.2.2.2.2.2.1
  have hstr : stringRegexpMatch (c :: cs) = false := by simp [stringRegexpMatch, hq]
  have hpre : HasPrefix (c :: cs) ['\x22'] = false := by
    have : ¬ '\x22' = c := fun h => hq h.symm
    simp [HasPrefix, List.isPrefixOf, this]
  have hun : ∀ pre rest, Reader.ReadAtom ⟨pre ++ (c :: cs) :: rest, pre.length⟩ =
      if (c :: cs) = "true".toList then
        (.ok (NewBoolean true), ⟨pre ++ (c :: cs) :: rest, pre.length + 1⟩)
      else if (c :: cs) = "false".toList then
        (.ok (NewBoolean false), ⟨pre ++ (c :: cs) :: rest, pre.length + 1⟩)
      else if (c :: cs) = "nil".toList then (.ok .nil, ⟨pre ++ (c :: cs) :: rest, pre.length + 1⟩)
      else (.ok (NewSymbol (c :: cs)), ⟨pre ++ (c :: cs) :: rest, pre.length + 1⟩) := by
    intro pre rest
    rw [ReadAtom_unfold]
    simp only [hint, hkw, hstr, hpre, Bool.false_eq_true, if_false]
  by_cases h1 : (c :: cs) = "true".toList
  · refine ⟨.boolean true, AtomText_of_run _ _ hrun (fun pre rest => ?_) (by rw [h1]; rfl)⟩
    rw [hun, if_pos h1]; rfl
  · by_cases h2 : (c :: cs) = "false".toList
    · refine ⟨.boolean false, AtomText_of_run _ _ hrun (fun pre rest => ?_) (by rw [h2]; rfl)⟩
      rw [hun, if_neg h1, if_pos h2]; rfl
    · by_cases h3 : (c :: cs) = "nil".toList
      · refine ⟨.nil, AtomText_of_run _ _ hrun (fun pre rest => ?_) (by rw [h3]; rfl)⟩
        rw [hun, if_neg h1, if_neg h2, if_pos h3]
      · refine ⟨.symbol (c :: cs), AtomText_of_run _ _ hrun (fun pre rest => ?_)
          (by rw [MalType.Print])⟩
        rw [hun, if_neg h1, if_neg h2, if_neg h3]; rfl


theorem AtomText_keyword (k : Str) (hk : isKeywordName k = true) :
    AtomText (':' :: k) (.string k true) := by
  simp only [isKeywordName, Bool.and_eq_true, Bool.not_eq_true'] at hk
  obtain ⟨hall, hpre⟩ := hk
  have hrun : isRunToken (':' :: k) = true :=
    (isRunToken_iff _).mpr ⟨':', k, rfl, by decide, by decide, hall⟩
  have hint : intRegexpMatch (':' :: k) = false := by
    have hd : isDigit ':' = false := by decide
    simp [intRegexpMatch, hd]
  have htrim : TrimLeft (':' :: k) [':'] = k := by
    cases k with
    | nil => rfl
    | cons c cs =>
      have hc : ¬ ':' = c := by
        intro h; subst h; simp [HasPrefix, List.isPrefixOf] at hpre
      have hc2 : ¬ c = ':' := fun h => hc h.symm
      simp [TrimLeft, hc2]
  refine AtomText_of_run _ _ hrun (fun pre rest => ?_) (by rw [MalType.Print]; rfl)
  rw [ReadAtom_unfold]
  have hp : HasPrefix (':' :: k) [':'] = true := by simp [HasPrefix, List.isPrefixOf]
  simp only [hint, hp, Bool.false_eq_true, if_false, if_true, NewKeyword, htrim]

theorem AtomText_string (s : Str) (hs : sentinel ∉ s) :
    AtomText (printString s false) (.string s false) := by
  have hp := printString_eq s
  refine ⟨⟨'\x22', s.flatMap escapeChar ++ ['\x22'], hp, by decide⟩, ?_,
    fun rest _ => matchToken_printString s rest, ?_, ?_, ?_,
    fun pre rest => ReadAtom_printString s hs pre rest, by rw [MalType.Print]⟩
  · intro c hc
    rw [hp] at hc
    rw [List.getLast?_append] at hc
    simp at hc
    rw [← hc]; decide
  · rw [hp]; constructor <;> (intro h; injection h with h _; revert h; decide)
  · rw [hp]; exact dispatch_atom_of_head _ _ (by decide)
  · intro r; rw [hp]; exact skip_of_head r _ _ (by decide) (by decide)

theorem isDigit_plain (c : Char) (h : c = '-' ∨ isDigit c = true) :
    isPlain c = true ∧ (c ≠ '~' ∧ c ≠ '^' ∧ c ≠ '@') := by
  rcases h with h | h
  · subst h; decide
  · rw [isPlain_iff]
    refine ⟨⟨⟨?_, ?_, ?_, ?_, ?_⟩, ?_, ?_, ?_, ?_, ?_, ?_, ?_, ?_, ?_, ?_, ?_⟩, ?_, ?_, ?_⟩ <;>
      (intro hc; subst hc; revert h; decide)

theorem isRunToken_formatInt (v : Int) : isRunToken (formatInt v) = true := by
  obtain ⟨_, hall, _⟩ := toDigits_spec v.natAbs
  obtain ⟨c, cs, hcs, hc⟩ := toDigits_head v.natAbs
  have hplain : (Nat.toDigits 10 v.natAbs).all isPlain = true := by
    rw [List.all_eq_true] at hall ⊢
    exact fun x hx => (isDigit_plain x (Or.inr (hall x hx))).1
  by_cases hv : v < 0
  · have hf : formatInt v = '-' :: Nat.toDigits 10 v.natAbs := by simp [formatInt, hv]
    rw [hf]
    exact (isRunToken_iff _).mpr ⟨'-', _, rfl, by decide, by decide, hplain⟩
  · have hf : formatInt v = Nat.toDigits 10 v.natAbs := by simp [formatInt, hv]
    rw [hf, hcs]
    rw [hcs] at hplain
    simp at hplain
    exact (isRunToken_iff _).mpr ⟨c, cs, rfl, (isDigit_plain c (Or.inr hc)).2, hplain.1,
      by simpa using hplain.2⟩

theorem AtomText_int (v : Int) (h1 : minInt ≤ v) (h2 : v ≤ maxInt) :
    AtomText (formatInt v) (.int v) := by
  refine AtomText_of_run _ _ (isRunToken_formatInt v) (fun pre rest => ?_)
    (by rw [MalType.Print])
  rw [ReadAtom_unfold, intRegexpMatch_formatInt, if_pos rfl, NewInt, Atoi_formatInt v h1 h2]

theorem AtomText_boolean (b : Bool) : AtomText (MalType.boolean b).Print (.boolean b) := by
  cases b
  · exact AtomText_of_run _ _ (by rfl) (fun pre rest => by rw [ReadAtom_unfold]; rfl) rfl
  · exact AtomText_of_run _ _ (by rfl) (fun pre rest => by rw [ReadAtom_unfold]; rfl) rfl

theorem AtomText_nil : AtomText "nil".toList .nil :=
  AtomText_of_run _ _ (by rfl) (fun pre rest => by rw [ReadAtom_unfold]; rfl) (by rfl)

/-! ## The tokens of a printed form -/

theorem tokensOf_list (xs : List MalType) :
    tokensOf (.list xs) = ['('] :: (tokensOfAll xs ++ [[')']]) := by
  rw [tokensOf]

theorem tokensOf_vector (xs : List MalType) :
    tokensOf (.vector xs) = ['['] :: (tokensOfAll xs ++ [[']']]) := by
  rw [tokensOf]

theorem tokensOfAll_cons (x : MalType) (xs : List MalType) :
    tokensOfAll (x :: xs) = tokensOf x ++ tokensOfAll xs := by
  rw [tokensOfAll]

theorem tokensOfAll_nil : tokensOfAll [] = [] := by
  rw [tokensOfAll]

theorem Join_printAll_last (xs : List MalType) (h : ∀ x ∈ xs, Shape x) :
    ∀ c, (Join (printAll xs) [' ']).getLast? = some c → c ≠ ' ' := by
  induction xs with
  | nil => intro c hc; rw [printAll_nil] at hc; simp [Join] at hc
  | cons x xs ih =>
    cases xs with
    | nil =>
      intro c hc
      rw [printAll_cons, printAll_nil] at hc
      exact (h x (by simp)).last c hc
    | cons y ys =>
      intro c hc
      rw [printAll_cons, printAll_cons, Join_cons_cons] at hc
      have hne : Join (y.Print :: printAll ys) [' '] ≠ [] := by
        obtain ⟨a, as, ha, _⟩ := (h y (by simp)).head
        cases hps : printAll ys with
        | nil => simp [Join, ha]
        | cons p ps => rw [Join_cons_cons, ha]; simp
      rw [List.getLast?_append_of_ne_nil _ hne] at hc
      exact ih (fun z hz => h z (by simp [hz])) c (by rw [printAll_cons]; exact hc)

/-- A list of forms of good shape prints as the joined text in parentheses. -/
theorem Print_list_shape (xs : List MalType) (h : ∀ x ∈ xs, Shape x) :
    (MalType.list xs).Print = '(' :: (Join (printAll xs) [' '] ++ [')']) := by
  rw [Print_list_join xs (Join_printAll_last xs h)]
  rfl

theorem Shape_list (xs : List MalType) (h : ∀ x ∈ xs, Shape x) : Shape (.list xs) := by
  refine ⟨⟨'(', _, Print_list_shape xs h, by decide⟩, ?_, ⟨_, _, tokensOf_list xs, by decide, by decide⟩⟩
  intro c hc
  rw [Print_list_shape xs h, ← List.cons_append, List.getLast?_append] at hc
  simp at hc
  rw [← hc]; decide

theorem Shape_vector (xs : List MalType) : Shape (.vector xs) := by
  refine ⟨⟨'[', _, Print_vector_eq xs, by decide⟩, ?_, ⟨_, _, tokensOf_vector xs, by decide, by decide⟩⟩
  intro c hc
  rw [Print_vector_eq xs, List.getLast?_append] at hc
  simp at hc
  rw [← hc]; decide

theorem Shape_atom (f f1 : MalType) (h : AtomText f.Print f1) (ht : tokensOf f = [f.Print]) :
    Shape f :=
  ⟨h.head, h.last, ⟨_, _, ht, h.closer.1, h.closer.2⟩⟩

theorem allMatches_token (t rest sp : Str) (b : Bool) (n : Nat)
    (hm : matchToken (t ++ rest) = (t, rest))
    (hhead : ∃ c cs, t = c :: cs ∧ isSeparator c = false)
    (hsp : sp = [] ∨ sp = [' ']) (hn : (sp ++ (t ++ rest)).length < n) :
    allMatches n (sp ++ (t ++ rest)) b = t :: allMatches n rest true := by
  obtain ⟨c, cs, rfl, hc⟩ := hhead
  have hd : (sp ++ (c :: cs ++ rest)).dropWhile isSeparator = c :: cs ++ rest := by
    rcases hsp with h | h <;> subst h
    · simp [hc]
    · have : isSeparator ' ' = true := by decide
      simp [hc, this]
  rw [allMatches_step _ _ n hn (by rw [hd, hm]; simp; omega), hd, hm]

theorem TokOK_atom (f f1 : MalType) (h : AtomText f.Print f1) (ht : tokensOf f = [f.Print]) :
    TokOK f := by
  intro sp rest b n hsp hrest hn
  rw [allMatches_token _ rest sp b n (h.token rest hrest) h.head hsp hn, ht]
  rfl

/-- The tokenizer on the joined printed texts of a sequence of forms, before a
closing bracket. -/
theorem allMatches_elements (xs : List MalType) (h : ∀ x ∈ xs, TokOK x) :
    ∀ (sp rest : Str) (n : Nat), (sp = [] ∨ (sp = [' '] ∧ xs ≠ [])) →
      rest.head?.all (fun c => !isPlain c) = true →
      (sp ++ (Join (printAll xs) [' '] ++ rest)).length < n →
      allMatches n (sp ++ (Join (printAll xs) [' '] ++ rest)) true =
        tokensOfAll xs ++ allMatches n rest true := by
  induction xs with
  | nil =>
    intro sp rest n hsp _ _
    rcases hsp with h1 | ⟨_, h2⟩
    · subst h1; rw [printAll_nil, tokensOfAll_nil]; rfl
    · exact absurd rfl h2
  | cons x xs ih =>
    intro sp rest n hsp hrest hn
    have hsp1 : sp = [] ∨ sp = [' '] := by tauto
    cases xs with
    | nil =>
      rw [printAll_cons, printAll_nil] at hn ⊢
      rw [tokensOfAll_cons, tokensOfAll_nil, List.append_nil]
      exact h x (by simp) sp rest true n hsp1 hrest hn
    | cons y ys =>
      rw [printAll_cons, printAll_cons, Join_cons_cons] at hn ⊢
      rw [tokensOfAll_cons]
      have e : x.Print ++ [' '] ++ Join (y.Print :: printAll ys) [' '] ++ rest =
          x.Print ++ ([' '] ++ (Join (printAll (y :: ys)) [' '] ++ rest)) := by
        rw [printAll_cons]; simp
      rw [e] at hn ⊢
      rw [h x (by simp) sp _ true n hsp1 (by simp; decide) hn]
      rw [ih (fun z hz => h z (by simp [hz])) [' '] rest n (Or.inr ⟨rfl, by simp⟩) hrest
        (by simp at hn ⊢; omega)]
      simp

theorem bracket_head (o : Char) (ho : isBracketToken [o] = true) :
    ∃ c cs, [o] = c :: cs ∧ isSeparator c = false := by
  obtain ⟨c, cs, h, hc⟩ := good_head [o] (Or.inl ho)
  exact ⟨c, cs, h, hc⟩

theorem bracket_not_plain (c : Char) (hc : isBracketToken [c] = true) : isPlain c = false := by
  simp only [isBracketToken, Bool.or_eq_true, decide_eq_true_eq, List.cons.injEq, and_true] at hc
  rcases hc with ((((h | h) | h) | h) | h) | h <;> subst h <;> decide

/-- The tokenizer on a bracketed sequence of printed forms. -/
theorem allMatches_brackets (o c : Char) (ho : isBracketToken [o] = true)
    (hc : isBracketToken [c] = true) (xs : List MalType) (h : ∀ x ∈ xs, TokOK x)
    (sp rest : Str) (b : Bool) (n : Nat) (hsp : sp = [] ∨ sp = [' '])
    (hn : (sp ++ (o :: (Join (printAll xs) [' '] ++ [c]) ++ rest)).length < n) :
    allMatches n (sp ++ (o :: (Join (printAll xs) [' '] ++ [c]) ++ rest)) b =
      ([o] :: (tokensOfAll xs ++ [[c]])) ++ allMatches n rest true := by
  have e1 : o :: (Join (printAll xs) [' '] ++ [c]) ++ rest =
      [o] ++ (Join (printAll xs) [' '] ++ (c :: rest)) := by simp
  rw [e1] at hn ⊢
  rw [allMatches_token [o] _ sp b n (matchToken_bracket [o] _ ho) (bracket_head o ho) hsp hn]
  have hcp : (c :: rest).head?.all (fun d => !isPlain d) = true := by
    simp [bracket_not_plain c hc]
  have h2 := allMatches_elements xs h [] (c :: rest) n (Or.inl rfl) hcp
    (by simp at hn ⊢; omega)
  rw [List.nil_append] at h2
  rw [h2]
  have h3 := allMatches_token [c] rest [] true n (matchToken_bracket [c] _ hc)
    (bracket_head c hc) (Or.inl rfl) (by simp at hn ⊢; omega)
  simp only [List.nil_append, List.singleton_append] at h3
  rw [h3]
  simp

theorem TokOK_list (xs : List MalType) (hs : ∀ x ∈ xs, Shape x) (h : ∀ x ∈ xs, TokOK x) :
    TokOK (.list xs) := by
  intro sp rest b n hsp _ hn
  rw [Print_list_shape xs hs] at hn ⊢
  rw [tokensOf_list]
  exact allMatches_brackets '(' ')' (by decide) (by decide) xs h sp rest b n hsp hn

theorem TokOK_vector (xs : List MalType) (h : ∀ x ∈ xs, TokOK x) : TokOK (.vector xs) := by
  intro sp rest b n hsp _ hn
  have e : (MalType.vector xs).Print = '[' :: (Join (printAll xs) [' '] ++ [']']) :=
    Print_vector_eq xs
  rw [e] at hn ⊢
  rw [tokensOf_vector]
  exact allMatches_brackets '[' ']' (by decide) (by decide) xs h sp rest b n hsp hn

/-- Every form of the round trip has printed text of good shape that the
tokenizer splits into the tokens of the form. -/
theorem Readable_tokens (f : MalType) (h : Readable f) : Shape f ∧ TokOK f := by
  induction h with
  | list xs _ ih =>
    exact ⟨Shape_list xs (fun x hx => (ih x hx).1),
      TokOK_list xs (fun x hx => (ih x hx).1) (fun x hx => (ih x hx).2)⟩
  | vector xs _ ih =>
    exact ⟨Shape_vector xs, TokOK_vector xs (fun x hx => (ih x hx).2)⟩
  | int v h1 h2 =>
    have ha : AtomText (MalType.int v).Print (.int v) := by
      rw [MalType.Print]; exact AtomText_int v h1 h2
    have ht : tokensOf (.int v) = [(MalType.int v).Print] := by rw [tokensOf, MalType.Print]
    exact ⟨Shape_atom _ _ ha ht, TokOK_atom _ _ ha ht⟩
  | boolean b =>
    have ha := AtomText_boolean b
    have ht : tokensOf (.boolean b) = [(MalType.boolean b).Print] := by rw [tokensOf]
    exact ⟨Shape_atom _ _ ha ht, TokOK_atom _ _ ha ht⟩
  | nil =>
    have ha : AtomText MalType.nil.Print .nil := by rw [MalType.Print]; exact AtomText_nil
    have ht : tokensOf .nil = [MalType.nil.Print] := by rw [tokensOf, MalType.Print]
    exact ⟨Shape_atom _ _ ha ht, TokOK_atom _ _ ha ht⟩
  | string s hs =>
    have ha : AtomText (MalType.string s false).Print (.string s false) := by
      rw [MalType.Print]; exact AtomText_string s hs
    have ht : tokensOf (.string s false) = [(MalType.string s false).Print] := by
      rw [tokensOf, MalType.Print]
    exact ⟨Shape_atom _ _ ha ht, TokOK_atom _ _ ha ht⟩
  | symbol s hs =>
    obtain ⟨f1, hf1⟩ := AtomText_symbol s hs
    have ha : AtomText (MalType.symbol s).Print f1 := by rw [MalType.Print]; exact hf1
    have ht : tokensOf (.symbol s) = [(MalType.symbol s).Print] := by
      rw [tokensOf, MalType.Print]
    exact ⟨Shape_atom _ _ ha ht, TokOK_atom _ _ ha ht⟩
  | keyword k hk =>
    have ha : AtomText (MalType.string k true).Print (.string k true) := by
      rw [MalType.Print]; exact AtomText_keyword k hk
    have ht : tokensOf (.string k true) = [(MalType.string k true).Print] := by
      rw [tokensOf, MalType.Print]
    exact ⟨Shape_atom _ _ ha ht, TokOK_atom _ _ ha ht⟩

/-- The tokenizer on the printed text of a form of the round trip. -/
theorem Tokenize_Print (f : MalType) (h : Readable f) : Tokenize f.Print = tokensOf f := by
  have := (Readable_tokens f h).2 [] [] false (f.Print.length + 1) (Or.inl rfl) (by simp)
    (by simp)
  simp only [List.nil_append, List.append_nil] at this
  rw [Tokenize, this, allMatches_nil _ (by omega)]
  simp

/-! ## Reading the tokens of a printed form -/

theorem ReadOK_atom (f f1 : MalType) (h : AtomText f.Print f1) (ht : tokensOf f = [f.Print]) :
    ReadOK f := by
  intro pre rest n hn
  rw [ht] at hn ⊢
  obtain ⟨k, rfl⟩ : ∃ k, n = k + 1 := ⟨n - 1, by simp at hn; omega⟩
  refine ⟨f1, ?_, h.print⟩
  rw [ReadForm_unfold]
  simp only [List.singleton_append, Peek_append, h.atom, h.skip, h.read, List.length_singleton]

/-- The loop of a collection on the tokens of a sequence of forms followed by
the closing token. -/
theorem readSeq_elements (closer : Str) (hc : closer = [')'] ∨ closer = [']'])
    (xs : List MalType) (hs : ∀ x ∈ xs, Shape x) (h : ∀ x ∈ xs, ReadOK x) :
    ∀ (pre rest : List Str) (acc : List MalType) (n : Nat),
      2 * (tokensOfAll xs).length + 1 ≤ n →
      ∃ ys, Reader.readSeq n closer ⟨pre ++ (tokensOfAll xs ++ closer :: rest), pre.length⟩ acc =
          some (.ok (acc ++ ys), ⟨pre ++ (tokensOfAll xs ++ closer :: rest),
            pre.length + (tokensOfAll xs).length + 1⟩) ∧
        printAll ys = printAll xs := by
  induction xs with
  | nil =>
    intro pre rest acc n hn
    obtain ⟨k, rfl⟩ : ∃ k, n = k + 1 := ⟨n - 1, by omega⟩
    refine ⟨[], ?_, rfl⟩
    rw [tokensOfAll_nil, readSeq_unfold]
    simp only [List.nil_append, Peek_append, if_true, Next_append, List.append_nil,
      List.length_nil, Nat.add_zero]
  | cons x xs ih =>
    intro pre rest acc n hn
    obtain ⟨t, ts, htok, hne1, hne2⟩ := (hs x (by simp)).first
    have hne : t ≠ closer := by rcases hc with e | e <;> subst e <;> assumption
    rw [tokensOfAll_cons] at hn ⊢
    have hlen : 1 ≤ (tokensOf x).length := by rw [htok]; simp
    obtain ⟨k, rfl⟩ : ∃ k, n = k + 1 := ⟨n - 1, by omega⟩
    simp only [List.length_append] at hn
    obtain ⟨f1, hf1, hp1⟩ := h x (by simp) pre (tokensOfAll xs ++ closer :: rest) k (by omega)
    obtain ⟨ys, hys, hpys⟩ := ih (fun z hz => hs z (by simp [hz])) (fun z hz => h z (by simp [hz]))
      (pre ++ tokensOf x) rest (acc ++ [f1]) k (by omega)
    have e1 : pre ++ (tokensOf x ++ tokensOfAll xs ++ closer :: rest) =
        pre ++ (tokensOf x ++ (tokensOfAll xs ++ closer :: rest)) := by simp
    have e2 : pre ++ tokensOf x ++ (tokensOfAll xs ++ closer :: rest) =
        pre ++ (tokensOf x ++ (tokensOfAll xs ++ closer :: rest)) := by simp
    rw [e2, List.length_append] at hys
    rw [e1]
    refine ⟨f1 :: ys, ?_, by rw [printAll_cons, printAll_cons, hp1, hpys]⟩
    rw [readSeq_unfold]
    have hpeek : (Reader.mk (pre ++ (tokensOf x ++ (tokensOfAll xs ++ closer :: rest)))
        pre.length).Peek = .ok t := by
      rw [htok]; exact Peek_append pre t _
    rw [hpeek]
    simp only [if_neg hne, hf1, hys]
    simp [Nat.add_assoc]

/-- `ReadForm` on a bracketed sequence of tokens of forms. -/
theorem ReadForm_brackets (o c : Char) (build : List MalType → Res MalType)
    (hd : dispatch [o] = .collection [c] build) (hsk : ∀ r : Reader, r.skip [o] = r)
    (hc : [c] = [')'] ∨ [c] = [']'])
    (xs : List MalType) (hs : ∀ x ∈ xs, Shape x) (h : ∀ x ∈ xs, ReadOK x)
    (pre rest : List Str) (n : Nat) (hn : 2 * ((tokensOfAll xs).length + 2) ≤ n) :
    ∃ ys, Reader.ReadForm n ⟨pre ++ ([o] :: (tokensOfAll xs ++ [[c]]) ++ rest), pre.length⟩ =
        some (build ys, ⟨pre ++ ([o] :: (tokensOfAll xs ++ [[c]]) ++ rest),
          pre.length + ((tokensOfAll xs).length + 2)⟩) ∧
      printAll ys = printAll xs := by
  obtain ⟨k, rfl⟩ : ∃ k, n = k + 1 := ⟨n - 1, by omega⟩
  obtain ⟨ys, hys, hp⟩ := readSeq_elements [c] hc xs hs h (pre ++ [[o]]) rest [] k (by omega)
  have e1 : pre ++ [[o]] ++ (tokensOfAll xs ++ [c] :: rest) =
      pre ++ ([o] :: (tokensOfAll xs ++ [[c]]) ++ rest) := by simp
  rw [e1] at hys
  refine ⟨ys, ?_, hp⟩
  rw [ReadForm_unfold]
  have hpeek : (Reader.mk (pre ++ ([o] :: (tokensOfAll xs ++ [[c]]) ++ rest)) pre.length).Peek =
      .ok [o] := Peek_append pre [o] _
  have hnext : (Reader.mk (pre ++ ([o] :: (tokensOfAll xs ++ [[c]]) ++ rest)) pre.length).Next =
      (.ok [o], ⟨pre ++ ([o] :: (tokensOfAll xs ++ [[c]]) ++ rest), pre.length + 1⟩) :=
    Next_append pre [o] _
  rw [hpeek]
  simp only [hd, hsk, hnext]
  simp only [List.length_append, List.length_singleton] at hys
  have harith : pre.length + 1 + (tokensOfAll xs).length + 1 =
      pre.length + ((tokensOfAll xs).length + 2) := by omega
  rw [hys, harith]
  simp [finishSeq]

theorem Print_list_congr (xs ys : List MalType) (h : printAll ys = printAll xs) :
    (MalType.list ys).Print = (MalType.list xs).Print := by
  rw [Print_list_eq, Print_list_eq, h]

theorem Print_vector_congr (xs ys : List MalType) (h : printAll ys = printAll xs) :
    (MalType.vector ys).Print = (MalType.vector xs).Print := by
  rw [Print_vector_eq, Print_vector_eq, h]

theorem ReadOK_list (xs : List MalType) (hs : ∀ x ∈ xs, Shape x) (h : ∀ x ∈ xs, ReadOK x) :
    ReadOK (.list xs) := by
  intro pre rest n hn
  rw [tokensOf_list] at hn ⊢
  simp only [List.length_cons, List.length_append, List.length_singleton] at hn
  obtain ⟨ys, hys, hp⟩ := ReadForm_brackets '(' ')' (fun l => .ok (.list l)) rfl (fun _ => rfl)
    (Or.inl rfl) xs hs h pre rest n (by omega)
  refine ⟨.list ys, ?_, Print_list_congr xs ys hp⟩
  rw [hys]
  simp only [List.length_cons, List.length_append, List.length_singleton, List.length_nil]

theorem ReadOK_vector (xs : List MalType) (hs : ∀ x ∈ xs, Shape x) (h : ∀ x ∈ xs, ReadOK x) :
    ReadOK (.vector xs) := by
  intro pre rest n hn
  rw [tokensOf_vector] at hn ⊢
  simp only [List.length_cons, List.length_append, List.length_singleton] at hn
  obtain ⟨ys, hys, hp⟩ := ReadForm_brackets '[' ']' (fun l => .ok (.vector l)) rfl (fun _ => rfl)
    (Or.inr rfl) xs hs h pre rest n (by omega)
  refine ⟨.vector ys, ?_, Print_vector_congr xs ys hp⟩
  rw [hys]
  simp only [List.length_cons, List.length_append, List.length_singleton, List.length_nil]

/-- The reader on the tokens of every form of the round trip. -/
theorem Readable_read (f : MalType) (h : Readable f) : ReadOK f := by
  induction h with
  | list xs hx ih => exact ReadOK_list xs (fun x hxs => (Readable_tokens x (hx x hxs)).1) ih
  | vector xs hx ih => exact ReadOK_vector xs (fun x hxs => (Readable_tokens x (hx x hxs)).1) ih
  | int v h1 h2 =>
    exact ReadOK_atom _ (.int v) (by rw [MalType.Print]; exact AtomText_int v h1 h2)
      (by rw [tokensOf, MalType.Print])
  | boolean b => exact ReadOK_atom _ _ (AtomText_boolean b) (by rw [tokensOf])
  | nil =>
    exact ReadOK_atom _ .nil (by rw [MalType.Print]; exact AtomText_nil)
      (by rw [tokensOf, MalType.Print])
  | string s hs =>
    exact ReadOK_atom _ (.string s false) (by rw [MalType.Print]; exact AtomText_string s hs)
      (by rw [tokensOf, MalType.Print])
  | symbol s hs =>
    obtain ⟨f1, hf1⟩ := AtomText_symbol s hs
    exact ReadOK_atom _ f1 (by rw [MalType.Print]; exact hf1) (by rw [tokensOf, MalType.Print])
  | keyword k hk =>
    exact ReadOK_atom _ (.string k true) (by rw [MalType.Print]; exact AtomText_keyword k hk)
      (by rw [tokensOf, MalType.Print])

/-- C1 (amended): for every form built from lists, vectors, host integers,
booleans, nil, strings without U+029E, and symbols and keywords whose names are
runs of plain characters (symbols: non-empty, not starting with `~`, `^`, `@`
or a colon, not of the integer pattern; keywords: not starting with a colon),
reading the printed text succeeds, consumes every token, and the form read
prints as the same text. -/
theorem Print_READ_roundtrip (f : MalType) (h : Readable f) :
    ∃ f1, Reader.ReadForm (readFuel (Tokenize f.Print)) (NewReader (Tokenize f.Print)) =
        some (.ok f1, ⟨Tokenize f.Print, (Tokenize f.Print).length⟩) ∧
      READ f.Print = some (.ok f1) ∧ f1.Print = f.Print := by
  have ht := Tokenize_Print f h
  obtain ⟨f1, hf1, hp⟩ := Readable_read f h [] [] (readFuel (tokensOf f))
    (by simp only [readFuel]; omega)
  simp only [List.nil_append, List.append_nil, List.length_nil, Nat.zero_add] at hf1
  refine ⟨f1, ?_, ?_, hp⟩
  · rw [ht, NewReader, hf1]
  · rw [READ, ht, NewReader, hf1]; rfl

/-- C1 as stated fails: the symbol named `a b` prints as `a b`, which reads back
as the symbol `a`, and that prints as `a`. -/
theorem Print_READ_symbol_with_space :
    READ (MalType.symbol "a b".toList).Print = some (.ok (.symbol "a".toList)) ∧
    ¬ ∃ f1, READ (MalType.symbol "a b".toList).Print = some (.ok f1) ∧
      f1.Print = (MalType.symbol "a b".toList).Print := by
  have hr : READ (MalType.symbol "a b".toList).Print = some (.ok (.symbol "a".toList)) := by rfl
  refine ⟨hr, ?_⟩
  rintro ⟨f1, h1, h2⟩
  rw [hr] at h1
  injection h1 with h1
  injection h1 with h1
  subst h1
  revert h2
  decide

theorem Print_READ_roundtrip_witness :
    ∃ f1, Reader.ReadForm
        (readFuel (Tokenize (MalType.list [.symbol "def!".toList, .string "k".toList true,
          .vector [.int (-3), .string "x\x22y".toList false], .nil, .boolean true]).Print))
        (NewReader (Tokenize (MalType.list [.symbol "def!".toList, .string "k".toList true,
          .vector [.int (-3), .string "x\x22y".toList false], .nil, .boolean true]).Print)) =
        some (.ok f1, ⟨Tokenize (MalType.list [.symbol "def!".toList, .string "k".toList true,
          .vector [.int (-3), .string "x\x22y".toList false], .nil, .boolean true]).Print,
          (Tokenize (MalType.list [.symbol "def!".toList, .string "k".toList true,
          .vector [.int (-3), .string "x\x22y".toList false], .nil, .boolean true]).Print).length⟩) ∧
      READ (MalType.list [.symbol "def!".toList, .string "k".toList true,
          .vector [.int (-3), .string "x\x22y".toList false], .nil, .boolean true]).Print =
        some (.ok f1) ∧
      f1.Print = (MalType.list [.symbol "def!".toList, .string "k".toList true,
          .vector [.int (-3), .string "x\x22y".toList false], .nil, .boolean true]).Print :=
  Print_READ_roundtrip _ (Readable.list _ (by
    intro x hx
    simp only [List.mem_cons, List.mem_singleton, List.not_mem_nil, or_false] at hx
    rcases hx with rfl | rfl | rfl | rfl | rfl
    · exact Readable.symbol _ (by decide)
    · exact Readable.keyword _ (by decide)
    · refine Readable.vector _ ?_
      intro y hy
      simp only [List.mem_cons, List.mem_singleton, List.not_mem_nil, or_false] at hy
      rcases hy with rfl | rfl
      · exact Readable.int _ (by decide) (by decide)
      · exact Readable.string _ (by decide)
    · exact Readable.nil
    · exact Readable.boolean true))

/-! ## The reader makes progress and the call bound of `READ` is enough -/

theorem Next_tokens (r : Reader) : r.Next.2.tokens = r.tokens ∧ r.position ≤ r.Next.2.position := by
  simp only [Reader.Next]
  cases r.Peek <;> simp

theorem Next_ok (r : Reader) (t : Str) (r1 : Reader) (h : r.Next = (.ok t, r1)) :
    r1.tokens = r.tokens ∧ r1.position = r.position + 1 := by
  simp only [Reader.Next] at h
  cases hp : r.Peek with
  | ok v => rw [hp] at h; simp at h; rw [← h.2]; simp
  | error e => rw [hp] at h; simp at h
  | panic => rw [hp] at h; simp at h

theorem Next_of_Peek (r : Reader) (t : Str) (h : r.Peek = .ok t) :
    r.Next = (.ok t, ⟨r.tokens, r.position + 1⟩) := by
  simp [Reader.Next, h]

theorem skip_tokens (r : Reader) (t : Str) :
    (r.skip t).tokens = r.tokens ∧ r.position ≤ (r.skip t).position := by
  simp only [Reader.skip]
  have h1 := Next_tokens r
  split
  · have h2 := Next_tokens r.Next.2
    split
    · exact ⟨h2.1.trans h1.1, Nat.le_trans h1.2 h2.2⟩
    · exact h1
  · split
    · exact h1
    · exact ⟨rfl, Nat.le_refl _⟩

theorem ReadAtom_ok (r : Reader) (f : MalType) (r1 : Reader) (h : r.ReadAtom = (.ok f, r1)) :
    r1.tokens = r.tokens ∧ r1.position = r.position + 1 := by
  rw [Reader.ReadAtom] at h
  rcases hN : r.Next with ⟨res, r2⟩
  rw [hN] at h
  cases res with
  | error e => simp at h
  | panic => simp at h
  | ok t =>
    have h2 := Next_ok r t r2 hN
    simp only at h
    have hr : r1 = r2 := by
      split_ifs at h <;> exact (Prod.mk.inj h).2.symm
    rw [hr]; exact h2

/-- A successful `ReadForm` or collection loop keeps the tokens and moves the
cursor forward. -/
theorem ReadForm_readSeq_progress (n : Nat) :
    (∀ r f r1, Reader.ReadForm n r = some (.ok f, r1) →
      r1.tokens = r.tokens ∧ r.position < r1.position) ∧
    (∀ closer r acc l r1, Reader.readSeq n closer r acc = some (.ok l, r1) →
      r1.tokens = r.tokens ∧ r.position < r1.position) := by
  induction n with
  | zero =>
    constructor
    · intro r f r1 h; simp [Reader.ReadForm] at h
    · intro c r acc l r1 h; simp [Reader.readSeq] at h
  | succ n ih =>
    obtain ⟨ihF, ihS⟩ := ih
    constructor
    · intro r f r1 h
      rw [ReadForm_unfold] at h
      cases hp : r.Peek with
      | error e => rw [hp] at h; simp at h
      | panic => rw [hp] at h; simp at h
      | ok t =>
        rw [hp] at h
        simp only at h
        have hsk := skip_tokens r t
        cases hd : dispatch t with
        | fail msg => rw [hd] at h; simp at h
        | atom =>
          rw [hd] at h
          simp only [Option.some.injEq] at h
          have := ReadAtom_ok _ f r1 h
          exact ⟨this.1.trans hsk.1, by omega⟩
        | readerMacro name =>
          rw [hd] at h
          simp only at h
          have hnx := Next_tokens (r.skip t)
          cases hh : Reader.ReadForm n (r.skip t).Next.2 with
          | none => rw [hh] at h; simp at h
          | some y =>
            rw [hh] at h
            obtain ⟨res, r2⟩ := y
            cases res with
            | error e => simp [wrapMacro] at h
            | panic => simp [wrapMacro] at h
            | ok g =>
              simp only [Option.map_some', wrapMacro, Option.some.injEq, Prod.mk.injEq] at h
              have := ihF _ g r2 hh
              rw [← h.2]
              exact ⟨this.1.trans (hnx.1.trans hsk.1), by omega⟩
        | collection closer build =>
          rw [hd] at h
          simp only at h
          rcases hN : (r.skip t).Next with ⟨res, r2⟩
          rw [hN] at h
          cases res with
          | error e => simp at h
          | panic => simp at h
          | ok v =>
            have hnx := Next_ok _ v r2 hN
            simp only at h
            cases hh : Reader.readSeq n closer r2 [] with
            | none => rw [hh] at h; simp at h
            | some y =>
              rw [hh] at h
              obtain ⟨res, r3⟩ := y
              cases res with
              | error e => simp [finishSeq] at h
              | panic => simp [finishSeq] at h
              | ok l =>
                simp only [Option.map_some', finishSeq, Option.some.injEq, Prod.mk.injEq] at h
                have := ihS _ _ _ l r3 hh
                rw [← h.2]
                exact ⟨this.1.trans (hnx.1.trans hsk.1), by omega⟩
    · intro closer r acc l r1 h
      rw [readSeq_unfold] at h
      cases hp : r.Peek with
      | error e => rw [hp] at h; simp at h
      | panic => rw [hp] at h; simp at h
      | ok t =>
        rw [hp] at h
        simp only at h
        by_cases hc : t = closer
        · rw [if_pos hc] at h
          simp only [Option.some.injEq, Prod.mk.injEq] at h
          rw [← h.2, Next_of_Peek r t hp]
          simp
        · rw [if_neg hc] at h
          cases hh : Reader.ReadForm n r with
          | none => rw [hh] at h; simp at h
          | some y =>
            rw [hh] at h
            obtain ⟨res, r2⟩ := y
            cases res with
            | error e => simp at h
            | panic => simp at h
            | ok g =>
              simp only at h
              have h1 := ihF r g r2 hh
              have h2 := ihS _ _ _ _ _ h
              exact ⟨h2.1.trans h1.1, by omega⟩


theorem Peek_ok_lt (r : Reader) (t : Str) (h : r.Peek = .ok t) :
    r.position < r.tokens.length := by
  simp only [Reader.Peek] at h
  cases hg : r.tokens.get? r.position with
  | none => rw [hg] at h; simp at h
  | some v =>
    rw [List.get?_eq_getElem?] at hg
    exact (List.getElem?_eq_some_iff.mp hg).1

/-- With a call bound of three per remaining token and one more (two more for
the loop), neither `ReadForm` nor the collection loop reaches the bound. -/
theorem ReadForm_readSeq_enough (k : Nat) :
    (∀ r n, r.tokens.length - r.position ≤ k → 3 * k + 1 ≤ n →
      ∃ x, Reader.ReadForm n r = some x) ∧
    (∀ closer r acc n, r.tokens.length - r.position ≤ k → 3 * k + 2 ≤ n →
      ∃ x, Reader.readSeq n closer r acc = some x) := by
  induction k with
  | zero =>
    have hpeek : ∀ r : Reader, r.tokens.length - r.position ≤ 0 →
        r.Peek = .error "EOF".toList := by
      intro r hr
      cases hp : r.Peek with
      | ok t => have := Peek_ok_lt r t hp; omega
      | error e => simp only [Reader.Peek] at hp ⊢; split at hp <;> simp_all
      | panic => simp only [Reader.Peek] at hp; split at hp <;> simp at hp
    constructor
    · intro r n hr hn
      obtain ⟨j, rfl⟩ : ∃ j, n = j + 1 := ⟨n - 1, by omega⟩
      rw [ReadForm_unfold, hpeek r hr]
      exact ⟨_, rfl⟩
    · intro closer r acc n hr hn
      obtain ⟨j, rfl⟩ : ∃ j, n = j + 1 := ⟨n - 1, by omega⟩
      rw [readSeq_unfold, hpeek r hr]
      exact ⟨_, rfl⟩
  | succ k ih =>
    obtain ⟨ihF, ihS⟩ := ih
    have hF : ∀ r n, r.tokens.length - r.position ≤ k + 1 → 3 * (k + 1) + 1 ≤ n →
        ∃ x, Reader.ReadForm n r = some x := by
      intro r n hr hn
      obtain ⟨j, rfl⟩ : ∃ j, n = j + 1 := ⟨n - 1, by omega⟩
      rw [ReadForm_unfold]
      cases hp : r.Peek with
      | error e => exact ⟨_, rfl⟩
      | panic => exact ⟨_, rfl⟩
      | ok t =>
        simp only
        have hlt := Peek_ok_lt r t hp
        have hsk := skip_tokens r t
        cases hd : dispatch t with
        | fail msg => exact ⟨_, rfl⟩
        | atom => exact ⟨_, rfl⟩
        | readerMacro name =>
          simp only
          have hnx := Next_tokens (r.skip t)
          have hrem : (r.skip t).Next.2.tokens.length - (r.skip t).Next.2.position ≤ k := by
            rw [hnx.1, hsk.1]
            by_cases hq : (r.skip t).position = r.position
            · have hpk : (r.skip t).Peek = .ok t := by
                have e : r.skip t = r := by
                  cases hrs : r.skip t with
                  | mk tk ps =>
                    rw [hrs] at hsk hq
                    simp only at hsk hq
                    cases r
                    simp_all
                rw [e]; exact hp
              rw [Next_of_Peek _ t hpk]
              simp only
              omega
            · omega
          obtain ⟨x, hx⟩ := ihF _ j hrem (by omega)
          rw [hx]; exact ⟨_, rfl⟩
        | collection closer build =>
          simp only
          rcases hN : (r.skip t).Next with ⟨res, r2⟩
          cases res with
          | error e => exact ⟨_, rfl⟩
          | panic => exact ⟨_, rfl⟩
          | ok v =>
            simp only
            have hnx := Next_ok _ v r2 hN
            obtain ⟨x, hx⟩ := ihS closer r2 [] j (by rw [hnx.1, hnx.2, hsk.1]; omega) (by omega)
            rw [hx]; exact ⟨_, rfl⟩
    refine ⟨hF, ?_⟩
    intro closer r acc n hr hn
    obtain ⟨j, rfl⟩ : ∃ j, n = j + 1 := ⟨n - 1, by omega⟩
    rw [readSeq_unfold]
    cases hp : r.Peek with
    | error e => exact ⟨_, rfl⟩
    | panic => exact ⟨_, rfl⟩
    | ok t =>
      simp only
      by_cases hc : t = closer
      · rw [if_pos hc]; exact ⟨_, rfl⟩
      · rw [if_neg hc]
        obtain ⟨y, hy⟩ := hF r j hr (by omega)
        rw [hy]
        obtain ⟨res, r2⟩ := y
        cases res with
        | error e => exact ⟨_, rfl⟩
        | panic => exact ⟨_, rfl⟩
        | ok g =>
          simp only
          have hpr := (ReadForm_readSeq_progress j).1 r g r2 hy
          exact ihS closer r2 _ j (by rw [hpr.1]; omega) (by omega)

/-- `READ` returns for every input: its call bound is never reached. -/
theorem READ_returns (input : Str) : ∃ res, READ input = some res := by
  obtain ⟨x, hx⟩ := (ReadForm_readSeq_enough (Tokenize input).length).1
    (NewReader (Tokenize input)) (readFuel (Tokenize input)) (by simp [NewReader])
    (by simp only [readFuel]; omega)
  exact ⟨x.1, by rw [READ, hx]; rfl⟩

/-! ## The evaluator: unfolding and a larger call bound -/

theorem EVAL_unfold (n : Nat) (ast : MalType) (env : Env) :
    EVAL (n + 1) ast env =
      match ast with
      | .list items => if items.length = 0 then some (.ok ast, env) else apply n items env
      | _ => eval_ast n ast env := by
  rfl

theorem mapEVAL_unfold (n : Nat) (items : List MalType) (env : Env) (r : List MalType) :
    mapEVAL (n + 1) items env r =
      match items with
      | [] => some (.ok r, env)
      | v :: rest =>
        match EVAL n v env with
        | none => none
        | some (.ok item, env1) => mapEVAL n rest env1 (r ++ [item])
        | some (.error e, env1) => some (.error e, env1)
        | some (.panic, env1) => some (.panic, env1) := by
  rfl

theorem BindEnv_unfold (n : Nat) (items : List MalType) (env : Env) :
    BindEnv (n + 1) items env =
      match items with
      | [] => some (.ok (), env)
      | keyObj :: rest =>
        match keyObj with
        | .symbol key =>
          match rest with
          | [] => some (.panic, env)
          | valueExpr :: rest1 =>
            match EVAL n valueExpr env with
            | none => none
            | some (.ok val, env1) => BindEnv n rest1 (env1.Set key val)
            | some (.error e, env1) => some (.error e, env1)
            | some (.panic, env1) => some (.panic, env1)
        | _ =>
          some (.error ("attempting to bind to a non symbol: ".toList ++ keyObj.Print), env) := by
  rfl

theorem eval_ast_unfold (n : Nat) (ast : MalType) (env : Env) :
    eval_ast (n + 1) ast env =
      match ast with
      | .symbol v => some (env.Get v, env)
      | .list items =>
        match mapEVAL n items env [] with
        | none => none
        | some (.ok r, env1) => some (.ok (.list r), env1)
        | some (.error e, env1) => some (.error e, env1)
        | some (.panic, env1) => some (.panic, env1)
      | .vector items =>
        match mapEVAL n items env [] with
        | none => none
        | some (.ok r, env1) => some (.ok (.vector r), env1)
        | some (.error e, env1) => some (.error e, env1)
        | some (.panic, env1) => some (.panic, env1)
      | .hashMap entries =>
        match mapEVAL n (entries.map Prod.snd) env [] with
        | none => none
        | some (.ok r, env1) => some (.ok (.hashMap (zipValues entries r)), env1)
        | some (.error e, env1) => some (.error e, env1)
        | some (.panic, env1) => some (.panic, env1)
      | _ => some (.ok ast, env) := by
  rfl

theorem apply_unfold (n : Nat) (items : List MalType) (env : Env) :
    apply (n + 1) items env =
      match items with
      | [] => some (.error "can\x27t apply an empty list".toList, env)
      | head :: rest =>
        if head.isSymbolNamed "def!".toList then
          match rest with
          | [] => some (.panic, env)
          | keyObj :: rest1 =>
            match keyObj with
            | .symbol key =>
              match rest1 with
              | [] => some (.panic, env)
              | valueExpr :: _ =>
                match EVAL n valueExpr env with
                | none => none
                | some (.ok value, env1) => some (.ok value, env1.Set key value)
                | some (.error _, env1) =>
                  some (.error ("unable to eval arg for def! ".toList ++ key ++ " ".toList ++
                    valueExpr.Print), env1)
                | some (.panic, env1) => some (.panic, env1)
            | _ => some (.error ("env key is not a symbol: ".toList ++ keyObj.Print), env)
        else if head.isSymbolNamed "let*".toList then
          match rest with
          | [] => some (.panic, env)
          | bindingsObj :: rest1 =>
            match bindingsObj.seqItems with
            | some bindings =>
              if bindings.length % 2 != 0 then
                some (.error ("let* bindings has an odd number of entries: ".toList ++
                  bindingsObj.Print), env)
              else
                match BindEnv n bindings (NewEnv (some env)) with
                | none => none
                | some (.panic, newEnv) => some (.panic, (newEnv.outer).getD env)
                | some (_, newEnv) =>
                  match rest1 with
                  | [] => some (.panic, (newEnv.outer).getD env)
                  | body :: _ =>
                    match EVAL n body newEnv with
                    | none => none
                    | some (r, newEnv1) => some (r, (newEnv1.outer).getD env)
            | none =>
              some (.error ("bindings is not a list or a vector: ".toList ++ bindingsObj.Print),
                env)
        else
          match eval_ast n (.list items) env with
          | none => none
          | some (.ok (.list el), env1) => some (applyEvaluated el, env1)
          | some (.ok _, env1) => some (.panic, env1)
          | some (.error e, env1) => some (.error e, env1)
          | some (.panic, env1) => some (.panic, env1) := by
  rfl


/-- One more unit of call bound keeps every result of the evaluator. -/
theorem EVAL_family_succ (n : Nat) :
    (∀ ast env x, EVAL n ast env = some x → EVAL (n + 1) ast env = some x) ∧
    (∀ items env x, apply n items env = some x → apply (n + 1) items env = some x) ∧
    (∀ ast env x, eval_ast n ast env = some x → eval_ast (n + 1) ast env = some x) ∧
    (∀ items env r x, mapEVAL n items env r = some x → mapEVAL (n + 1) items env r = some x) ∧
    (∀ items env x, BindEnv n items env = some x → BindEnv (n + 1) items env = some x) := by
  induction n with
  | zero =>
    refine ⟨?_, ?_, ?_, ?_, ?_⟩ <;> intros <;> rename_i h <;> first
      | simp [EVAL] at h | simp [apply] at h | simp [eval_ast] at h
      | simp [mapEVAL] at h | simp [BindEnv] at h
  | succ n ih =>
    obtain ⟨ihE, ihA, ihS, ihM, ihB⟩ := ih
    refine ⟨?_, ?_, ?_, ?_, ?_⟩
    · intro ast env x h
      rw [EVAL_unfold] at h ⊢
      cases ast with
      | list items =>
        simp only at h ⊢
        by_cases hl : items.length = 0
        · rw [if_pos hl] at h ⊢; exact h
        · rw [if_neg hl] at h ⊢; exact ihA _ _ _ h
      | _ => exact ihS _ _ _ h
    · intro items env x h
      rw [apply_unfold] at h ⊢
      cases items with
      | nil => exact h
      | cons head rest =>
        simp only at h ⊢
        by_cases h1 : head.isSymbolNamed "def!".toList = true
        · rw [if_pos h1] at h ⊢
          cases rest with
          | nil => exact h
          | cons keyObj rest1 =>
            cases keyObj with
            | symbol key =>
              cases rest1 with
              | nil => exact h
              | cons valueExpr rest2 =>
                simp only at h ⊢
                cases hr : EVAL n valueExpr env with
                | none => rw [hr] at h; simp at h
                | some y => rw [ihE _ _ _ hr]; rw [hr] at h; exact h
            | _ => exact h
        · rw [if_neg h1] at h ⊢
          by_cases h2 : head.isSymbolNamed "let*".toList = true
          · rw [if_pos h2] at h ⊢
            cases rest with
            | nil => exact h
            | cons bindingsObj rest1 =>
              simp only at h ⊢
              cases hs : bindingsObj.seqItems with
              | none => rw [hs] at h; exact h
              | some bindings =>
                rw [hs] at h
                simp only at h ⊢
                by_cases ho : (bindings.length % 2 != 0) = true
                · rw [if_pos ho] at h ⊢; exact h
                · rw [if_neg ho] at h ⊢
                  cases hb : BindEnv n bindings (NewEnv (some env)) with
                  | none => rw [hb] at h; simp at h
                  | some y =>
                    rw [ihB _ _ _ hb]; rw [hb] at h
                    obtain ⟨res, newEnv⟩ := y
                    cases res with
                    | panic => exact h
                    | ok u =>
                      cases rest1 with
                      | nil => exact h
                      | cons body rest2 =>
                        simp only at h ⊢
                        cases he : EVAL n body newEnv with
                        | none => rw [he] at h; simp at h
                        | some z => rw [ihE _ _ _ he]; rw [he] at h; exact h
                    | error e =>
                      cases rest1 with
                      | nil => exact h
                      | cons body rest2 =>
                        simp only at h ⊢
                        cases he : EVAL n body newEnv with
                        | none => rw [he] at h; simp at h
                        | some z => rw [ihE _ _ _ he]; rw [he] at h; exact h
          · rw [if_neg h2] at h ⊢
            cases hr : eval_ast n (.list (head :: rest)) env with
            | none => rw [hr] at h; simp at h
            | some y => rw [ihS _ _ _ hr]; rw [hr] at h; exact h
    · intro ast env x h
      rw [eval_ast_unfold] at h ⊢
      cases ast with
      | list items =>
        simp only at h ⊢
        cases hr : mapEVAL n items env [] with
        | none => rw [hr] at h; simp at h
        | some y => rw [ihM _ _ _ _ hr]; rw [hr] at h; exact h
      | vector items =>
        simp only at h ⊢
        cases hr : mapEVAL n items env [] with
        | none => rw [hr] at h; simp at h
        | some y => rw [ihM _ _ _ _ hr]; rw [hr] at h; exact h
      | hashMap entries =>
        simp only at h ⊢
        cases hr : mapEVAL n (entries.map Prod.snd) env [] with
        | none => rw [hr] at h; simp at h
        | some y => rw [ihM _ _ _ _ hr]; rw [hr] at h; exact h
      | _ => exact h
    · intro items env r x h
      rw [mapEVAL_unfold] at h ⊢
      cases items with
      | nil => exact h
      | cons v rest =>
        simp only at h ⊢
        cases hr : EVAL n v env with
        | none => rw [hr] at h; simp at h
        | some y =>
          rw [ihE _ _ _ hr]; rw [hr] at h
          obtain ⟨res, env1⟩ := y
          cases res with
          | ok item => exact ihM _ _ _ _ h
          | error e => exact h
          | panic => exact h
    · intro items env x h
      rw [BindEnv_unfold] at h ⊢
      cases items with
      | nil => exact h
      | cons keyObj rest =>
        cases keyObj with
        | symbol key =>
          cases rest with
          | nil => exact h
          | cons valueExpr rest1 =>
            simp only at h ⊢
            cases hr : EVAL n valueExpr env with
            | none => rw [hr] at h; simp at h
            | some y =>
              rw [ihE _ _ _ hr]; rw [hr] at h
              obtain ⟨res, env1⟩ := y
              cases res with
              | ok val => exact ihB _ _ _ h
              | error e => exact h
              | panic => exact h
        | _ => exact h

theorem EVAL_mono {n m : Nat} (hnm : n ≤ m) {ast : MalType} {env : Env} {x : Res MalType × Env}
    (h : EVAL n ast env = some x) : EVAL m ast env = some x := by
  induction hnm with
  | refl => exact h
  | step _ ih => exact (EVAL_family_succ _).1 _ _ _ ih

theorem BindEnv_mono {n m : Nat} (hnm : n ≤ m) {items : List MalType} {env : Env}
    {x : Res Unit × Env} (h : BindEnv n items env = some x) : BindEnv m items env = some x := by
  induction hnm with
  | refl => exact h
  | step _ ih => exact (EVAL_family_succ _).2.2.2.2 _ _ _ ih

theorem mapEVAL_mono {n m : Nat} (hnm : n ≤ m) {items : List MalType} {env : Env}
    {r : List MalType} {x : Res (List MalType) × Env} (h : mapEVAL n items env r = some x) :
    mapEVAL m items env r = some x := by
  induction hnm with
  | refl => exact h
  | step _ ih => exact (EVAL_family_succ _).2.2.2.1 _ _ _ _ ih


/-! ## Environment lookup -/

theorem Find_eq_innermost (env : Env) (k : Str) :
    env.Find k = match innermostBinding env k with
      | some v => .ok v
      | none => .error (notFound k) := by
  induction env with
  | root items =>
    simp only [Env.Find, innermostBinding, Env.scopes, List.filterMap_cons, List.filterMap_nil]
    cases scopeGet items k <;> rfl
  | child items outer ih =>
    simp only [Env.Find, innermostBinding, Env.scopes, List.filterMap_cons]
    cases scopeGet items k with
    | none => simpa [innermostBinding] using ih
    | some v => rfl

theorem innermostBinding_none (env : Env) (k : Str) :
    innermostBinding env k = none ↔ ∀ s ∈ env.scopes, scopeGet s k = none := by
  simp only [innermostBinding, List.head?_eq_none_iff, List.filterMap_eq_nil_iff]

theorem EVAL_symbol (n : Nat) (y : Str) (env : Env) :
    EVAL (n + 2) (.symbol y) env = some (env.Get y, env) := by
  rw [EVAL_unfold, eval_ast_unfold]

/-- C11: `Get` returns the value bound to `k` in the innermost scope of the
chain that binds `k`; it returns the error that names `k` as not found if and
only if no scope of the chain binds `k`; and evaluating the symbol `y` gives
what `Get` gives, so it fails with that error where no scope binds `y`. -/
theorem Get_innermost (env : Env) (k : Str) :
    (env.Get k = match innermostBinding env k with
      | some v => .ok v
      | none => .error (notFound k)) ∧
    (env.Get k = .error (notFound k) ↔ ∀ s ∈ env.scopes, scopeGet s k = none) ∧
    (∀ n, EVAL (n + 2) (.symbol k) env = some (env.Get k, env)) ∧
    ((∀ s ∈ env.scopes, scopeGet s k = none) →
      ∀ n, EVAL (n + 2) (.symbol k) env = some (.error (notFound k), env)) := by
  have h1 := Find_eq_innermost env k
  have h2 : env.Get k = .error (notFound k) ↔ ∀ s ∈ env.scopes, scopeGet s k = none := by
    rw [← innermostBinding_none, Env.Get, h1]
    cases innermostBinding env k <;> simp
  refine ⟨h1, h2, fun n => EVAL_symbol n k env, fun hno n => ?_⟩
  rw [EVAL_symbol, h2.mpr hno]

theorem Get_innermost_witness :
    (Env.child [("a".toList, .int 1)] (.root [("a".toList, .int 2), ("b".toList, .int 3)])).Get
        "a".toList = .ok (.int 1) ∧
    EVAL 2 (.symbol "y".toList)
        (Env.child [("a".toList, .int 1)] (.root [("a".toList, .int 2), ("b".toList, .int 3)])) =
      some (.error "\x27y\x27 not found".toList,
        Env.child [("a".toList, .int 1)] (.root [("a".toList, .int 2), ("b".toList, .int 3)])) :=
  ⟨(Get_innermost _ _).1,
   (Get_innermost (Env.child [("a".toList, .int 1)]
      (.root [("a".toList, .int 2), ("b".toList, .int 3)])) "y".toList).2.2.2
      (by intro s hs; simp only [Env.scopes, List.mem_cons, List.mem_singleton,
            List.not_mem_nil, or_false] at hs
          rcases hs with rfl | rfl <;> rfl) 0⟩

/-! ## The special form `def!` -/

theorem scopeGet_scopeSet (s : Scope) (k : Str) (v : MalType) :
    scopeGet (scopeSet s k v) k = some v := by
  induction s with
  | nil => simp [scopeSet, scopeGet]
  | cons p s ih =>
    obtain ⟨k1, v1⟩ := p
    by_cases h : k1 = k
    · simp [scopeSet, scopeGet, h]
    · simp [scopeSet, scopeGet, h, ih]

theorem Get_Set (env : Env) (k : Str) (v : MalType) : (env.Set k v).Get k = .ok v := by
  cases env <;> simp [Env.Set, Env.Get, Env.Find, scopeGet_scopeSet]

theorem Set_outer (env : Env) (k : Str) (v : MalType) : (env.Set k v).outer = env.outer := by
  cases env <;> rfl

theorem Set_items (env : Env) (k : Str) (v : MalType) :
    (env.Set k v).items = scopeSet env.items k v := by
  cases env <;> rfl

theorem EVAL_def_step (n : Nat) (k : Str) (e : MalType) (rest : List MalType) (env : Env) :
    EVAL (n + 2) (.list (.symbol "def!".toList :: .symbol k :: e :: rest)) env =
      match EVAL n e env with
      | none => none
      | some (.ok value, env1) => some (.ok value, env1.Set k value)
      | some (.error _, env1) =>
        some (.error ("unable to eval arg for def! ".toList ++ k ++ " ".toList ++ e.Print), env1)
      | some (.panic, env1) => some (.panic, env1) := by
  rw [EVAL_unfold]
  simp only [List.length_cons, Nat.add_one_ne_zero, if_false]
  rw [apply_unfold]
  rfl

theorem EVAL_atom (n : Nat) (v : Int) (env : Env) :
    EVAL (n + 2) (.int v) env = some (.ok (.int v), env) := by
  rw [EVAL_unfold, eval_ast_unfold]

/-- C12: when the evaluation of `e` in `env` succeeds with the value `v` (leaving
the environment `env1`), `EVAL` of `(def! k e)` returns `v` and leaves `env1`
with `k` set in its own scope: `Get k` then returns `v`, the items of the scope
are those of `env1` with `k` assigned, and the outer environment is the one it
was.  So `(def! x 10)` followed by `x` yields `Int 10` in every environment. -/
theorem EVAL_def_bang (env : Env) (k : Str) (e v : MalType) (env1 : Env) (n : Nat)
    (h : EVAL n e env = some (.ok v, env1)) :
    (∀ m, n + 2 ≤ m →
      EVAL m (.list [.symbol "def!".toList, .symbol k, e]) env = some (.ok v, env1.Set k v)) ∧
    (env1.Set k v).Get k = .ok v ∧
    (env1.Set k v).items = scopeSet env1.items k v ∧
    (env1.Set k v).outer = env1.outer ∧
    (∀ (env0 : Env) (m : Nat), 4 ≤ m →
      EVAL m (.list [.symbol "def!".toList, .symbol "x".toList, .int 10]) env0 =
        some (.ok (.int 10), env0.Set "x".toList (.int 10)) ∧
      EVAL m (.symbol "x".toList) (env0.Set "x".toList (.int 10)) =
        some (.ok (.int 10), env0.Set "x".toList (.int 10))) := by
  refine ⟨fun m hm => ?_, Get_Set _ _ _, Set_items _ _ _, Set_outer _ _ _, fun env0 m hm => ⟨?_, ?_⟩⟩
  · apply EVAL_mono hm
    rw [EVAL_def_step, h]
  · apply EVAL_mono hm
    rw [EVAL_def_step, EVAL_atom]
  · apply EVAL_mono (show 2 ≤ m by omega)
    rw [EVAL_symbol 0, Get_Set]

theorem EVAL_def_bang_witness :
    EVAL 10 (.list [.symbol "def!".toList, .symbol "k".toList,
        .list [.symbol "+".toList, .int 1, .int 2]])
      (.root [("+".toList, .function "+".toList .add)]) =
      some (.ok (.int 3),
        (Env.root [("+".toList, .function "+".toList .add)]).Set "k".toList (.int 3)) :=
  (EVAL_def_bang (.root [("+".toList, .function "+".toList .add)]) "k".toList
    (.list [.symbol "+".toList, .int 1, .int 2]) (.int 3) _ 8 (by rfl)).1 10 (by decide)

/-! ## The evaluator leaves the enclosing scopes alone -/

theorem isSymbolNamed_let_not_def (head : MalType)
    (h : head.isSymbolNamed "let*".toList = true) : head.isSymbolNamed "def!".toList = false := by
  cases head with
  | symbol v =>
    simp only [MalType.isSymbolNamed, decide_eq_true_eq] at h
    subst h
    rfl
  | _ => rfl

/-- The `let*` case of `apply` gives back the environment it was called with,
once the evaluations inside keep the `outer` field. -/
theorem apply_let_env (n : Nat)
    (hE : ∀ ast env r env1, EVAL n ast env = some (r, env1) → env1.outer = env.outer)
    (hB : ∀ items env r env1, BindEnv n items env = some (r, env1) → env1.outer = env.outer)
    (head : MalType) (rest : List MalType) (env : Env) (r : Res MalType) (env1 : Env)
    (h2 : head.isSymbolNamed "let*".toList = true)
    (h : apply (n + 1) (head :: rest) env = some (r, env1)) : env1 = env := by
  rw [apply_unfold] at h
  simp only [isSymbolNamed_let_not_def head h2, Bool.false_eq_true, if_false, h2, if_true] at h
  cases rest with
  | nil => simp only [Option.some.injEq, Prod.mk.injEq] at h; exact h.2.symm
  | cons bindingsObj rest1 =>
    simp only at h
    cases hs : bindingsObj.seqItems with
    | none => rw [hs] at h; simp only [Option.some.injEq, Prod.mk.injEq] at h; exact h.2.symm
    | some bindings =>
      rw [hs] at h
      simp only at h
      by_cases ho : (bindings.length % 2 != 0) = true
      · rw [if_pos ho] at h; simp only [Option.some.injEq, Prod.mk.injEq] at h; exact h.2.symm
      · rw [if_neg ho] at h
        cases hb : BindEnv n bindings (NewEnv (some env)) with
        | none => rw [hb] at h; simp at h
        | some y =>
          rw [hb] at h
          obtain ⟨res, newEnv⟩ := y
          have hout : newEnv.outer = some env := by
            rw [hB _ _ _ _ hb]; rfl
          cases res with
          | panic =>
            simp only [Option.some.injEq, Prod.mk.injEq, hout, Option.getD_some] at h
            exact h.2.symm
          | ok u =>
            cases rest1 with
            | nil =>
              simp only [Option.some.injEq, Prod.mk.injEq, hout, Option.getD_some] at h
              exact h.2.symm
            | cons body rest2 =>
              simp only at h
              cases he : EVAL n body newEnv with
              | none => rw [he] at h; simp at h
              | some z =>
                rw [he] at h
                obtain ⟨r2, newEnv1⟩ := z
                simp only [Option.some.injEq, Prod.mk.injEq, hE _ _ _ _ he, hout,
                  Option.getD_some] at h
                exact h.2.symm
          | error e =>
            cases rest1 with
            | nil =>
              simp only [Option.some.injEq, Prod.mk.injEq, hout, Option.getD_some] at h
              exact h.2.symm
            | cons body rest2 =>
              simp only at h
              cases he : EVAL n body newEnv with
              | none => rw [he] at h; simp at h
              | some z =>
                rw [he] at h
                obtain ⟨r2, newEnv1⟩ := z
                simp only [Option.some.injEq, Prod.mk.injEq, hE _ _ _ _ he, hout,
                  Option.getD_some] at h
                exact h.2.symm

/-- Every function of the evaluator keeps the `outer` field of the environment:
bindings are only ever made in the scope at hand. -/
theorem EVAL_family_outer (n : Nat) :
    (∀ ast env r env1, EVAL n ast env = some (r, env1) → env1.outer = env.outer) ∧
    (∀ items env r env1, apply n items env = some (r, env1) → env1.outer = env.outer) ∧
    (∀ ast env r env1, eval_ast n ast env = some (r, env1) → env1.outer = env.outer) ∧
    (∀ items env acc r env1, mapEVAL n items env acc = some (r, env1) →
      env1.outer = env.outer) ∧
    (∀ items env r env1, BindEnv n items env = some (r, env1) → env1.outer = env.outer) := by
  induction n with
  | zero =>
    refine ⟨?_, ?_, ?_, ?_, ?_⟩ <;> intros <;> rename_i h <;> first
      | simp [EVAL] at h | simp [apply] at h | simp [eval_ast] at h
      | simp [mapEVAL] at h | simp [BindEnv] at h
  | succ n ih =>
    obtain ⟨ihE, ihA, ihS, ihM, ihB⟩ := ih
    have hmap : ∀ (items : List MalType) (env : Env) (wrap : List MalType → MalType)
        (r : Res MalType) (env1 : Env),
        (match mapEVAL n items env [] with
          | none => none
          | some (.ok l, e1) => some (Res.ok (wrap l), e1)
          | some (.error e, e1) => some (Res.error e, e1)
          | some (.panic, e1) => some (Res.panic, e1)) = some (r, env1) →
        env1.outer = env.outer := by
      intro items env wrap r env1 h
      cases hr : mapEVAL n items env [] with
      | none => rw [hr] at h; simp at h
      | some y =>
        rw [hr] at h
        obtain ⟨res, e1⟩ := y
        have := ihM _ _ _ _ _ hr
        cases res <;> simp only [Option.some.injEq, Prod.mk.injEq] at h <;> rw [← h.2] <;> exact this
    refine ⟨?_, ?_, ?_, ?_, ?_⟩
    · intro ast env r env1 h
      rw [EVAL_unfold] at h
      cases ast with
      | list items =>
        simp only at h
        by_cases hl : items.length = 0
        · rw [if_pos hl] at h; simp only [Option.some.injEq, Prod.mk.injEq] at h; rw [← h.2]
        · rw [if_neg hl] at h; exact ihA _ _ _ _ h
      | _ => exact ihS _ _ _ _ h
    · intro items env r env1 h
      cases items with
      | nil =>
        rw [apply_unfold] at h
        simp only [Option.some.injEq, Prod.mk.injEq] at h; rw [← h.2]
      | cons head rest =>
        by_cases h2 : head.isSymbolNamed "let*".toList = true
        · rw [apply_let_env n ihE ihB head rest env r env1 h2 h]
        · rw [apply_unfold] at h
          simp only [h2, Bool.false_eq_true, if_false] at h
          by_cases h1 : head.isSymbolNamed "def!".toList = true
          · rw [if_pos h1] at h
            cases rest with
            | nil => simp only [Option.some.injEq, Prod.mk.injEq] at h; rw [← h.2]
            | cons keyObj rest1 =>
              cases keyObj with
              | symbol key =>
                cases rest1 with
                | nil => simp only [Option.some.injEq, Prod.mk.injEq] at h; rw [← h.2]
                | cons valueExpr rest2 =>
                  simp only at h
                  cases hr : EVAL n valueExpr env with
                  | none => rw [hr] at h; simp at h
                  | some y =>
                    rw [hr] at h
                    obtain ⟨res, e1⟩ := y
                    have := ihE _ _ _ _ hr
                    cases res <;> simp only [Option.some.injEq, Prod.mk.injEq] at h <;>
                      rw [← h.2] <;> first | exact this | (rw [Set_outer]; exact this)
              | _ => simp only [Option.some.injEq, Prod.mk.injEq] at h; rw [← h.2]
          · rw [if_neg h1] at h
            cases hr : eval_ast n (.list (head :: rest)) env with
            | none => rw [hr] at h; simp at h
            | some y =>
              rw [hr] at h
              obtain ⟨res, e1⟩ := y
              have := ihS _ _ _ _ hr
              cases res with
              | ok u =>
                cases u <;> simp only [Option.some.injEq, Prod.mk.injEq] at h <;>
                  rw [← h.2] <;> exact this
              | error e => simp only [Option.some.injEq, Prod.mk.injEq] at h; rw [← h.2]; exact this
              | panic => simp only [Option.some.injEq, Prod.mk.injEq] at h; rw [← h.2]; exact this
    · intro ast env r env1 h
      rw [eval_ast_unfold] at h
      cases ast with
      | list items => exact hmap items env _ r env1 h
      | vector items => exact hmap items env _ r env1 h
      | hashMap entries => exact hmap _ env (fun l => .hashMap (zipValues entries l)) r env1 h
      | _ => simp only [Option.some.injEq, Prod.mk.injEq] at h; rw [← h.2]
    · intro items env acc r env1 h
      rw [mapEVAL_unfold] at h
      cases items with
      | nil => simp only [Option.some.injEq, Prod.mk.injEq] at h; rw [← h.2]
      | cons v rest =>
        simp only at h
        cases hr : EVAL n v env with
        | none => rw [hr] at h; simp at h
        | some y =>
          rw [hr] at h
          obtain ⟨res, e1⟩ := y
          have h1 := ihE _ _ _ _ hr
          cases res with
          | ok item => rw [ihM _ _ _ _ _ h, h1]
          | error e => simp only [Option.some.injEq, Prod.mk.injEq] at h; rw [← h.2]; exact h1
          | panic => simp only [Option.some.injEq, Prod.mk.injEq] at h; rw [← h.2]; exact h1
    · intro items env r env1 h
      rw [BindEnv_unfold] at h
      cases items with
      | nil => simp only [Option.some.injEq, Prod.mk.injEq] at h; rw [← h.2]
      | cons keyObj rest =>
        cases keyObj with
        | symbol key =>
          cases rest with
          | nil => simp only [Option.some.injEq, Prod.mk.injEq] at h; rw [← h.2]
          | cons valueExpr rest1 =>
            simp only at h
            cases hr : EVAL n valueExpr env with
            | none => rw [hr] at h; simp at h
            | some y =>
              rw [hr] at h
              obtain ⟨res, e1⟩ := y
              have h1 := ihE _ _ _ _ hr
              cases res with
              | ok val => rw [ihB _ _ _ _ h, Set_outer, h1]
              | error e => simp only [Option.some.injEq, Prod.mk.injEq] at h; rw [← h.2]; exact h1
              | panic => simp only [Option.some.injEq, Prod.mk.injEq] at h; rw [← h.2]; exact h1
        | _ => simp only [Option.some.injEq, Prod.mk.injEq] at h; rw [← h.2]

/-! ## The special form `let*` -/

/-- C14: whatever a list headed by the symbol `let*` holds, when `EVAL` of it in
`env` returns (a value, an error, with any call bound), the environment left is
`env` itself: its scope and every outer scope are what they were. -/
theorem EVAL_let_no_leak (env : Env) (rest : List MalType) (n : Nat) (r : Res MalType)
    (env1 : Env) (h : EVAL n (.list (.symbol "let*".toList :: rest)) env = some (r, env1)) :
    env1 = env := by
  cases n with
  | zero => simp [EVAL] at h
  | succ n =>
    rw [EVAL_unfold] at h
    simp only [List.length_cons, Nat.add_one_ne_zero, if_false] at h
    cases n with
    | zero => simp [apply] at h
    | succ n =>
      exact apply_let_env n (EVAL_family_outer n).1 (EVAL_family_outer n).2.2.2.2
        (.symbol "let*".toList) rest env r env1 rfl h

theorem EVAL_let_no_leak_witness :
    EVAL 12 (.list [.symbol "let*".toList, .vector [.symbol "a".toList, .int 1],
        .list [.symbol "def!".toList, .symbol "z".toList, .symbol "a".toList]])
      (.root [("z".toList, .int 0)]) = some (.ok (.int 1), .root [("z".toList, .int 0)]) ∧
    Env.root [("z".toList, .int 0)] = Env.root [("z".toList, .int 0)] :=
  ⟨by rfl, EVAL_let_no_leak (.root [("z".toList, .int 0)])
    [.vector [.symbol "a".toList, .int 1],
      .list [.symbol "def!".toList, .symbol "z".toList, .symbol "a".toList]] 12 (.ok (.int 1))
    (.root [("z".toList, .int 0)]) (by rfl)⟩

theorem BindsSeq_outer (c : Env) (items : List MalType) (c2 : Env) (h : BindsSeq c items c2) :
    c2.outer = c.outer := by
  induction h with
  | nil c => rfl
  | cons n c k e v c1 rest c2 he _ ih =>
    rw [ih, Set_outer, (EVAL_family_outer n).1 _ _ _ _ he]

theorem BindsSeq_even (c : Env) (items : List MalType) (c2 : Env) (h : BindsSeq c items c2) :
    items.length % 2 = 0 := by
  induction h with
  | nil c => rfl
  | cons n c k e v c1 rest c2 _ _ ih => simp only [List.length_cons]; omega

theorem BindEnv_of_BindsSeq (c : Env) (items : List MalType) (c2 : Env)
    (h : BindsSeq c items c2) :
    ∃ N, ∀ m, N ≤ m → BindEnv m items c = some (.ok (), c2) := by
  induction h with
  | nil c =>
    refine ⟨1, fun m hm => ?_⟩
    obtain ⟨j, rfl⟩ : ∃ j, m = j + 1 := ⟨m - 1, by omega⟩
    rw [BindEnv_unfold]
  | cons n c k e v c1 rest c2 he _ ih =>
    obtain ⟨N, hN⟩ := ih
    refine ⟨max n N + 1, fun m hm => ?_⟩
    obtain ⟨j, rfl⟩ : ∃ j, m = j + 1 := ⟨m - 1, by omega⟩
    rw [BindEnv_unfold]
    simp only [EVAL_mono (show n ≤ j by omega) he]
    exact hN j (by omega)

theorem EVAL_let_step (n : Nat) (bindingsObj body : MalType) (rest : List MalType)
    (bindings : List MalType) (env : Env) (hs : bindingsObj.seqItems = some bindings)
    (heven : bindings.length % 2 = 0) :
    EVAL (n + 2) (.list (.symbol "let*".toList :: bindingsObj :: body :: rest)) env =
      match BindEnv n bindings (NewEnv (some env)) with
      | none => none
      | some (.panic, newEnv) => some (.panic, (newEnv.outer).getD env)
      | some (_, newEnv) =>
        match EVAL n body newEnv with
        | none => none
        | some (r, newEnv1) => some (r, (newEnv1.outer).getD env) := by
  rw [EVAL_unfold]
  simp only [List.length_cons, Nat.add_one_ne_zero, if_false]
  rw [apply_unfold]
  have h1 : (MalType.symbol "let*".toList).isSymbolNamed "def!".toList = false := rfl
  have h2 : (MalType.symbol "let*".toList).isSymbolNamed "let*".toList = true := rfl
  simp only [h1, h2, Bool.false_eq_true, if_false, if_true, hs, heven]
  have h3 : ((0 : Nat) != 0) = false := rfl
  simp only [h3, Bool.false_eq_true, if_false]

/-- C13 (amended): when the bindings form of a `let*` (a List or a Vector) is a sequence
of pairs of a symbol and an expression whose expressions evaluate successfully
one after the other, each in the child scope holding the bindings made before
it, then `EVAL` of the `let*` (with any large enough call bound) returns what
the body returns in the child scope holding all the bindings, and leaves the
environment it was called in; a binding `Set` later under the same name is the
one `Get` finds.  With `+` bound to the addition builtin,
`(let* [a 5 b (+ a 1)] (+ a b))` evaluates to `Int 11`. -/
theorem EVAL_let_sequential (env : Env) (bindingsObj body : MalType) (bindings : List MalType)
    (c c1 : Env) (r : Res MalType) (n : Nat)
    (hs : bindingsObj.seqItems = some bindings)
    (hb : BindsSeq (NewEnv (some env)) bindings c)
    (hbody : EVAL n body c = some (r, c1)) :
    (∃ N, ∀ m, N ≤ m →
      EVAL m (.list [.symbol "let*".toList, bindingsObj, body]) env = some (r, env)) ∧
    (∀ (d : Env) (k : Str) (v w : MalType), ((d.Set k v).Set k w).Get k = .ok w) ∧
    (∀ name, EVAL 12 (.list [.symbol "let*".toList,
        .vector [.symbol "a".toList, .int 5, .symbol "b".toList,
          .list [.symbol "+".toList, .symbol "a".toList, .int 1]],
        .list [.symbol "+".toList, .symbol "a".toList, .symbol "b".toList]])
      (.root [("+".toList, .function name .add)]) =
      some (.ok (.int 11), .root [("+".toList, .function name .add)])) := by
  refine ⟨?_, fun d k v w => Get_Set _ _ _, fun name => by rfl⟩
  obtain ⟨N, hN⟩ := BindEnv_of_BindsSeq _ _ _ hb
  have hout : c1.outer = some env := by
    rw [(EVAL_family_outer n).1 _ _ _ _ hbody, BindsSeq_outer _ _ _ hb]; rfl
  refine ⟨max n N + 2, fun m hm => ?_⟩
  obtain ⟨j, rfl⟩ : ∃ j, m = j + 2 := ⟨m - 2, by omega⟩
  rw [EVAL_let_step j bindingsObj body [] bindings env hs (BindsSeq_even _ _ _ hb),
    hN j (by omega)]
  simp only [EVAL_mono (show n ≤ j by omega) hbody, hout, Option.getD_some]

theorem EVAL_let_sequential_witness :
    ∃ N, ∀ m, N ≤ m →
      EVAL m (.list [.symbol "let*".toList,
        .list [.symbol "a".toList, .int 5, .symbol "a".toList, .symbol "a".toList,
          .symbol "b".toList, .symbol "y".toList],
        .symbol "b".toList]) (.root [("y".toList, .int 7)]) =
      some (.ok (.int 7), .root [("y".toList, .int 7)]) :=
  (EVAL_let_sequential (.root [("y".toList, .int 7)])
    (.list [.symbol "a".toList, .int 5, .symbol "a".toList, .symbol "a".toList,
      .symbol "b".toList, .symbol "y".toList]) (.symbol "b".toList) _
    (.child [("a".toList, .int 5), ("b".toList, .int 7)] (.root [("y".toList, .int 7)]))
    (.child [("a".toList, .int 5), ("b".toList, .int 7)] (.root [("y".toList, .int 7)]))
    (.ok (.int 7)) 2 rfl
    (BindsSeq.cons 2 _ _ _ (.int 5) (.child [] (.root [("y".toList, .int 7)])) _ _ (by rfl)
      (BindsSeq.cons 2 _ _ _ (.int 5)
        (.child [("a".toList, .int 5)] (.root [("y".toList, .int 7)])) _ _ (by rfl)
        (BindsSeq.cons 2 _ _ _ (.int 7)
          (.child [("a".toList, .int 5)] (.root [("y".toList, .int 7)])) _ _ (by rfl)
          (BindsSeq.nil _))))
    (by rfl)).1

/-- C13 as stated fails: in `(let* [a y b 2] b)` with `y` unbound, the loop of
the bindings ends at the failing `y` with no binding made, the expression of
`b` is never evaluated, and the body runs in the child scope without `b`: it
returns the `b` of the enclosing scope, here `Int 1`, and the not-found error
of `b` where there is none. -/
theorem EVAL_let_failed_binding :
    BindEnv 3 [.symbol "a".toList, .symbol "y".toList, .symbol "b".toList, .int 2]
        (NewEnv (some (.root [("b".toList, .int 1)]))) =
      some (.error (notFound "y".toList), .child [] (.root [("b".toList, .int 1)])) ∧
    EVAL 5 (.list [.symbol "let*".toList,
        .vector [.symbol "a".toList, .symbol "y".toList, .symbol "b".toList, .int 2],
        .symbol "b".toList]) (.root [("b".toList, .int 1)]) =
      some (.ok (.int 1), .root [("b".toList, .int 1)]) ∧
    EVAL 5 (.list [.symbol "let*".toList,
        .vector [.symbol "a".toList, .symbol "y".toList, .symbol "b".toList, .int 2],
        .symbol "b".toList]) (.root []) =
      some (.error (notFound "b".toList), .root []) := by
  refine ⟨by rfl, by rfl, by rfl⟩

/-! ## A binding key that is no symbol -/

/-- C15: `(let* [1 2] 3)` evaluates to `Int 3`: `BindEnv` returns the error for
the key `1` that is no symbol, `apply` drops it and goes on to the body. -/
theorem EVAL_let_non_symbol_key :
    BindEnv 3 [.int 1, .int 2] (NewEnv (some (.root []))) =
      some (.error "attempting to bind to a non symbol: 1".toList, .child [] (.root [])) ∧
    EVAL 5 (.list [.symbol "let*".toList, .vector [.int 1, .int 2], .int 3]) (.root []) =
      some (.ok (.int 3), .root []) ∧
    EVAL 5 (.list [.symbol "let*".toList, .list [.int 1, .int 2], .int 3]) (.root []) =
      some (.ok (.int 3), .root []) := by
  refine ⟨by rfl, by rfl, by rfl⟩

/-! ## Generic application -/

theorem mapEVAL_of_EvalsAll (env : Env) (items vs : List MalType) (env1 : Env)
    (h : EvalsAll env items vs env1) :
    ∃ N, ∀ m, N ≤ m → ∀ acc, mapEVAL m items env acc = some (.ok (acc ++ vs), env1) := by
  induction h with
  | nil env =>
    refine ⟨1, fun m hm acc => ?_⟩
    obtain ⟨j, rfl⟩ : ∃ j, m = j + 1 := ⟨m - 1, by omega⟩
    rw [mapEVAL_unfold]
    simp
  | cons n env x v env1 xs vs env2 hx _ ih =>
    obtain ⟨N, hN⟩ := ih
    refine ⟨max n N + 1, fun m hm acc => ?_⟩
    obtain ⟨j, rfl⟩ : ∃ j, m = j + 1 := ⟨m - 1, by omega⟩
    rw [mapEVAL_unfold]
    simp only [EVAL_mono (show n ≤ j by omega) hx]
    rw [hN j (by omega)]
    simp

/-- The generic application: a non-empty list whose head is not the symbol
`def!` or `let*`. -/
theorem EVAL_generic_step (n : Nat) (head : MalType) (rest : List MalType) (env : Env)
    (h1 : head.isSymbolNamed "def!".toList = false)
    (h2 : head.isSymbolNamed "let*".toList = false) :
    EVAL (n + 3) (.list (head :: rest)) env =
      match mapEVAL n (head :: rest) env [] with
      | none => none
      | some (.ok el, env1) => some (applyEvaluated el, env1)
      | some (.error e, env1) => some (.error e, env1)
      | some (.panic, env1) => some (.panic, env1) := by
  rw [EVAL_unfold]
  simp only [List.length_cons, Nat.add_one_ne_zero, if_false]
  rw [apply_unfold]
  simp only [h1, h2, Bool.false_eq_true, if_false]
  rw [eval_ast_unfold]
  simp only
  cases mapEVAL n (head :: rest) env [] with
  | none => rfl
  | some y =>
    obtain ⟨res, e1⟩ := y
    cases res <;> rfl

/-- C17: a non-empty list whose head is not the symbol `def!` or `let*`, whose
elements evaluate successfully one after the other, the head to a value `h`
that is no Function: `EVAL` (with any large enough call bound) returns the
error made of the printed `h` followed by " is not a function".  So `(1 2)`
fails with "1 is not a function". -/
theorem EVAL_not_callable (env : Env) (head : MalType) (rest : List MalType) (h : MalType)
    (args : List MalType) (env1 : Env)
    (h1 : head.isSymbolNamed "def!".toList = false)
    (h2 : head.isSymbolNamed "let*".toList = false)
    (hall : EvalsAll env (head :: rest) (h :: args) env1)
    (hnf : ∀ name f, h ≠ .function name f) :
    (∃ N, ∀ m, N ≤ m →
      EVAL m (.list (head :: rest)) env = some (.error (notCallable h), env1)) ∧
    (∀ env0 : Env, EVAL 7 (.list [.int 1, .int 2]) env0 =
      some (.error "1 is not a function".toList, env0)) := by
  constructor
  · obtain ⟨N, hN⟩ := mapEVAL_of_EvalsAll _ _ _ _ hall
    refine ⟨N + 3, fun m hm => ?_⟩
    obtain ⟨j, rfl⟩ : ∃ j, m = j + 3 := ⟨m - 3, by omega⟩
    rw [EVAL_generic_step j head rest env h1 h2, hN j (by omega)]
    simp only [List.nil_append, applyEvaluated]
    cases h with
    | function name f => exact absurd rfl (hnf name f)
    | _ => rfl
  · intro env0
    rfl

theorem EVAL_not_callable_witness :
    ∃ N, ∀ m, N ≤ m →
      EVAL m (.list [.symbol "f".toList, .int 2]) (.root [("f".toList, .string "s".toList false)]) =
      some (.error "\x22s\x22 is not a function".toList,
        .root [("f".toList, .string "s".toList false)]) :=
  (EVAL_not_callable (.root [("f".toList, .string "s".toList false)]) (.symbol "f".toList)
    [.int 2] (.string "s".toList false) [.int 2] _ rfl rfl
    (EvalsAll.cons 2 _ _ _ _ _ _ _ (by rfl) (EvalsAll.cons 2 _ _ _ _ _ _ _ (by rfl)
      (EvalsAll.nil _)))
    (by intro name f hc; cases hc)).1

/-! ## Reader-macro lists in the evaluator -/

theorem EVAL_head_symbol_error (n : Nat) (s : Str) (rest : List MalType) (env : Env) (msg : Str)
    (h1 : (MalType.symbol s).isSymbolNamed "def!".toList = false)
    (h2 : (MalType.symbol s).isSymbolNamed "let*".toList = false)
    (hget : env.Get s = .error msg) :
    EVAL (n + 6) (.list (.symbol s :: rest)) env = some (.error msg, env) := by
  rw [show n + 6 = (n + 3) + 3 from rfl, EVAL_generic_step (n + 3) _ rest env h1 h2,
    show n + 3 = (n + 2) + 1 from rfl, mapEVAL_unfold]
  simp only [EVAL_symbol n s env, hget]

theorem Get_notFound_of_unbound (env : Env) (k : Str)
    (hno : ∀ s ∈ env.scopes, scopeGet s k = none) : env.Get k = .error (notFound k) := by
  rw [Env.Get, Find_eq_innermost, (innermostBinding_none env k).mpr hno]

/-- C18 (amended): in an environment none of whose scopes binds `quote`, `EVAL`
of the list `(quote x)` fails, for every form `x`, with the error that `quote`
is not found: the head symbol is looked up before anything is applied. -/
theorem EVAL_quote_not_found (env : Env) (x : MalType)
    (hno : ∀ s ∈ env.scopes, scopeGet s "quote".toList = none) (m : Nat) (hm : 6 ≤ m) :
    EVAL m (.list [.symbol "quote".toList, x]) env =
      some (.error "\x27quote\x27 not found".toList, env) := by
  obtain ⟨j, rfl⟩ : ∃ j, m = j + 6 := ⟨m - 6, by omega⟩
  exact EVAL_head_symbol_error j _ _ env _ rfl rfl (Get_notFound_of_unbound env _ hno)

/-- C18 as stated fails: with no binding named `quote`, `(quote 1)` fails with
the error that `quote` is not found, which is no not-a-function error. -/
theorem EVAL_quote_counterexample :
    EVAL 6 (.list [.symbol "quote".toList, .int 1]) (.root []) =
      some (.error "\x27quote\x27 not found".toList, .root []) ∧
    ¬ ∃ h : MalType, EVAL 6 (.list [.symbol "quote".toList, .int 1]) (.root []) =
      some (.error (notCallable h), .root []) := by
  have he : EVAL 6 (.list [.symbol "quote".toList, .int 1]) (.root []) =
      some (.error "\x27quote\x27 not found".toList, .root []) := by rfl
  refine ⟨he, ?_⟩
  rintro ⟨h, hh⟩
  rw [he] at hh
  simp only [Option.some.injEq, Prod.mk.injEq, Res.error.injEq, and_true] at hh
  have hl := congrArg (fun l => l.reverse.take 8) hh
  simp only [notCallable, List.reverse_append] at hl
  rw [List.take_append_of_le_length (by decide)] at hl
  revert hl
  decide

theorem EVAL_quote_not_found_witness :
    EVAL 9 (.list [.symbol "quote".toList, .list [.symbol "def!".toList]])
        (.child [("a".toList, .int 1)] (.root [])) =
      some (.error "\x27quote\x27 not found".toList, .child [("a".toList, .int 1)] (.root [])) :=
  EVAL_quote_not_found _ _
    (by intro s hs
        simp only [Env.scopes, List.mem_cons, List.mem_singleton, List.not_mem_nil,
          or_false] at hs
        rcases hs with rfl | rfl <;> rfl) 9 (by decide)

/-! ## The arithmetic builtins -/

theorem wrapInt_of_range (x : Int) (h1 : minInt ≤ x) (h2 : x ≤ maxInt) : wrapInt x = x := by
  simp only [minInt, maxInt] at h1 h2
  simp only [wrapInt]
  omega

theorem wrapInt_range (x : Int) : minInt ≤ wrapInt x ∧ wrapInt x ≤ maxInt := by
  simp only [minInt, maxInt, wrapInt]
  omega

theorem wrapInt_congruent (x : Int) : (18446744073709551616 : Int) ∣ (x - wrapInt x) := by
  simp only [wrapInt]
  omega

/-- The generic application of the addition builtin to two `Int`s, step by
step: the head symbol is looked up, the two arguments evaluate to themselves,
and the builtin is called on the evaluated tail. -/
theorem EVAL_add_step (env : Env) (name : Str) (a b : Int)
    (hplus : env.Get "+".toList = .ok (.function name .add)) (m : Nat) (hm : 8 ≤ m) :
    EVAL m (.list [.symbol "+".toList, .int a, .int b]) env =
      some (.ok (.int (wrapInt (a + b))), env) := by
  obtain ⟨i, rfl⟩ : ∃ i, m = i + 8 := ⟨m - 8, by omega⟩
  rw [show i + 8 = (i + 5) + 3 from rfl,
    EVAL_generic_step (i + 5) (.symbol "+".toList) [.int a, .int b] env (by rfl) (by rfl),
    show i + 5 = (i + 4) + 1 from rfl, mapEVAL_unfold]
  simp only [show i + 4 = (i + 2) + 2 from rfl, EVAL_symbol (i + 2) _ env, hplus]
  rw [show i + 2 + 2 = (i + 3) + 1 from rfl, mapEVAL_unfold]
  simp only [show i + 3 = (i + 1) + 2 from rfl, EVAL_atom (i + 1) a env]
  rw [show i + 1 + 2 = (i + 2) + 1 from rfl, mapEVAL_unfold]
  simp only [EVAL_atom i b env]
  rw [show i + 2 = (i + 1) + 1 from rfl, mapEVAL_unfold]
  rfl

/-- C19: in an environment where `Get` of `+` gives the addition builtin,
`EVAL` of `(+ a b)` for integers `a` and `b` returns an `Int` and leaves the
environment as it was.  The value is the 64-bit wrapping sum: it is a host
integer and differs from `a + b` by a multiple of 2^64; so it is `a + b` itself
when that is a host integer, and the largest host integer plus one gives the
smallest.  `(+ 1 2)` evaluates to `Int 3`, printed as `3`. -/
theorem EVAL_add (env : Env) (name : Str) (a b : Int)
    (hplus : env.Get "+".toList = .ok (.function name .add)) :
    (∃ v : Int, minInt ≤ v ∧ v ≤ maxInt ∧ (18446744073709551616 : Int) ∣ (a + b - v) ∧
      ∀ m, 8 ≤ m → EVAL m (.list [.symbol "+".toList, .int a, .int b]) env =
        some (.ok (.int v), env)) ∧
    (minInt ≤ a + b → a + b ≤ maxInt →
      ∀ m, 8 ≤ m → EVAL m (.list [.symbol "+".toList, .int a, .int b]) env =
        some (.ok (.int (a + b)), env)) ∧
    EVAL 8 (.list [.symbol "+".toList, .int 1, .int 2])
        (.root [("+".toList, .function "+".toList .add)]) =
      some (.ok (.int 3), .root [("+".toList, .function "+".toList .add)]) ∧
    (MalType.int 3).Print = "3".toList ∧
    EVAL 8 (.list [.symbol "+".toList, .int 9223372036854775807, .int 1])
        (.root [("+".toList, .function "+".toList .add)]) =
      some (.ok (.int (-9223372036854775808)),
        .root [("+".toList, .function "+".toList .add)]) ∧
    EVAL 8 (.list [.symbol "+".toList, .int (-9223372036854775808), .int (-1)])
        (.root [("+".toList, .function "+".toList .add)]) =
      some (.ok (.int 9223372036854775807),
        .root [("+".toList, .function "+".toList .add)]) := by
  refine ⟨⟨wrapInt (a + b), (wrapInt_range _).1, (wrapInt_range _).2, wrapInt_congruent _,
    fun m hm => EVAL_add_step env name a b hplus m hm⟩, fun h1 h2 m hm => ?_,
    by rfl, by rfl, by rfl, by rfl⟩
  rw [EVAL_add_step env name a b hplus m hm, wrapInt_of_range _ h1 h2]

theorem EVAL_add_witness :
    EVAL 9 (.list [.symbol "+".toList, .int 9223372036854775807, .int 1])
        (.child [] (.root [("+".toList, .function "plus".toList .add)])) =
      some (.ok (.int (-9223372036854775808)),
        .child [] (.root [("+".toList, .function "plus".toList .add)])) := by
  obtain ⟨v, h1, h2, h3, h4⟩ :=
    (EVAL_add (.child [] (.root [("+".toList, .function "plus".toList .add)])) "plus".toList
      9223372036854775807 1 (by rfl)).1
  have hv : v = -9223372036854775808 := by
    simp only [minInt, maxInt] at h1 h2
    omega
  rw [h4 9 (by decide), hv]

theorem binaryInt_ok (detail : Bool) (op : Int → Int → Res MalType) (args : List MalType)
    (v : MalType) :
    binaryInt detail op args = .ok v ↔
      ∃ a b rest, args = .int a :: .int b :: rest ∧ op a b = .ok v := by
  constructor
  · intro h
    cases args with
    | nil => simp [binaryInt] at h
    | cons x rest =>
      cases x with
      | int a =>
        cases rest with
        | nil => simp [binaryInt] at h
        | cons y rest1 =>
          cases y with
          | int b => exact ⟨a, b, rest1, rfl, by simpa [binaryInt] using h⟩
          | _ => simp [binaryInt] at h
      | _ => simp [binaryInt] at h
  · rintro ⟨a, b, rest, rfl, h⟩
    simpa [binaryInt] using h

theorem binaryInt_first (detail : Bool) (op : Int → Int → Res MalType) (x : MalType)
    (rest : List MalType) (hx : ∀ a, x ≠ .int a) :
    ∃ msg, binaryInt detail op (x :: rest) = .error msg := by
  cases x with
  | int a => exact absurd rfl (hx a)
  | _ => exact ⟨_, rfl⟩

theorem binaryInt_second (detail : Bool) (op : Int → Int → Res MalType) (a : Int) (y : MalType)
    (rest : List MalType) (hy : ∀ b, y ≠ .int b) :
    ∃ msg, binaryInt detail op (.int a :: y :: rest) = .error msg := by
  cases y with
  | int b => exact absurd rfl (hy b)
  | _ => exact ⟨_, rfl⟩

/-- C20 (amended): each of the builtins `+`, `-`, `*` and `/` returns a value
exactly when its first two arguments are `Int`s (for `/`, the second not zero),
whatever follows them, and the value is the operation on these two; it returns
an error when the first argument is no `Int`, and when the first is an `Int`
and the second is not. -/
theorem Builtin_Eval_value (f : Builtin) (hf : f = .add ∨ f = .sub ∨ f = .mul ∨ f = .div) :
    (∀ args v, f.Eval args = .ok v ↔
      ∃ a b rest, args = .int a :: .int b :: rest ∧ (f = .div → b ≠ 0) ∧
        v = .int (arith f a b)) ∧
    (∀ x rest, (∀ a, x ≠ .int a) → ∃ msg, f.Eval (x :: rest) = .error msg) ∧
    (∀ a y rest, (∀ b, y ≠ .int b) → ∃ msg, f.Eval (.int a :: y :: rest) = .error msg) := by
  rcases hf with h | h | h | h <;> subst h
  · refine ⟨fun args v => ?_, fun x rest hx => by rw [Builtin.Eval]; exact binaryInt_first _ _ x rest hx,
      fun a y rest hy => by rw [Builtin.Eval]; exact binaryInt_second _ _ a y rest hy⟩
    rw [Builtin.Eval, binaryInt_ok]
    constructor
    · rintro ⟨a, b, rest, rfl, h⟩
      exact ⟨a, b, rest, rfl, by simp, by simpa [NewIntFromInt, arith] using h.symm⟩
    · rintro ⟨a, b, rest, rfl, _, h⟩
      exact ⟨a, b, rest, rfl, by simp [NewIntFromInt, arith, h]⟩
  · refine ⟨fun args v => ?_, fun x rest hx => by rw [Builtin.Eval]; exact binaryInt_first _ _ x rest hx,
      fun a y rest hy => by rw [Builtin.Eval]; exact binaryInt_second _ _ a y rest hy⟩
    rw [Builtin.Eval, binaryInt_ok]
    constructor
    · rintro ⟨a, b, rest, rfl, h⟩
      exact ⟨a, b, rest, rfl, by simp, by simpa [NewIntFromInt, arith] using h.symm⟩
    · rintro ⟨a, b, rest, rfl, _, h⟩
      exact ⟨a, b, rest, rfl, by simp [NewIntFromInt, arith, h]⟩
  · refine ⟨fun args v => ?_, fun x rest hx => by rw [Builtin.Eval]; exact binaryInt_first _ _ x rest hx,
      fun a y rest hy => by rw [Builtin.Eval]; exact binaryInt_second _ _ a y rest hy⟩
    rw [Builtin.Eval, binaryInt_ok]
    constructor
    · rintro ⟨a, b, rest, rfl, h⟩
      exact ⟨a, b, rest, rfl, by simp, by simpa [NewIntFromInt, arith] using h.symm⟩
    · rintro ⟨a, b, rest, rfl, _, h⟩
      exact ⟨a, b, rest, rfl, by simp [NewIntFromInt, arith, h]⟩
  · refine ⟨fun args v => ?_, fun x rest hx => by rw [Builtin.Eval]; exact binaryInt_first _ _ x rest hx,
      fun a y rest hy => by rw [Builtin.Eval]; exact binaryInt_second _ _ a y rest hy⟩
    rw [Builtin.Eval, binaryInt_ok]
    constructor
    · rintro ⟨a, b, rest, rfl, h⟩
      by_cases hb : b = 0
      · simp [hb] at h
      · exact ⟨a, b, rest, rfl, fun _ => hb, by simpa [NewIntFromInt, arith, hb] using h.symm⟩
    · rintro ⟨a, b, rest, rfl, hb, h⟩
      exact ⟨a, b, rest, rfl, by simp [NewIntFromInt, arith, h, hb rfl]⟩

/-- C20 as stated fails: applied to three `Int`s the addition builtin returns a
value, the sum of the first two, and no error; applied to one `Int` it aborts
and returns nothing. -/
theorem Builtin_Eval_three_args :
    Builtin.add.Eval [.int 1, .int 2, .int 3] = .ok (.int 3) ∧
    [MalType.int 1, .int 2, .int 3].length ≠ 2 ∧
    (¬ ∃ msg, Builtin.add.Eval [.int 1, .int 2, .int 3] = .error msg) ∧
    Builtin.add.Eval [.int 1] = .panic := by
  refine ⟨by rfl, by decide, ?_, by rfl⟩
  rintro ⟨msg, h⟩
  have h2 : Builtin.add.Eval [.int 1, .int 2, .int 3] = .ok (.int 3) := by rfl
  rw [h2] at h
  cases h

theorem Builtin_Eval_value_witness :
    Builtin.div.Eval [.int (-7), .int 2, .nil] = .ok (.int (-3)) ∧
    ∃ msg, Builtin.div.Eval [.string "a".toList true, .int 2] = .error msg :=
  ⟨((Builtin_Eval_value .div (by simp)).1 _ _).mpr ⟨-7, 2, [.nil], rfl, by decide, by rfl⟩,
   (Builtin_Eval_value .div (by simp)).2.1 _ _ (by intro a h; cases h)⟩

/-! ## Bindings after a failed evaluation -/

theorem defFreeAll_values (entries : List ((Str × Bool) × MalType)) :
    defFreeAll (entries.map Prod.snd) = defFreeEntries entries := by
  induction entries with
  | nil => rfl
  | cons x rest ih =>
    obtain ⟨k, v⟩ := x
    simp only [List.map_cons, defFreeAll, defFreeEntries, ih]

/-- A form with no `def!` outside `let*` leaves the environment as it was,
through every function of the evaluator. -/
theorem EVAL_family_defFree (n : Nat) :
    (∀ ast env r env1, ast.defFree = true → EVAL n ast env = some (r, env1) → env1 = env) ∧
    (∀ items env r env1, (MalType.list items).defFree = true →
      apply n items env = some (r, env1) → env1 = env) ∧
    (∀ items env r env1, defFreeAll items = true →
      eval_ast n (.list items) env = some (r, env1) → env1 = env) ∧
    (∀ ast env r env1, (∀ items, ast ≠ .list items) → ast.defFree = true →
      eval_ast n ast env = some (r, env1) → env1 = env) ∧
    (∀ items env acc r env1, defFreeAll items = true →
      mapEVAL n items env acc = some (r, env1) → env1 = env) := by
  induction n with
  | zero =>
    refine ⟨?_, ?_, ?_, ?_, ?_⟩ <;> intros <;> rename_i h <;> first
      | simp [EVAL] at h | simp [apply] at h | simp [eval_ast] at h
      | simp [mapEVAL] at h
  | succ n ih =>
    obtain ⟨ihE, ihA, ihL, ihS, ihM⟩ := ih
    have hmap : ∀ (items : List MalType) (env : Env) (wrap : List MalType → MalType)
        (r : Res MalType) (env1 : Env), defFreeAll items = true →
        (match mapEVAL n items env [] with
          | none => none
          | some (.ok l, e1) => some (Res.ok (wrap l), e1)
          | some (.error e, e1) => some (Res.error e, e1)
          | some (.panic, e1) => some (Res.panic, e1)) = some (r, env1) →
        env1 = env := by
      intro items env wrap r env1 hd h
      cases hm : mapEVAL n items env [] with
      | none => rw [hm] at h; simp at h
      | some y =>
        obtain ⟨res, e1⟩ := y
        rw [hm] at h
        have := ihM _ _ _ _ _ hd hm
        cases res <;> simp only [Option.some.injEq, Prod.mk.injEq] at h <;> rw [← h.2, this]
    refine ⟨?_, ?_, ?_, ?_, ?_⟩
    · intro ast env r env1 hd h
      rw [EVAL_unfold] at h
      cases ast with
      | list items =>
        simp only at h
        by_cases hl : items.length = 0
        · rw [if_pos hl] at h
          simp only [Option.some.injEq, Prod.mk.injEq] at h
          exact h.2.symm
        · rw [if_neg hl] at h
          exact ihA _ _ _ _ hd h
      | vector items => exact ihS _ _ _ _ (by intro items h; cases h) hd h
      | hashMap entries => exact ihS _ _ _ _ (by intro items h; cases h) hd h
      | symbol v => exact ihS _ _ _ _ (by intro items h; cases h) hd h
      | string v k => exact ihS _ _ _ _ (by intro items h; cases h) hd h
      | int v => exact ihS _ _ _ _ (by intro items h; cases h) hd h
      | boolean v => exact ihS _ _ _ _ (by intro items h; cases h) hd h
      | nil => exact ihS _ _ _ _ (by intro items h; cases h) hd h
      | function name f => exact ihS _ _ _ _ (by intro items h; cases h) hd h
    · intro items env r env1 hd h
      cases items with
      | nil =>
        rw [apply_unfold] at h
        simp only [Option.some.injEq, Prod.mk.injEq] at h; exact h.2.symm
      | cons head rest =>
        simp only [MalType.defFree, Bool.and_eq_true, Bool.not_eq_true', Bool.or_eq_true] at hd
        obtain ⟨h1, h2⟩ := hd
        by_cases hlet : head.isSymbolNamed "let*".toList = true
        · exact apply_let_env n (EVAL_family_outer n).1 (EVAL_family_outer n).2.2.2.2
            head rest env r env1 hlet h
        · rcases h2 with h2 | h2
          · exact absurd h2 hlet
          · rw [apply_unfold] at h
            simp only [h1, hlet, Bool.false_eq_true, if_false] at h
            cases he : eval_ast n (.list (head :: rest)) env with
            | none => rw [he] at h; simp at h
            | some y =>
              obtain ⟨res, e1⟩ := y
              rw [he] at h
              have := ihL (head :: rest) env res e1
                (by simp only [defFreeAll, Bool.and_eq_true]; exact h2) he
              cases res with
              | ok v =>
                cases v <;> simp only [Option.some.injEq, Prod.mk.injEq] at h <;>
                  rw [← h.2, this]
              | error e => simp only [Option.some.injEq, Prod.mk.injEq] at h; rw [← h.2, this]
              | panic => simp only [Option.some.injEq, Prod.mk.injEq] at h; rw [← h.2, this]
    · intro items env r env1 hd h
      rw [eval_ast_unfold] at h
      exact hmap items env .list r env1 hd h
    · intro ast env r env1 hnl hd h
      rw [eval_ast_unfold] at h
      cases ast with
      | list items => exact absurd rfl (hnl items)
      | vector items =>
        exact hmap items env .vector r env1 (by simpa [MalType.defFree] using hd) h
      | hashMap entries =>
        exact hmap (entries.map Prod.snd) env (fun l => .hashMap (zipValues entries l)) r env1
          (by rw [defFreeAll_values]; simpa [MalType.defFree] using hd) h
      | _ => simp only [Option.some.injEq, Prod.mk.injEq] at h; exact h.2.symm
    · intro items env acc r env1 hd h
      rw [mapEVAL_unfold] at h
      cases items with
      | nil => simp only [Option.some.injEq, Prod.mk.injEq] at h; exact h.2.symm
      | cons v rest =>
        simp only [defFreeAll, Bool.and_eq_true] at hd
        simp only at h
        cases he : EVAL n v env with
        | none => rw [he] at h; simp at h
        | some y =>
          obtain ⟨res, e1⟩ := y
          rw [he] at h
          have h1 := ihE _ _ _ _ hd.1 he
          cases res with
          | ok item =>
            simp only at h
            rw [ihM _ _ _ _ _ hd.2 h, h1]
          | error e => simp only [Option.some.injEq, Prod.mk.injEq] at h; rw [← h.2, h1]
          | panic => simp only [Option.some.injEq, Prod.mk.injEq] at h; rw [← h.2, h1]

/-- C16 (amended): a failed evaluation leaves the bindings that the `def!` forms
evaluated before the failure have made, and no other.  When the evaluation of
`e` in `env` fails and leaves `env1`, `EVAL` of `(def! k e)` fails and leaves
`env1`, with no binding of `k` added to it; and when no list headed by `def!`
occurs in a form outside the lists headed by `let*`, `EVAL` of the form,
whatever it returns, leaves the very environment it was given. -/
theorem EVAL_failed_bindings (n : Nat) (env env1 : Env) :
    (∀ k e rest msg, EVAL n e env = some (.error msg, env1) →
      ∃ msg2, EVAL (n + 2) (.list (.symbol "def!".toList :: .symbol k :: e :: rest)) env =
        some (.error msg2, env1)) ∧
    (∀ f r, f.defFree = true → EVAL n f env = some (r, env1) → env1 = env) := by
  refine ⟨fun k e rest msg h => ?_, fun f r hd h => (EVAL_family_defFree n).1 f env r env1 hd h⟩
  rw [EVAL_def_step, h]
  exact ⟨_, rfl⟩

/-- C16 as stated fails: `EVAL` of `((def! x 1) y)` in the empty root
environment returns the error of the unbound `y`, and the environment it leaves
holds the binding of `x` that the first item made. -/
theorem EVAL_failed_after_def :
    EVAL 9 (.list [.list [.symbol "def!".toList, .symbol "x".toList, .int 1],
        .symbol "y".toList]) (.root []) =
      some (.error (notFound "y".toList), .root [("x".toList, .int 1)]) ∧
    (Env.root [("x".toList, .int 1)]).items ≠ (Env.root []).items := by
  refine ⟨by rfl, ?_⟩
  simp [Env.items]

theorem EVAL_failed_bindings_witness :
    (∃ msg2, EVAL 4 (.list [.symbol "def!".toList, .symbol "k".toList, .symbol "y".toList])
        (.root [("a".toList, .int 1)]) =
      some (.error msg2, .root [("a".toList, .int 1)])) ∧
    Env.root [("a".toList, .int 1)] = Env.root [("a".toList, .int 1)] :=
  ⟨(EVAL_failed_bindings 2 (.root [("a".toList, .int 1)]) (.root [("a".toList, .int 1)])).1
      "k".toList (.symbol "y".toList) [] (notFound "y".toList) (by rfl),
   (EVAL_failed_bindings 2 (.root [("a".toList, .int 1)]) (.root [("a".toList, .int 1)])).2
      (.symbol "y".toList) (.error (notFound "y".toList)) (by rfl) (by rfl)⟩

/-! ## Special forms with missing operands -/

/-- C21: in every environment and with every call bound that lets the call
return, `EVAL` of `(def!)`, of `(def! x)`, of `(let*)` and of `(let* [a 1])`
aborts on an index beyond the remaining forms and returns neither a value nor
an error. -/
theorem EVAL_missing_operands (env : Env) (m : Nat) :
    EVAL (m + 2) (.list [.symbol "def!".toList]) env = some (.panic, env) ∧
    (∀ k, EVAL (m + 2) (.list [.symbol "def!".toList, .symbol k]) env = some (.panic, env)) ∧
    EVAL (m + 2) (.list [.symbol "let*".toList]) env = some (.panic, env) ∧
    EVAL (m + 5) (.list [.symbol "let*".toList,
      .vector [.symbol "a".toList, .int 1]]) env = some (.panic, env) := by
  refine ⟨?_, fun k => ?_, ?_, ?_⟩
  · rw [EVAL_unfold]
    simp only [List.length_cons, Nat.add_one_ne_zero, if_false]
    rw [apply_unfold]
    rfl
  · rw [EVAL_unfold]
    simp only [List.length_cons, Nat.add_one_ne_zero, if_false]
    rw [apply_unfold]
    rfl
  · rw [EVAL_unfold]
    simp only [List.length_cons, Nat.add_one_ne_zero, if_false]
    rw [apply_unfold]
    rfl
  · rw [show m + 5 = (m + 4) + 1 from rfl, EVAL_unfold]
    simp only [List.length_cons, Nat.add_one_ne_zero, if_false]
    rw [show m + 4 = (m + 3) + 1 from rfl, apply_unfold]
    have h1 : (MalType.symbol "let*".toList).isSymbolNamed "def!".toList = false := rfl
    have h2 : (MalType.symbol "let*".toList).isSymbolNamed "let*".toList = true := rfl
    have h3 : (MalType.vector [.symbol "a".toList, .int 1]).seqItems =
      some [.symbol "a".toList, .int 1] := rfl
    have hb : BindEnv (m + 3) [.symbol "a".toList, .int 1] (NewEnv (some env)) =
        some (.ok (), (NewEnv (some env)).Set "a".toList (.int 1)) := by
      rw [show m + 3 = (m + 2) + 1 from rfl, BindEnv_unfold]
      simp only [EVAL_atom m 1 _]
      rw [show m + 2 = (m + 1) + 1 from rfl, BindEnv_unfold]
    simp only [h1, h2, h3, Bool.false_eq_true, if_false, if_true, hb]
    rfl

/-! ## Integer tokens beyond the host range -/

theorem Peek_ok_mem (r : Reader) (t : Str) (h : r.Peek = .ok t) : t ∈ r.tokens := by
  simp only [Reader.Peek] at h
  cases hg : r.tokens.get? r.position with
  | none => rw [hg] at h; simp at h
  | some v =>
    rw [hg] at h
    simp only [Res.ok.injEq] at h
    subst h
    exact List.get?_mem hg

theorem ReadAtom_no_panic (r : Reader) (r1 : Reader)
    (hr : ∀ t ∈ r.tokens, intRegexpMatch t = true → (Atoi t).isSome = true) :
    r.ReadAtom ≠ (.panic, r1) := by
  intro h
  rw [Reader.ReadAtom] at h
  rcases hN : r.Next with ⟨res, r2⟩
  rw [hN] at h
  cases res with
  | error e => simp at h
  | panic =>
    simp only [Reader.Next] at hN
    cases hp : r.Peek <;> rw [hp] at hN <;> simp at hN
    simp only [Reader.Peek] at hp
    split at hp <;> simp at hp
  | ok t =>
    have hmem : t ∈ r.tokens := by
      simp only [Reader.Next] at hN
      cases hp : r.Peek with
      | ok v =>
        rw [hp] at hN
        simp only [Prod.mk.injEq, Res.ok.injEq] at hN
        rw [← hN.1]
        exact Peek_ok_mem r v hp
      | error e => rw [hp] at hN; simp at hN
      | panic => rw [hp] at hN; simp at hN
    simp only at h
    by_cases hi : intRegexpMatch t = true
    · rw [if_pos hi] at h
      have := hr t hmem hi
      rw [NewInt] at h
      cases ha : Atoi t with
      | none => rw [ha] at this; simp at this
      | some v => rw [ha] at h; simp at h
    · rw [if_neg hi] at h
      split_ifs at h <;> simp at h

theorem dispatch_build_no_panic (t closer : Str) (build : List MalType → Res MalType)
    (h : dispatch t = .collection closer build) (l : List MalType) : build l ≠ .panic := by
  unfold dispatch at h
  by_cases h1 : t = [')']
  · rw [if_pos h1] at h; cases h
  rw [if_neg h1] at h
  by_cases h2 : t = ['(']
  · rw [if_pos h2] at h; cases h; intro hc; cases hc
  rw [if_neg h2] at h
  by_cases h3 : t = [']']
  · rw [if_pos h3] at h; cases h
  rw [if_neg h3] at h
  by_cases h4 : t = ['[']
  · rw [if_pos h4] at h; cases h; intro hc; cases hc
  rw [if_neg h4] at h
  by_cases h5 : t = ['}']
  · rw [if_pos h5] at h; cases h
  rw [if_neg h5] at h
  by_cases h6 : t = ['{']
  · rw [if_pos h6] at h; cases h
    intro hc
    simp only [buildHashMap] at hc
    split_ifs at hc
  rw [if_neg h6] at h
  split_ifs at h

/-- The reader aborts on out-of-range integer tokens only: when every token of
the integer pattern denotes a host integer, neither `ReadForm` nor the
collection loop ends in an abort. -/
theorem ReadForm_readSeq_no_panic (n : Nat) :
    (∀ r r1, (∀ t ∈ r.tokens, intRegexpMatch t = true → (Atoi t).isSome = true) →
      Reader.ReadForm n r ≠ some (.panic, r1)) ∧
    (∀ closer r acc r1,
      (∀ t ∈ r.tokens, intRegexpMatch t = true → (Atoi t).isSome = true) →
      Reader.readSeq n closer r acc ≠ some (.panic, r1)) := by
  have hpeek : ∀ r : Reader, r.Peek ≠ .panic := by
    intro r hp
    simp only [Reader.Peek] at hp
    split at hp <;> simp at hp
  induction n with
  | zero =>
    constructor
    · intro r r1 _ h; simp [Reader.ReadForm] at h
    · intro c r acc r1 _ h; simp [Reader.readSeq] at h
  | succ n ih =>
    obtain ⟨ihF, ihS⟩ := ih
    constructor
    · intro r r1 hr h
      rw [ReadForm_unfold] at h
      cases hp : r.Peek with
      | error e => rw [hp] at h; simp at h
      | panic => exact hpeek r hp
      | ok t =>
        rw [hp] at h
        simp only at h
        have hsk := skip_tokens r t
        cases hd : dispatch t with
        | fail msg => rw [hd] at h; simp at h
        | atom =>
          rw [hd] at h
          simp only [Option.some.injEq] at h
          exact ReadAtom_no_panic _ r1 (by rw [hsk.1]; exact hr) h
        | readerMacro name =>
          rw [hd] at h
          simp only at h
          have hnx := Next_tokens (r.skip t)
          cases hh : Reader.ReadForm n (r.skip t).Next.2 with
          | none => rw [hh] at h; simp at h
          | some y =>
            rw [hh] at h
            obtain ⟨res, r2⟩ := y
            cases res with
            | error e => simp [wrapMacro] at h
            | ok g => simp [wrapMacro] at h
            | panic => exact ihF _ r2 (by rw [hnx.1, hsk.1]; exact hr) hh
        | collection closer build =>
          rw [hd] at h
          simp only at h
          rcases hN : (r.skip t).Next with ⟨res, r2⟩
          rw [hN] at h
          cases res with
          | error e => simp at h
          | panic =>
            simp only [Reader.Next] at hN
            cases hp2 : (r.skip t).Peek <;> rw [hp2] at hN <;> simp at hN
            exact hpeek _ hp2
          | ok v =>
            have hnx := Next_ok _ v r2 hN
            simp only at h
            cases hh : Reader.readSeq n closer r2 [] with
            | none => rw [hh] at h; simp at h
            | some y =>
              rw [hh] at h
              obtain ⟨res, r3⟩ := y
              cases res with
              | error e => simp [finishSeq] at h
              | panic => exact ihS _ _ _ r3 (by rw [hnx.1, hsk.1]; exact hr) hh
              | ok l =>
                simp only [Option.map_some', finishSeq, Option.some.injEq, Prod.mk.injEq] at h
                exact dispatch_build_no_panic t closer build hd l h.1
    · intro closer r acc r1 hr h
      rw [readSeq_unfold] at h
      cases hp : r.Peek with
      | error e => rw [hp] at h; simp at h
      | panic => exact hpeek r hp
      | ok t =>
        rw [hp] at h
        simp only at h
        by_cases hc : t = closer
        · rw [if_pos hc] at h
          simp only [Option.some.injEq, Prod.mk.injEq, reduceCtorEq, false_and] at h
        · rw [if_neg hc] at h
          cases hh : Reader.ReadForm n r with
          | none => rw [hh] at h; simp at h
          | some y =>
            rw [hh] at h
            obtain ⟨res, r2⟩ := y
            cases res with
            | error e => simp at h
            | panic => exact ihF r r2 hr hh
            | ok g =>
              simp only at h
              have h1 := (ReadForm_readSeq_progress n).1 r g r2 hh
              exact ihS _ _ _ _ (by rw [h1.1]; exact hr) h

/-- C22: the token of thirty digits matches the integer pattern and `NewInt`
aborts on it, so `READ` of that text aborts and returns neither a form nor an
error; so does `READ` of the first integer beyond the host range, and of a list
holding one below it. -/
theorem READ_long_integer :
    intRegexpMatch "123456789012345678901234567890".toList = true ∧
    NewInt "123456789012345678901234567890".toList = .panic ∧
    READ "123456789012345678901234567890".toList = some .panic ∧
    READ "9223372036854775808".toList = some .panic ∧
    READ "(1 -9223372036854775809)".toList = some .panic ∧
    READ "9223372036854775807".toList = some (.ok (.int 9223372036854775807)) := by
  refine ⟨by rfl, by rfl, by rfl, by rfl, by rfl, by rfl⟩

/-! ## Reading a printed form gives the form back -/

theorem WellBehaved_Readable (f : MalType) (h : WellBehaved f) : Readable f := by
  induction h with
  | list xs _ ih => exact .list xs ih
  | vector xs _ ih => exact .vector xs ih
  | int v h1 h2 => exact .int v h1 h2
  | boolean b => exact .boolean b
  | nil => exact .nil
  | string s hs => exact .string s hs

theorem ReadSame_atom (f : MalType) (h : AtomText f.Print f) (ht : tokensOf f = [f.Print]) :
    ReadSame f := by
  intro pre rest n hn
  rw [ht] at hn ⊢
  obtain ⟨k, rfl⟩ : ∃ k, n = k + 1 := ⟨n - 1, by simp at hn; omega⟩
  rw [ReadForm_unfold]
  simp only [List.singleton_append, Peek_append, h.atom, h.skip, h.read, List.length_singleton]

theorem readSeq_elements_same (closer : Str) (hc : closer = [')'] ∨ closer = [']'])
    (xs : List MalType) (hs : ∀ x ∈ xs, Shape x) (h : ∀ x ∈ xs, ReadSame x) :
    ∀ (pre rest : List Str) (acc : List MalType) (n : Nat),
      2 * (tokensOfAll xs).length + 1 ≤ n →
      Reader.readSeq n closer ⟨pre ++ (tokensOfAll xs ++ closer :: rest), pre.length⟩ acc =
        some (.ok (acc ++ xs), ⟨pre ++ (tokensOfAll xs ++ closer :: rest),
          pre.length + (tokensOfAll xs).length + 1⟩) := by
  induction xs with
  | nil =>
    intro pre rest acc n hn
    obtain ⟨k, rfl⟩ : ∃ k, n = k + 1 := ⟨n - 1, by omega⟩
    rw [tokensOfAll_nil, readSeq_unfold]
    simp only [List.nil_append, Peek_append, if_true, Next_append, List.append_nil,
      List.length_nil, Nat.add_zero]
  | cons x xs ih =>
    intro pre rest acc n hn
    obtain ⟨t, ts, htok, hne1, hne2⟩ := (hs x (by simp)).first
    have hne : t ≠ closer := by rcases hc with e | e <;> subst e <;> assumption
    rw [tokensOfAll_cons] at hn ⊢
    have hlen : 1 ≤ (tokensOf x).length := by rw [htok]; simp
    obtain ⟨k, rfl⟩ : ∃ k, n = k + 1 := ⟨n - 1, by omega⟩
    simp only [List.length_append] at hn
    have hf1 := h x (by simp) pre (tokensOfAll xs ++ closer :: rest) k (by omega)
    have hys := ih (fun z hz => hs z (by simp [hz])) (fun z hz => h z (by simp [hz]))
      (pre ++ tokensOf x) rest (acc ++ [x]) k (by omega)
    have e1 : pre ++ (tokensOf x ++ tokensOfAll xs ++ closer :: rest) =
        pre ++ (tokensOf x ++ (tokensOfAll xs ++ closer :: rest)) := by simp
    have e2 : pre ++ tokensOf x ++ (tokensOfAll xs ++ closer :: rest) =
        pre ++ (tokensOf x ++ (tokensOfAll xs ++ closer :: rest)) := by simp
    rw [e2, List.length_append] at hys
    rw [e1]
    rw [readSeq_unfold]
    have hpeek : (Reader.mk (pre ++ (tokensOf x ++ (tokensOfAll xs ++ closer :: rest)))
        pre.length).Peek = .ok t := by
      rw [htok]; exact Peek_append pre t _
    rw [hpeek]
    simp only [if_neg hne, hf1, hys]
    simp [Nat.add_assoc]

theorem ReadForm_brackets_same (o c : Char) (build : List MalType → Res MalType)
    (hd : dispatch [o] = .collection [c] build) (hsk : ∀ r : Reader, r.skip [o] = r)
    (hc : [c] = [')'] ∨ [c] = [']'])
    (xs : List MalType) (hs : ∀ x ∈ xs, Shape x) (h : ∀ x ∈ xs, ReadSame x)
    (pre rest : List Str) (n : Nat) (hn : 2 * ((tokensOfAll xs).length + 2) ≤ n) :
    Reader.ReadForm n ⟨pre ++ ([o] :: (tokensOfAll xs ++ [[c]]) ++ rest), pre.length⟩ =
      some (build xs, ⟨pre ++ ([o] :: (tokensOfAll xs ++ [[c]]) ++ rest),
        pre.length + ((tokensOfAll xs).length + 2)⟩) := by
  obtain ⟨k, rfl⟩ : ∃ k, n = k + 1 := ⟨n - 1, by omega⟩
  have hys := readSeq_elements_same [c] hc xs hs h (pre ++ [[o]]) rest [] k (by omega)
  have e1 : pre ++ [[o]] ++ (tokensOfAll xs ++ [c] :: rest) =
      pre ++ ([o] :: (tokensOfAll xs ++ [[c]]) ++ rest) := by simp
  rw [e1] at hys
  rw [ReadForm_unfold]
  have hpeek : (Reader.mk (pre ++ ([o] :: (tokensOfAll xs ++ [[c]]) ++ rest)) pre.length).Peek =
      .ok [o] := Peek_append pre [o] _
  have hnext : (Reader.mk (pre ++ ([o] :: (tokensOfAll xs ++ [[c]]) ++ rest)) pre.length).Next =
      (.ok [o], ⟨pre ++ ([o] :: (tokensOfAll xs ++ [[c]]) ++ rest), pre.length + 1⟩) :=
    Next_append pre [o] _
  rw [hpeek]
  simp only [hd, hsk, hnext]
  simp only [List.length_append, List.length_singleton] at hys
  have harith : pre.length + 1 + (tokensOfAll xs).length + 1 =
      pre.length + ((tokensOfAll xs).length + 2) := by omega
  rw [hys, harith]
  simp [finishSeq]

theorem ReadSame_list (xs : List MalType) (hs : ∀ x ∈ xs, Shape x) (h : ∀ x ∈ xs, ReadSame x) :
    ReadSame (.list xs) := by
  intro pre rest n hn
  rw [tokensOf_list] at hn ⊢
  simp only [List.length_cons, List.length_append, List.length_singleton] at hn
  have hys := ReadForm_brackets_same '(' ')' (fun l => .ok (.list l)) rfl (fun _ => rfl)
    (Or.inl rfl) xs hs h pre rest n (by omega)
  rw [hys]
  simp only [List.length_cons, List.length_append, List.length_singleton, List.length_nil]

theorem ReadSame_vector (xs : List MalType) (hs : ∀ x ∈ xs, Shape x)
    (h : ∀ x ∈ xs, ReadSame x) : ReadSame (.vector xs) := by
  intro pre rest n hn
  rw [tokensOf_vector] at hn ⊢
  simp only [List.length_cons, List.length_append, List.length_singleton] at hn
  have hys := ReadForm_brackets_same '[' ']' (fun l => .ok (.vector l)) rfl (fun _ => rfl)
    (Or.inr rfl) xs hs h pre rest n (by omega)
  rw [hys]
  simp only [List.length_cons, List.length_append, List.length_singleton, List.length_nil]

/-- The reader on the tokens of every well-behaved form. -/
theorem WellBehaved_read (f : MalType) (h : WellBehaved f) : ReadSame f := by
  induction h with
  | list xs hx ih =>
    exact ReadSame_list xs
      (fun x hxs => (Readable_tokens x (WellBehaved_Readable x (hx x hxs))).1) ih
  | vector xs hx ih =>
    exact ReadSame_vector xs
      (fun x hxs => (Readable_tokens x (WellBehaved_Readable x (hx x hxs))).1) ih
  | int v h1 h2 =>
    exact ReadSame_atom _ (by rw [MalType.Print]; exact AtomText_int v h1 h2)
      (by rw [tokensOf, MalType.Print])
  | boolean b => exact ReadSame_atom _ (AtomText_boolean b) (by rw [tokensOf])
  | nil =>
    exact ReadSame_atom _ (by rw [MalType.Print]; exact AtomText_nil)
      (by rw [tokensOf, MalType.Print])
  | string s hs =>
    exact ReadSame_atom _ (by rw [MalType.Print]; exact AtomText_string s hs)
      (by rw [tokensOf, MalType.Print])

/-- C23: for every form built from host integers, booleans, nil, non-keyword
strings without U+029E, and lists and vectors of such forms, `ReadForm` over
the tokens of the printed text succeeds, leaves the cursor behind the last
token, and returns the form itself; so `READ` of the printed text returns the
form. -/
theorem READ_Print_structural (f : MalType) (h : WellBehaved f) :
    Reader.ReadForm (readFuel (Tokenize f.Print)) (NewReader (Tokenize f.Print)) =
      some (.ok f, ⟨Tokenize f.Print, (Tokenize f.Print).length⟩) ∧
    READ f.Print = some (.ok f) := by
  have ht := Tokenize_Print f (WellBehaved_Readable f h)
  have hf1 := WellBehaved_read f h [] [] (readFuel (tokensOf f))
    (by simp only [readFuel]; omega)
  simp only [List.nil_append, List.append_nil, List.length_nil, Nat.zero_add] at hf1
  refine ⟨?_, ?_⟩
  · rw [ht, NewReader, hf1]
  · rw [READ, ht, NewReader, hf1]; rfl

theorem READ_Print_structural_witness :
    READ (MalType.list [.int (-3), .vector [], .list [],
        .vector [.string "x\x22y\n".toList false, .nil, .boolean true]]).Print =
      some (.ok (.list [.int (-3), .vector [], .list [],
        .vector [.string "x\x22y\n".toList false, .nil, .boolean true]])) :=
  (READ_Print_structural _ (.list _ (by
    intro x hx
    simp only [List.mem_cons, List.mem_singleton, List.not_mem_nil, or_false] at hx
    rcases hx with rfl | rfl | rfl | rfl
    · exact .int _ (by decide) (by decide)
    · exact .vector _ (by intro y hy; cases hy)
    · exact .list _ (by intro y hy; cases hy)
    · refine .vector _ ?_
      intro y hy
      simp only [List.mem_cons, List.mem_singleton, List.not_mem_nil, or_false] at hy
      rcases hy with rfl | rfl | rfl
      · exact .string _ (by decide)
      · exact .nil
      · exact .boolean _))).2

/-! ## The cursor stays within the tokens -/

theorem Next_ok_lt (r : Reader) (t : Str) (r1 : Reader) (h : r.Next = (.ok t, r1)) :
    r.position < r.tokens.length := by
  simp only [Reader.Next] at h
  cases hp : r.Peek with
  | ok v => exact Peek_ok_lt r v hp
  | error e => rw [hp] at h; simp at h
  | panic => rw [hp] at h; simp at h

theorem ReadAtom_ok_lt (r : Reader) (f : MalType) (r1 : Reader) (h : r.ReadAtom = (.ok f, r1)) :
    r.position < r.tokens.length := by
  rw [Reader.ReadAtom] at h
  rcases hN : r.Next with ⟨res, r2⟩
  rw [hN] at h
  cases res with
  | error e => simp at h
  | panic => simp at h
  | ok t => exact Next_ok_lt r t r2 hN

/-- A successful `ReadForm` or collection loop leaves the cursor within the
tokens, and the loop has collected fewer forms than it has consumed tokens. -/
theorem ReadForm_readSeq_within (n : Nat) :
    (∀ r f r1, Reader.ReadForm n r = some (.ok f, r1) → r1.position ≤ r.tokens.length) ∧
    (∀ closer r acc l r1, Reader.readSeq n closer r acc = some (.ok l, r1) →
      r1.position ≤ r.tokens.length ∧
      ∃ new, l = acc ++ new ∧ new.length < r1.position - r.position) := by
  induction n with
  | zero =>
    constructor
    · intro r f r1 h; simp [Reader.ReadForm] at h
    · intro c r acc l r1 h; simp [Reader.readSeq] at h
  | succ n ih =>
    obtain ⟨ihF, ihS⟩ := ih
    constructor
    · intro r f r1 h
      rw [ReadForm_unfold] at h
      cases hp : r.Peek with
      | error e => rw [hp] at h; simp at h
      | panic => rw [hp] at h; simp at h
      | ok t =>
        rw [hp] at h
        simp only at h
        have hsk := skip_tokens r t
        cases hd : dispatch t with
        | fail msg => rw [hd] at h; simp at h
        | atom =>
          rw [hd] at h
          simp only [Option.some.injEq] at h
          have h1 := ReadAtom_ok _ f r1 h
          have h2 := ReadAtom_ok_lt _ f r1 h
          rw [hsk.1] at h2
          omega
        | readerMacro name =>
          rw [hd] at h
          simp only at h
          have hnx := Next_tokens (r.skip t)
          cases hh : Reader.ReadForm n (r.skip t).Next.2 with
          | none => rw [hh] at h; simp at h
          | some y =>
            rw [hh] at h
            obtain ⟨res, r2⟩ := y
            cases res with
            | error e => simp [wrapMacro] at h
            | panic => simp [wrapMacro] at h
            | ok g =>
              simp only [Option.map_some', wrapMacro, Option.some.injEq, Prod.mk.injEq] at h
              have := ihF _ g r2 hh
              rw [hnx.1, hsk.1] at this
              rw [← h.2]
              exact this
        | collection closer build =>
          rw [hd] at h
          simp only at h
          rcases hN : (r.skip t).Next with ⟨res, r2⟩
          rw [hN] at h
          cases res with
          | error e => simp at h
          | panic => simp at h
          | ok v =>
            have hnx := Next_ok _ v r2 hN
            simp only at h
            cases hh : Reader.readSeq n closer r2 [] with
            | none => rw [hh] at h; simp at h
            | some y =>
              rw [hh] at h
              obtain ⟨res, r3⟩ := y
              cases res with
              | error e => simp [finishSeq] at h
              | panic => simp [finishSeq] at h
              | ok l =>
                simp only [Option.map_some', finishSeq, Option.some.injEq, Prod.mk.injEq] at h
                have := (ihS _ _ _ l r3 hh).1
                rw [hnx.1, hsk.1] at this
                rw [← h.2]
                exact this
    · intro closer r acc l r1 h
      rw [readSeq_unfold] at h
      cases hp : r.Peek with
      | error e => rw [hp] at h; simp at h
      | panic => rw [hp] at h; simp at h
      | ok t =>
        rw [hp] at h
        simp only at h
        have hlt := Peek_ok_lt r t hp
        by_cases hc : t = closer
        · rw [if_pos hc] at h
          simp only [Option.some.injEq, Prod.mk.injEq, Res.ok.injEq] at h
          rw [← h.2, ← h.1, Next_of_Peek r t hp]
          exact ⟨hlt, [], by simp, by simp⟩
        · rw [if_neg hc] at h
          cases hh : Reader.ReadForm n r with
          | none => rw [hh] at h; simp at h
          | some y =>
            rw [hh] at h
            obtain ⟨res, r2⟩ := y
            cases res with
            | error e => simp at h
            | panic => simp at h
            | ok g =>
              simp only at h
              have h1 := (ReadForm_readSeq_progress n).1 r g r2 hh
              obtain ⟨h2, new, hnew, hlen⟩ := ihS _ _ _ _ _ h
              rw [h1.1] at h2
              refine ⟨h2, g :: new, by rw [hnew]; simp, ?_⟩
              simp only [List.length_cons]
              omega

/-- C24: on every token sequence and from every cursor position `p`,
`ReadForm` returns, with one result for every call bound of at least three per
remaining token and one more; when it succeeds the tokens are the same and the
cursor afterwards is beyond `p` and at most the number of tokens.  In the loop
of a collection, an iteration that goes round again has read a form and moved
the cursor forward within the tokens, and a loop that ends at its closing token
has collected fewer forms than it has consumed tokens. -/
theorem ReadForm_terminates (tokens : List Str) (p : Nat) :
    (∃ x, ∀ n, 3 * (tokens.length - p) + 1 ≤ n → Reader.ReadForm n ⟨tokens, p⟩ = some x) ∧
    (∀ n f r1, Reader.ReadForm n ⟨tokens, p⟩ = some (.ok f, r1) →
      r1.tokens = tokens ∧ p < r1.position ∧ r1.position ≤ tokens.length) ∧
    (∀ n closer acc t f r1, (Reader.mk tokens p).Peek = .ok t → t ≠ closer →
      Reader.ReadForm n ⟨tokens, p⟩ = some (.ok f, r1) →
      Reader.readSeq (n + 1) closer ⟨tokens, p⟩ acc = Reader.readSeq n closer r1 (acc ++ [f]) ∧
        p < r1.position ∧ r1.position ≤ tokens.length) ∧
    (∀ n closer acc l r1, Reader.readSeq n closer ⟨tokens, p⟩ acc = some (.ok l, r1) →
      r1.tokens = tokens ∧ r1.position ≤ tokens.length ∧
      ∃ new, l = acc ++ new ∧ new.length < r1.position - p) := by
  refine ⟨?_, fun n f r1 h => ?_, fun n closer acc t f r1 hp hne h => ?_,
    fun n closer acc l r1 h => ?_⟩
  · obtain ⟨x, hx⟩ := (ReadForm_readSeq_enough (tokens.length - p)).1 ⟨tokens, p⟩
      (3 * (tokens.length - p) + 1) (Nat.le_refl _) (Nat.le_refl _)
    exact ⟨x, fun n hn => ReadForm_mono hn hx⟩
  · have h1 := (ReadForm_readSeq_progress n).1 _ f r1 h
    have h2 := (ReadForm_readSeq_within n).1 _ f r1 h
    exact ⟨h1.1, h1.2, h2⟩
  · have h1 := (ReadForm_readSeq_progress n).1 _ f r1 h
    have h2 := (ReadForm_readSeq_within n).1 _ f r1 h
    refine ⟨?_, h1.2, h2⟩
    rw [readSeq_unfold, hp]
    simp only [if_neg hne, h]
  · have h1 := (ReadForm_readSeq_progress n).2 _ _ _ l r1 h
    have h2 := (ReadForm_readSeq_within n).2 _ _ _ l r1 h
    exact ⟨h1.1, h2.1, h2.2⟩

theorem ReadForm_terminates_witness :
    Reader.ReadForm 8
        ⟨["(".toList, "1".toList, "(".toList, ")".toList, ")".toList, "x".toList], 0⟩ =
      some (.ok (.list [.int 1, .list []]),
        ⟨["(".toList, "1".toList, "(".toList, ")".toList, ")".toList, "x".toList], 5⟩) ∧
    0 < 5 ∧
    5 ≤ ["(".toList, "1".toList, "(".toList, ")".toList, ")".toList, "x".toList].length :=
  ⟨by rfl,
   ((ReadForm_terminates
      ["(".toList, "1".toList, "(".toList, ")".toList, ")".toList, "x".toList] 0).2.1 8
      (.list [.int 1, .list []]) ⟨_, 5⟩ (by rfl)).2⟩

/-! ## The entries of a hashmap -/

theorem mapGet_mapSet (items : List ((Str × Bool) × MalType)) (k key : Str × Bool)
    (v : MalType) :
    mapGet (mapSet items k v) key = if k = key then some v else mapGet items key := by
  induction items with
  | nil => simp only [mapSet, mapGet]
  | cons e rest ih =>
    obtain ⟨k1, v1⟩ := e
    by_cases h1 : k1 = k
    · subst h1
      simp only [mapSet, if_true, mapGet]
      by_cases h2 : k1 = key
      · simp only [if_pos h2]
      · simp only [if_neg h2]
    · simp only [mapSet, if_neg h1, mapGet, ih]
      by_cases h2 : k1 = key
      · subst h2
        simp only [if_neg (Ne.symm h1), if_true]
      · simp only [if_neg h2]

theorem keys_mapSet (items : List ((Str × Bool) × MalType)) (k : Str × Bool) (v : MalType) :
    (mapSet items k v).map Prod.fst =
      if k ∈ items.map Prod.fst then items.map Prod.fst else items.map Prod.fst ++ [k] := by
  induction items with
  | nil => simp only [mapSet, List.map_cons, List.map_nil, List.not_mem_nil, if_false,
      List.nil_append]
  | cons e rest ih =>
    obtain ⟨k1, v1⟩ := e
    by_cases h1 : k1 = k
    · subst h1
      simp only [mapSet, if_true, List.map_cons, List.mem_cons, true_or]
    · have h2 : ¬ k = k1 := fun h => h1 h.symm
      simp only [mapSet, if_neg h1, List.map_cons, ih, List.mem_cons, h2, false_or]
      split_ifs
      · rfl
      · rfl

theorem nodup_mapSet (items : List ((Str × Bool) × MalType)) (k : Str × Bool) (v : MalType)
    (h : (items.map Prod.fst).Nodup) : ((mapSet items k v).map Prod.fst).Nodup := by
  rw [keys_mapSet]
  split_ifs with hk
  · exact h
  · exact List.Nodup.append h (List.nodup_singleton k) (List.disjoint_singleton.mpr hk)

theorem mem_iff_mapGet (items : List ((Str × Bool) × MalType))
    (h : (items.map Prod.fst).Nodup) (key : Str × Bool) (v : MalType) :
    (key, v) ∈ items ↔ mapGet items key = some v := by
  induction items with
  | nil => simp [mapGet]
  | cons e rest ih =>
    obtain ⟨k1, v1⟩ := e
    simp only [List.map_cons, List.nodup_cons] at h
    by_cases h1 : k1 = key
    · subst h1
      simp only [List.mem_cons, Prod.mk.injEq, true_and, mapGet, if_true, Option.some.injEq]
      constructor
      · rintro (hv | hm)
        · exact hv.symm
        · exact absurd (List.mem_map_of_mem Prod.fst hm) h.1
      · intro hv
        exact Or.inl hv.symm
    · simp only [List.mem_cons, Prod.mk.injEq, mapGet, if_neg h1, ← ih h.2]
      constructor
      · rintro (hv | hm)
        · exact absurd hv.1.symm h1
        · exact hm
      · intro hm
        exact Or.inr hm

/-- The loop of `NewHashMap`: a key is looked up to the value of the last pair
with that key, or to what the map held before the loop. -/
theorem hashMapLoop_spec (n : Nat) :
    ∀ (forms : List MalType) (acc : List ((Str × Bool) × MalType)), forms.length ≤ n →
      (∀ key, mapGet (hashMapLoop forms acc) key =
        match lastPair forms key with
        | some w => some w
        | none => mapGet acc key) ∧
      ((acc.map Prod.fst).Nodup → ((hashMapLoop forms acc).map Prod.fst).Nodup) := by
  induction n with
  | zero =>
    intro forms acc hn
    cases forms with
    | nil => exact ⟨fun key => by simp [hashMapLoop, lastPair], fun h => by simpa [hashMapLoop] using h⟩
    | cons k rest => simp at hn
  | succ n ih =>
    intro forms acc hn
    cases forms with
    | nil => exact ⟨fun key => by simp [hashMapLoop, lastPair], fun h => by simpa [hashMapLoop] using h⟩
    | cons k rest =>
      cases rest with
      | nil =>
        exact ⟨fun key => by simp [hashMapLoop, lastPair], fun h => by simpa [hashMapLoop] using h⟩
      | cons v rest =>
        have hlen : rest.length ≤ n := by simp only [List.length_cons] at hn; omega
        cases k with
        | string value keyword =>
          obtain ⟨h1, h2⟩ := ih rest (mapSet acc (value, keyword) v) hlen
          refine ⟨fun key => ?_, fun h => ?_⟩
          · rw [hashMapLoop, h1 key, lastPair, mapGet_mapSet]
            cases lastPair rest key with
            | some w => rfl
            | none =>
              simp only
              split_ifs
              · rfl
              · rfl
          · rw [hashMapLoop]
            exact h2 (nodup_mapSet _ _ _ h)
        | _ =>
          obtain ⟨h1, h2⟩ := ih rest acc hlen
          refine ⟨fun key => ?_, fun h => ?_⟩
          · simp only [hashMapLoop, lastPair, h1 key]
            cases lastPair rest key <;> rfl
          · simp only [hashMapLoop]
            exact h2 h

/-- C25: for an even number of forms `k1 v1 ... kn vn`, `ReadHashMap` ends
without error in `NewHashMap`, whose map holds no key twice and holds exactly
the entries `(key, v)` where `v` is the value of the last pair whose key is the
String or Keyword with text and keyword flag `key`; pairs with any other key
leave nothing.  The String `a` and the Keyword `:a` are two keys, and the
literal `{1 2}` reads as the empty map. -/
theorem NewHashMap_entries (forms : List MalType) (h : forms.length % 2 = 0) :
    buildHashMap forms = .ok (NewHashMap forms) ∧
    NewHashMap forms = .hashMap (hashMapLoop forms []) ∧
    ((hashMapLoop forms []).map Prod.fst).Nodup ∧
    (∀ key v, (key, v) ∈ hashMapLoop forms [] ↔ lastPair forms key = some v) ∧
    NewHashMap [.string "a".toList false, .int 1, .string "a".toList true, .int 2,
        .string "a".toList false, .int 3, .int 7, .int 8] =
      .hashMap [(("a".toList, false), .int 3), (("a".toList, true), .int 2)] ∧
    READ "\x7b1 2\x7d".toList = some (.ok (.hashMap [])) := by
  obtain ⟨h1, h2⟩ := hashMapLoop_spec forms.length forms [] (Nat.le_refl _)
  have hnd := h2 (by simp)
  refine ⟨?_, rfl, hnd, fun key v => ?_, by rfl, by rfl⟩
  · simp [buildHashMap, h]
  · rw [mem_iff_mapGet _ hnd, h1 key]
    cases lastPair forms key <;> simp [mapGet]

theorem NewHashMap_entries_witness :
    buildHashMap [.string "a".toList false, .int 1, .symbol "b".toList, .int 2,
        .string "a".toList false, .nil] =
      .ok (NewHashMap [.string "a".toList false, .int 1, .symbol "b".toList, .int 2,
        .string "a".toList false, .nil]) :=
  (NewHashMap_entries [.string "a".toList false, .int 1, .symbol "b".toList, .int 2,
    .string "a".toList false, .nil] (by decide)).1

end Jdgo
